import Mathlib

/-!
Magnet URI codec (`magneturi.go`): `Parse`, `Normalize` and `Encode`.

A shallow embedding of `src/magneturi.go`.

* A Go `string` is a sequence of bytes: `Str = List Byte` with `Byte = Fin 256`.
* The Go library functions the file calls (`strings.HasPrefix`, `strings.Split`,
  `url.QueryUnescape`, `url.QueryEscape`, `strconv.ParseInt`, `strconv.FormatInt`) are
  embedded from their Go sources, restricted to the arguments `magneturi.go` passes
  (non-empty separators, base 10, 64 bits, query-component mode).
* Go does not specify the order in which `range` visits a map.  Every `range` over a map in
  the source therefore takes its order from a `RangeOrder`, which may be any permutation.
* `Parse` returns `(*Magnet, error)` with exactly one of the two non-nil: `Except Error Magnet`.
* `Normalize` sorts slices in place.  `MagnetMem.Normalize` runs it on a heap of backing
  arrays, in which the slices of a Magnet may overlap.  The function `Normalize` on values is
  its effect on a Magnet whose slices share no storage (`MagnetMem.value_Normalize`); `Parse`
  builds such Magnets, and `Parse` and `Encode` only read the values.
-/

namespace Magneturi

/-! ## Bytes and strings -/

/-- A Go `byte`. -/
abbrev Byte := Fin 256

/-- A Go `string`, as its sequence of bytes. -/
abbrev Str := List Byte

/-- The byte sequence of an ASCII literal. -/
def B (s : String) : Str := s.toList.map (fun c => Fin.ofNat c.toNat)

deriving instance DecidableEq for Except

/-! ## `strings` -/

/-- Go `strings.HasPrefix(s, prefix)`. -/
def HasPrefix (s pre : Str) : Bool := pre.isPrefixOf s

/-- Go `strings.Index(s, sep)`: the index of the first occurrence of `sep` in `s`, if any. -/
def Index (sep : Str) : Str → Option Nat
  | [] => if sep = [] then some 0 else none
  | c :: s => if sep.isPrefixOf (c :: s) then some 0 else (Index sep s).map (· + 1)

/-- The loop of `strings.genSplit(s, sep, 0, -1)` for a non-empty `sep`: at most `n` times, cut
`s` at the first occurrence of `sep` (`a[i] = s[:m]; s = s[m+len(sep):]`); the rest of `s` is the
last piece. -/
def genSplit (sep : Str) : Nat → Str → List Str
  | 0, s => [s]
  | n + 1, s =>
    match Index sep s with
    | none => [s]
    | some m => s.take m :: genSplit sep n (s.drop (m + sep.length))

/-- Go `strings.Split(s, sep)` for a non-empty `sep`.  The source bounds the loop by
`Count(s, sep)`; every round removes at least one byte of `s`, so `len(s)` rounds are never
exhausted before `Index` fails (`genSplit_fuel`). -/
def Split (s sep : Str) : List Str := genSplit sep s.length s

/-- Go `strings.Join(elems, sep)`. -/
def Join (elems : List Str) (sep : Str) : Str := sep.intercalate elems

/-! ## `net/url` -/

/-- Go `url.ishex`. -/
def ishex (c : Byte) : Bool :=
  (48 ≤ c.val && c.val ≤ 57) || (97 ≤ c.val && c.val ≤ 102) || (65 ≤ c.val && c.val ≤ 70)

/-- Go `url.unhex`. -/
def unhex (c : Byte) : Nat :=
  if 48 ≤ c.val ∧ c.val ≤ 57 then c.val - 48
  else if 97 ≤ c.val ∧ c.val ≤ 102 then c.val - 97 + 10
  else if 65 ≤ c.val ∧ c.val ≤ 70 then c.val - 65 + 10
  else 0

/-- The errors `Parse` can return. -/
inductive Error where
  /-- The package variable `errNoPrefix`. -/
  | errNoPrefix
  /-- A `url.EscapeError`, carrying the offending text. -/
  | EscapeError (s : Str)
  /-- A `*strconv.NumError` whose `Err` is `strconv.ErrSyntax`. -/
  | ErrSyntax
  /-- A `*strconv.NumError` whose `Err` is `strconv.ErrRange`. -/
  | ErrRange
  deriving DecidableEq, Repr

/-- Go `url.QueryUnescape(s)`, that is `unescape(s, encodeQueryComponent)`: `%XY` becomes the byte
`unhex(X)<<4 | unhex(Y)`, `+` becomes a space; a `%` not followed by two hex digits is an
`EscapeError` of the (at most three) bytes starting there. -/
def QueryUnescape : Str → Except Error Str
  | [] => .ok []
  | c :: s =>
    if c = 37 then
      match s with
      | a :: b :: rest =>
        if ishex a && ishex b then
          match QueryUnescape rest with
          | .ok t => .ok (Fin.ofNat ((unhex a * 16 % 256) ||| unhex b) :: t)
          | .error e => .error e
        else .error (.EscapeError ((c :: s).take 3))
      | _ => .error (.EscapeError ((c :: s).take 3))
    else
      match QueryUnescape s with
      | .ok t => .ok ((if c = 43 then 32 else c) :: t)
      | .error e => .error e

/-- Go `url.shouldEscape(c, encodeQueryComponent)`: everything but ASCII letters, digits and
`-`, `_`, `.`, `~`. -/
def shouldEscape (c : Byte) : Bool :=
  if (97 ≤ c.val && c.val ≤ 122) || (65 ≤ c.val && c.val ≤ 90) || (48 ≤ c.val && c.val ≤ 57) then
    false
  else if c = 45 ∨ c = 95 ∨ c = 46 ∨ c = 126 then false
  else true

/-- The table `upperhex = "0123456789ABCDEF"`, indexed by a nibble. -/
def upperhex (n : Nat) : Byte :=
  if n < 10 then Fin.ofNat (48 + n) else Fin.ofNat (65 + (n - 10))

/-- Go `url.QueryEscape(s)`, that is `escape(s, encodeQueryComponent)`. -/
def QueryEscape : Str → Str
  | [] => []
  | c :: s =>
    if c = 32 then 43 :: QueryEscape s
    else if shouldEscape c then 37 :: upperhex (c.val / 16) :: upperhex (c.val % 16) :: QueryEscape s
    else c :: QueryEscape s

/-! ## `strconv` -/

/-- The digit loop of `strconv.ParseUint(s, 10, 64)` on the accumulator `n` (a `uint64`). -/
def parseUintLoop : Str → Nat → Except Error Nat
  | [], n => .ok n
  | c :: s, n =>
    if 48 ≤ c.val ∧ c.val ≤ 57 then
      if n ≥ (2 ^ 64 - 1) / 10 + 1 then .error .ErrRange
      else
        let n10 := n * 10 % 2 ^ 64
        let n1 := (n10 + (c.val - 48)) % 2 ^ 64
        if n1 < n10 ∨ n1 > 2 ^ 64 - 1 then .error .ErrRange
        else parseUintLoop s n1
    else .error .ErrSyntax

/-- Go `strconv.ParseUint(s, 10, 64)`. -/
def ParseUint (s : Str) : Except Error Nat :=
  if s = [] then .error .ErrSyntax else parseUintLoop s 0

/-- Go `strconv.ParseInt(s, 10, 64)`.  A syntax error of `ParseUint` is returned at once; a range
error of `ParseUint` leaves `un = maxUint64`, which the cutoff tests that follow report as a
range error again: either way the error of `ParseUint` is the error of `ParseInt`. -/
def ParseInt (s : Str) : Except Error Int :=
  match s with
  | [] => .error .ErrSyntax
  | c :: t =>
    let neg : Bool := c = 45
    let s1 : Str := if c = 43 ∨ c = 45 then t else c :: t
    match ParseUint s1 with
    | .error e => .error e
    | .ok un =>
      if !neg && un ≥ 2 ^ 63 then .error .ErrRange
      else if neg && un > 2 ^ 63 then .error .ErrRange
      else .ok (if neg then -(un : Int) else (un : Int))

/-- The decimal digits of `n`, most significant first, with `fuel` bounding their number. -/
def formatBits : Nat → Nat → Str
  | 0, _ => []
  | fuel + 1, n =>
    if n < 10 then [Fin.ofNat (48 + n)]
    else formatBits fuel (n / 10) ++ [Fin.ofNat (48 + n % 10)]

/-- Go `strconv.FormatInt(i, 10)`. -/
def FormatInt (i : Int) : Str :=
  if i < 0 then 45 :: formatBits (i.natAbs + 1) i.natAbs else formatBits (i.natAbs + 1) i.natAbs

/-! ## The `Magnet` record -/

/-- The constant `magnetPrefix`. -/
def magnetPrefix : Str := B "magnet:?"

/-- The struct `Magnet`.  `Extra`, a `map[string][]string`, is the list of its entries in
insertion order, one entry per key. -/
structure Magnet where
  ExactTopics : List Str := []
  DisplayName : Str := []
  ExactLength : Int := 0
  Trackers : List Str := []
  AcceptableSources : List Str := []
  ExactSource : List Str := []
  KeywordTopic : List Str := []
  ManifestTopic : Str := []
  Extra : List (Str × List Str) := []
  deriving DecidableEq, Repr

/-- The order in which each `range` over a map visits it: an arbitrary permutation of the
keys (of the entries, for `Extra`). -/
structure RangeOrder where
  topics : List Str → List Str
  trackers : List Str → List Str
  sources : List Str → List Str
  extra : List (Str × List Str) → List (Str × List Str)
  topics_perm : ∀ l, (topics l).Perm l
  trackers_perm : ∀ l, (trackers l).Perm l
  sources_perm : ∀ l, (sources l).Perm l
  extra_perm : ∀ l, (extra l).Perm l

/-- The order of insertion, one of the orders a `range` may take. -/
def RangeOrder.insertion : RangeOrder where
  topics := id
  trackers := id
  sources := id
  extra := id
  topics_perm := fun _ => List.Perm.refl _
  trackers_perm := fun _ => List.Perm.refl _
  sources_perm := fun _ => List.Perm.refl _
  extra_perm := fun _ => List.Perm.refl _

/-! ## `Parse` -/

/-- The assignment `set[v] = struct{}{}` on a `map[string]struct{}`, kept as the list of its
keys in insertion order. -/
def setInsert (set : List Str) (v : Str) : List Str :=
  if v ∈ set then set else set ++ [v]

/-- The assignment `m[key] = append(m[key], v)` on a `map[string][]string`. -/
def mapAppend : List (Str × List Str) → Str → Str → List (Str × List Str)
  | [], key, v => [(key, [v])]
  | (k, vs) :: rest, key, v =>
    if k = key then (k, vs ++ [v]) :: rest else (k, vs) :: mapAppend rest key v

/-- Lines 80-85 of `Parse`: `params := strings.Split(param, "=")`; the parameter is skipped
(`none`) when `len(params) < 2 || params[1] == ""`, otherwise `key, value := params[0], params[1]`. -/
def keyValue (param : Str) : Option (Str × Str) :=
  match Split param (B "=") with
  | key :: value :: _ => if value = [] then none else some (key, value)
  | _ => none

/-- The local state of the loop of `Parse`: the Magnet under construction and the three local
sets. -/
structure ParseState where
  m : Magnet := {}
  exactTopics : List Str := []
  trackers : List Str := []
  acceptableSources : List Str := []
  deriving DecidableEq, Repr

/-- The `switch` of `Parse` (lines 85-136) on one `key`, `value`. -/
def dispatch (st : ParseState) (key value : Str) : Except Error ParseState :=
  if key = B "dn" then
    match QueryUnescape value with
    | .error err => .error err
    | .ok decoded => .ok { st with m := { st.m with DisplayName := decoded } }
  else if key = B "xt" then
    .ok { st with exactTopics := setInsert st.exactTopics value }
  else if key = B "kt" then
    .ok { st with m := { st.m with KeywordTopic := st.m.KeywordTopic ++ Split value (B "+") } }
  else if key = B "mt" then
    .ok { st with m := { st.m with ManifestTopic := value } }
  else if key = B "tr" then
    match QueryUnescape value with
    | .error err => .error err
    | .ok v => .ok { st with trackers := setInsert st.trackers v }
  else if key = B "as" then
    match QueryUnescape value with
    | .error err => .error err
    | .ok v => .ok { st with acceptableSources := setInsert st.acceptableSources v }
  else if key = B "xl" then
    match ParseInt value with
    | .error err => .error err
    | .ok size => .ok { st with m := { st.m with ExactLength := size } }
  else if key = B "xs" then
    match QueryUnescape value with
    | .error err => .error err
    | .ok v => .ok { st with m := { st.m with ExactSource := st.m.ExactSource ++ [v] } }
  else
    match QueryUnescape value with
    | .error err => .error err
    | .ok v => .ok { st with m := { st.m with Extra := mapAppend st.m.Extra key v } }

/-- One iteration of the loop of `Parse` (lines 79-137). -/
def step (st : ParseState) (param : Str) : Except Error ParseState :=
  match keyValue param with
  | none => .ok st
  | some (key, value) => dispatch st key value

/-- The loop `for _, param := range params` of `Parse`; the first error returns. -/
def scan : List Str → ParseState → Except Error ParseState
  | [], st => .ok st
  | param :: params, st =>
    match step st param with
    | .error err => .error err
    | .ok st1 => scan params st1

/-- Lines 139-153 of `Parse`: the three sets become slices, in the order `range` visits them. -/
def materialize (o : RangeOrder) (st : ParseState) : Magnet :=
  { st.m with
    ExactTopics := o.topics st.exactTopics
    Trackers := o.trackers st.trackers
    AcceptableSources := o.sources st.acceptableSources }

/-- The list `params` of `Parse` (lines 64 and 77): `strings.Split(parts[1], "&")` where
`parts = strings.Split(raw, magnetPrefix)`. -/
def rawParams (raw : Str) : List Str :=
  Split ((Split raw magnetPrefix).getD 1 []) (B "&")

/-- The value of `param` when `Parse` reads it as a parameter with key `key`: `some value` when
the parameter is not skipped and its `key` is `key`. -/
def paramValue (key param : Str) : Option Str :=
  match keyValue param with
  | some (k, v) => if k = key then some v else none
  | none => none

/-- The values `Parse` reads under the key `key`, in the order of the parameters. -/
def valuesOf (key : Str) (params : List Str) : List Str :=
  params.filterMap (paramValue key)

/-- The parameter `param` is one on which the loop of `Parse` returns the error `e`: it is not
skipped and either its key is `xl` and `strconv.ParseInt` rejects its value with `e`, or its key
is none of `xt`, `kt`, `mt`, `xl` and `url.QueryUnescape` rejects its value with `e`. -/
def paramFails (param : Str) (e : Error) : Prop :=
  ∃ k v, keyValue param = some (k, v) ∧
    ((k = B "xl" ∧ ParseInt v = .error e) ∨
      (k ≠ B "xt" ∧ k ≠ B "kt" ∧ k ≠ B "mt" ∧ k ≠ B "xl" ∧ QueryUnescape v = .error e))

/-- The function `Parse`. -/
def Parse (o : RangeOrder) (raw : Str) : Except Error Magnet :=
  if !HasPrefix raw magnetPrefix then .error .errNoPrefix
  else if (Split raw magnetPrefix).length ≤ 1 then .error .errNoPrefix
  else
    match scan (rawParams raw) {} with
    | .error err => .error err
    | .ok st => .ok (materialize o st)

/-! ## What the specification calls a base-10 integer and a valid percent-encoding -/

/-- An ASCII decimal digit. -/
def isDigit (c : Byte) : Bool := 48 ≤ c.val && c.val ≤ 57

/-- The number a string of decimal digits denotes. -/
def digitsValue (s : Str) : Nat := s.foldl (fun n c => 10 * n + (c.val - 48)) 0

/-- The integer a string denotes in base 10: an optional sign `+` or `-` followed by one or more
decimal digits; `none` for any other string. -/
def decimalValue (s : Str) : Option Int :=
  match s with
  | [] => none
  | c :: t =>
    let ds : Str := if c = 43 ∨ c = 45 then t else c :: t
    if ds ≠ [] ∧ ds.all isDigit = true then
      some (if c = 45 then -(digitsValue ds : Int) else (digitsValue ds : Int))
    else none

/-- The base-10 integer a string denotes when it is representable as a signed 64-bit value. -/
def int64Decimal (s : Str) : Option Int :=
  match decimalValue s with
  | some z => if -(2 : Int) ^ 63 ≤ z ∧ z < (2 : Int) ^ 63 then some z else none
  | none => none

/-- The bytes after a `%` begin with two hex digits. -/
def hexPair : Str → Bool
  | a :: b :: _ => ishex a && ishex b
  | _ => false

/-- Some `%` of the string is not followed by two hex digits. -/
def malformedPercent : Str → Bool
  | [] => false
  | c :: s => (c = 37 && !hexPair s) || malformedPercent s

/-! ## `Encode` -/

/-- A loop of `Encode` writing `pre` and then `f v` for each `v` of `vs`. -/
def writeEach (pre : Str) (f : Str → Str) (vs : List Str) : Str :=
  (vs.map (fun v => pre ++ f v)).flatten

/-- The loop over `m.Extra` of `Encode` (lines 217-224), visiting the entries in order. -/
def writeExtra (entries : List (Str × List Str)) : Str :=
  (entries.map (fun e => writeEach (B "&" ++ e.1 ++ B "=") id e.2)).flatten

/-- The method `Encode`. -/
def Encode (o : RangeOrder) (m : Magnet) : Str :=
  magnetPrefix ++ B "dn=" ++ QueryEscape m.DisplayName
    ++ writeEach (B "&xt=") id m.ExactTopics
    ++ (if m.ExactLength > 0 then B "&xl=" ++ FormatInt m.ExactLength else [])
    ++ writeEach (B "&tr=") QueryEscape m.Trackers
    ++ writeEach (B "&as=") QueryEscape m.AcceptableSources
    ++ writeEach (B "&xs=") QueryEscape m.ExactSource
    ++ (if m.KeywordTopic.length > 0 then B "&kt=" ++ Join m.KeywordTopic (B "+") else [])
    ++ (if m.ManifestTopic ≠ [] then B "&mt=" ++ m.ManifestTopic else [])
    ++ writeExtra (o.extra m.Extra)

/-! ## Maps of `Parse` and the keys it recognizes -/

/-- The keys `Parse` recognizes; every other key goes to `Extra`. -/
def recognizedKeys : List Str :=
  [B "dn", B "xt", B "xl", B "tr", B "as", B "xs", B "kt", B "mt"]

/-- The read `m[key]` of a `map[string][]string`: the slice stored under `key`, empty when the
key is absent. -/
def mapGet : List (Str × List Str) → Str → List Str
  | [], _ => []
  | (k, vs) :: rest, key => if k = key then vs else mapGet rest key

/-- The keys of a `map[string][]string`. -/
def mapKeys (m : List (Str × List Str)) : List Str := m.map Prod.fst

/-! ## `Normalize` -/

/-- The comparison `a <= b` of two Go strings: bytewise lexicographic order. -/
def strLE : Str → Str → Bool
  | [], _ => true
  | _ :: _, [] => false
  | a :: s, b :: t => if a < b then true else if b < a then false else strLE s t

/-- Go `sort.Strings(x)`: the strings of `x` in ascending order.  The order is total and equal
strings are indistinguishable, so the result does not depend on the sorting algorithm; it is
computed here by insertion. -/
def sortStrings (x : List Str) : List Str :=
  x.insertionSort (fun a b => strLE a b = true)

/-- The effect of the method `Normalize` on the value of a Magnet whose slices share no
storage, as `Parse` builds them: every multi-valued field sorted by itself, whatever the order
in which the loop visits `m.Extra`.  The method as it runs, in place and on slices that may
overlap, is `MagnetMem.Normalize` below; `MagnetMem.value_Normalize` derives this function from
it.  This function says nothing of a Magnet two slices of which share an element. -/
def Normalize (m : Magnet) : Magnet :=
  { m with
    ExactTopics := sortStrings m.ExactTopics
    Trackers := sortStrings m.Trackers
    AcceptableSources := sortStrings m.AcceptableSources
    ExactSource := sortStrings m.ExactSource
    KeywordTopic := sortStrings m.KeywordTopic
    Extra := m.Extra.map (fun e => (e.1, sortStrings e.2)) }

/-! ## `Normalize` in memory -/

/-- A Go slice header of a `[]string`: the number of the backing array it points into, the
offset of its first element in that array, and its length.  The nil slice has length 0. -/
structure Slice where
  arr : Nat := 0
  off : Nat := 0
  len : Nat := 0
  deriving DecidableEq, Repr

/-- The backing arrays of the slices, by number. -/
abbrev Heap := Nat → List Str

/-- The heap whose arrays are the lists of `l`, numbered from 0. -/
def Heap.ofList (l : List (List Str)) : Heap := fun i => l.getD i []

/-- The elements `s[0], ..., s[len(s)-1]` of a slice. -/
def Slice.read (h : Heap) (s : Slice) : List Str := ((h s.arr).drop s.off).take s.len

/-- A slice lies within its backing array. -/
def Slice.valid (h : Heap) (s : Slice) : Bool := s.off + s.len ≤ (h s.arr).length

/-- Two slices have no element of a backing array in common. -/
def Slice.separate (s t : Slice) : Bool :=
  s.len = 0 || t.len = 0 || s.arr ≠ t.arr || s.off + s.len ≤ t.off || t.off + t.len ≤ s.off

/-- Go `sort.Strings(s)`: the elements of the slice are sorted in place, in its backing array;
the rest of the array and the other arrays stay as they are. -/
def sortStringsAt (h : Heap) (s : Slice) : Heap :=
  fun i =>
    if i = s.arr then
      (h i).take s.off ++ sortStrings (s.read h) ++ (h i).drop (s.off + s.len)
    else h i

/-- The struct `Magnet` as it lies in memory: the scalars, the headers of its five slices, and
the map `Extra` from keys to slice headers. -/
structure MagnetMem where
  ExactTopics : Slice := {}
  DisplayName : Str := []
  ExactLength : Int := 0
  Trackers : Slice := {}
  AcceptableSources : Slice := {}
  ExactSource : Slice := {}
  KeywordTopic : Slice := {}
  ManifestTopic : Str := []
  Extra : List (Str × Slice) := []
  deriving DecidableEq, Repr

/-- The value of a Magnet in memory: every slice read from the heap. -/
def MagnetMem.value (h : Heap) (m : MagnetMem) : Magnet where
  ExactTopics := m.ExactTopics.read h
  DisplayName := m.DisplayName
  ExactLength := m.ExactLength
  Trackers := m.Trackers.read h
  AcceptableSources := m.AcceptableSources.read h
  ExactSource := m.ExactSource.read h
  KeywordTopic := m.KeywordTopic.read h
  ManifestTopic := m.ManifestTopic
  Extra := m.Extra.map (fun e => (e.1, e.2.read h))

/-- The order in which the `range` over `m.Extra` in `Normalize` visits the map: an arbitrary
permutation of its entries. -/
structure VisitOrder where
  order : List (Str × Slice) → List (Str × Slice)
  order_perm : ∀ l, (order l).Perm l

/-- The order of insertion. -/
def VisitOrder.insertion : VisitOrder where
  order := id
  order_perm := fun _ => List.Perm.refl _

/-- The reverse of the order of insertion. -/
def VisitOrder.reversed : VisitOrder where
  order := List.reverse
  order_perm := fun l => List.reverse_perm l

/-- The method `Normalize` as the source runs it: six sorts in place, one after the other, on
the heap the slices of the receiver point into.  The headers of the receiver do not change;
the result is the heap after the call. -/
def MagnetMem.Normalize (v : VisitOrder) (h : Heap) (m : MagnetMem) : Heap :=
  let h := sortStringsAt h m.ExactTopics
  let h := sortStringsAt h m.Trackers
  let h := sortStringsAt h m.AcceptableSources
  let h := sortStringsAt h m.ExactSource
  let h := sortStringsAt h m.KeywordTopic
  (v.order m.Extra).foldl (fun h e => sortStringsAt h e.2) h

/-- The slices of a Magnet in memory. -/
def MagnetMem.slices (m : MagnetMem) : List Slice :=
  [m.ExactTopics, m.Trackers, m.AcceptableSources, m.ExactSource, m.KeywordTopic]
    ++ m.Extra.map Prod.snd

/-- No two slices of the list have an element in common. -/
def pairwiseSeparate : List Slice → Bool
  | [] => true
  | s :: l => l.all (fun t => s.separate t) && pairwiseSeparate l

/-- The slices of the list lie within their arrays and no two of them share an element. -/
def storageSeparate (h : Heap) (l : List Slice) : Bool :=
  l.all (fun s => s.valid h) && pairwiseSeparate l

/-- The slices of the Magnet lie within their arrays and no two of them share an element: the
Magnets that `Parse` returns are so, each slice being built by `make` or by `append` on a nil
slice. -/
def MagnetMem.separateStorage (h : Heap) (m : MagnetMem) : Bool :=
  storageSeparate h m.slices

/-- The headers of the entries of `Extra` when the values are stored one array each, from array
number `i` on. -/
def storeExtra : Nat → List (Str × List Str) → List (Str × Slice)
  | _, [] => []
  | i, (k, vs) :: rest => (k, { arr := i, off := 0, len := vs.length }) :: storeExtra (i + 1) rest

/-- A Magnet stored the way `Parse` builds it: every slice in a backing array of its own. -/
def store (m : Magnet) : Heap × MagnetMem :=
  (Heap.ofList
      ([m.ExactTopics, m.Trackers, m.AcceptableSources, m.ExactSource, m.KeywordTopic]
        ++ m.Extra.map Prod.snd),
    { ExactTopics := { arr := 0, off := 0, len := m.ExactTopics.length }
      DisplayName := m.DisplayName
      ExactLength := m.ExactLength
      Trackers := { arr := 1, off := 0, len := m.Trackers.length }
      AcceptableSources := { arr := 2, off := 0, len := m.AcceptableSources.length }
      ExactSource := { arr := 3, off := 0, len := m.ExactSource.length }
      KeywordTopic := { arr := 4, off := 0, len := m.KeywordTopic.length }
      ManifestTopic := m.ManifestTopic
      Extra := storeExtra 5 m.Extra })

/-- The two overlapping slices `s[0:2]` and `s[1:3]` of one array `s = {"c", "b", "a"}`. -/
def aliasedHeap : Heap := Heap.ofList [[B "c", B "b", B "a"]]

/-- The Magnet `&Magnet{ExactTopics: s[0:2], Trackers: s[1:3]}`. -/
def aliasedMagnet : MagnetMem :=
  { ExactTopics := { arr := 0, off := 0, len := 2 }
    Trackers := { arr := 0, off := 1, len := 2 } }

/-- Two Magnets in one heap, every slice in an array of its own: the value of the first is the
Magnet parsed from `magnet:?xt=b&tr=t&xt=a&xt=b&xs=y&xs=x&x.k=2&x.k=1`, the value of the second
the Magnet parsed from `magnet:?x.k=2&xs=x&xt=a&tr=t&tr=t&x.k=1&xs=y&xt=b`. -/
def reorderedHeap : Heap :=
  Heap.ofList
    [[B "b", B "a"], [B "t"], [B "y", B "x"], [B "2", B "1"],
     [B "a", B "b"], [B "t"], [B "x", B "y"], [B "2", B "1"]]

/-- The first Magnet of `reorderedHeap`. -/
def reorderedFirst : MagnetMem :=
  { ExactTopics := { arr := 0, off := 0, len := 2 }
    Trackers := { arr := 1, off := 0, len := 1 }
    ExactSource := { arr := 2, off := 0, len := 2 }
    Extra := [(B "x.k", { arr := 3, off := 0, len := 2 })] }

/-- The second Magnet of `reorderedHeap`. -/
def reorderedSecond : MagnetMem :=
  { ExactTopics := { arr := 4, off := 0, len := 2 }
    Trackers := { arr := 5, off := 0, len := 1 }
    ExactSource := { arr := 6, off := 0, len := 2 }
    Extra := [(B "x.k", { arr := 7, off := 0, len := 2 })] }

/-! ## The layout of `Encode` in the words of the specification -/

/-- The fixed part of the text of an encoded Magnet as the specification lays it out: the
prefix and `dn=`, then one `&xt=` per exact topic, `&xl=` and the decimal length when it is
positive, one `&tr=`, `&as=`, `&xs=` per tracker, acceptable source and exact source
(percent-encoded), `&kt=` and the keywords joined by `+` when there are any, `&mt=` and the
manifest topic when it is not empty. -/
def fixedLayout (m : Magnet) : Str :=
  B "magnet:?dn=" ++ QueryEscape m.DisplayName
    ++ m.ExactTopics.flatMap (fun x => B "&xt=" ++ x)
    ++ (if 0 < m.ExactLength then B "&xl=" ++ FormatInt m.ExactLength else [])
    ++ m.Trackers.flatMap (fun t => B "&tr=" ++ QueryEscape t)
    ++ m.AcceptableSources.flatMap (fun a => B "&as=" ++ QueryEscape a)
    ++ m.ExactSource.flatMap (fun s => B "&xs=" ++ QueryEscape s)
    ++ (if m.KeywordTopic ≠ [] then B "&kt=" ++ Join m.KeywordTopic (B "+") else [])
    ++ (if m.ManifestTopic ≠ [] then B "&mt=" ++ m.ManifestTopic else [])

/-- The text written for the entries of `Extra`, taken in the given order: `&key=value` for each
value of each entry, raw. -/
def extraLayout (entries : List (Str × List Str)) : Str :=
  entries.flatMap (fun e => e.2.flatMap (fun v => B "&" ++ e.1 ++ B "=" ++ v))

/-! ## What `Encode` writes and `Parse` reads back -/

/-- A byte `url.QueryEscape` can write: an unreserved byte, `%` or `+`. -/
def escapedByte (c : Byte) : Bool := !shouldEscape c || c = 37 || c = 43

/-- The parameters `Encode` writes, as pairs of key and written value, in the order written;
`entries` is `Extra` in the order of the visit. -/
def encodePairs (entries : List (Str × List Str)) (m : Magnet) : List (Str × Str) :=
  [(B "dn", QueryEscape m.DisplayName)]
    ++ m.ExactTopics.map (fun x => (B "xt", x))
    ++ (if m.ExactLength > 0 then [(B "xl", FormatInt m.ExactLength)] else [])
    ++ m.Trackers.map (fun t => (B "tr", QueryEscape t))
    ++ m.AcceptableSources.map (fun a => (B "as", QueryEscape a))
    ++ m.ExactSource.map (fun s => (B "xs", QueryEscape s))
    ++ (if m.KeywordTopic.length > 0 then [(B "kt", Join m.KeywordTopic (B "+"))] else [])
    ++ (if m.ManifestTopic ≠ [] then [(B "mt", m.ManifestTopic)] else [])
    ++ entries.flatMap (fun e => e.2.map (fun v => (e.1, v)))

/-- The text `key=value` of a parameter. -/
def param (kv : Str × Str) : Str := kv.1 ++ B "=" ++ kv.2

/-- A value that `Encode` can write raw and `Parse` reads back whole: not empty, without `&` and
`=`, and without an occurrence of the prefix. -/
def cleanValue (v : Str) : Prop :=
  v ≠ [] ∧ (38 : Byte) ∉ v ∧ (61 : Byte) ∉ v ∧ ¬ magnetPrefix <:+: v

/-- The state in which the loop of `Parse` ends on the parameters `Encode` writes for a Magnet
`m` without `Extra`. -/
def reparsed (m : Magnet) : ParseState :=
  { m :=
      { DisplayName := m.DisplayName
        ExactLength := if 0 < m.ExactLength then m.ExactLength else 0
        ExactSource := m.ExactSource
        KeywordTopic := m.KeywordTopic
        ManifestTopic := m.ManifestTopic }
    exactTopics := m.ExactTopics.foldl setInsert []
    trackers := m.Trackers.foldl setInsert []
    acceptableSources := m.AcceptableSources.foldl setInsert [] }

/-- The Magnets that `Encode` followed by `Parse` gives back: raw-written values (`xt`, `mt`,
the `kt` tokens) free of separators and of the prefix, at least one keyword byte when there are
keywords, no empty decoded element, no `Extra`, a signed 64-bit length. -/
def roundTrips (m : Magnet) : Prop :=
  (∀ x ∈ m.ExactTopics, cleanValue x)
    ∧ (m.ManifestTopic ≠ [] → cleanValue m.ManifestTopic)
    ∧ (∀ t ∈ m.KeywordTopic,
        (38 : Byte) ∉ t ∧ (61 : Byte) ∉ t ∧ (43 : Byte) ∉ t ∧ ¬ magnetPrefix <:+: t)
    ∧ m.KeywordTopic ≠ [[]]
    ∧ (∀ t ∈ m.Trackers, t ≠ [])
    ∧ (∀ t ∈ m.AcceptableSources, t ≠ [])
    ∧ (∀ t ∈ m.ExactSource, t ≠ [])
    ∧ m.Extra = []
    ∧ (-(2 : Int) ^ 63 ≤ m.ExactLength ∧ m.ExactLength < (2 : Int) ^ 63)

/-- The reverse of the order of insertion, another of the orders a `range` may take. -/
def RangeOrder.reversed : RangeOrder where
  topics := List.reverse
  trackers := List.reverse
  sources := List.reverse
  extra := List.reverse
  topics_perm := List.reverse_perm
  trackers_perm := List.reverse_perm
  sources_perm := List.reverse_perm
  extra_perm := List.reverse_perm

/-! ## `strings.Split` -/

theorem Index_nil {sep : Str} (h : sep ≠ []) : Index sep [] = none := by
  simp [Index, h]

theorem Index_of_isPrefixOf {sep s : Str} (h : sep.isPrefixOf s = true) : Index sep s = some 0 := by
  cases s with
  | nil =>
    cases sep with
    | nil => simp [Index]
    | cons a t => simp [List.isPrefixOf] at h
  | cons c s => simp [Index, h]

theorem Index_le_length {sep : Str} : ∀ {s : Str} {m : Nat}, Index sep s = some m → m ≤ s.length
  | [], m, h => by
    by_cases hs : sep = []
    · simp [Index, hs] at h; omega
    · simp [Index, hs] at h
  | c :: s, m, h => by
    by_cases hp : sep.isPrefixOf (c :: s) = true
    · simp [Index, hp] at h; omega
    · simp only [Index, hp] at h
      cases hi : Index sep s with
      | none => simp [hi] at h
      | some k =>
        have := Index_le_length hi
        simp [hi] at h
        simp; omega

/-- The loop of `genSplit` gives the same pieces for every bound that is at least `len(s)`. -/
theorem genSplit_fuel {sep : Str} (hsep : sep ≠ []) :
    ∀ (n k : Nat) (s : Str), s.length ≤ n → s.length ≤ k → genSplit sep n s = genSplit sep k s := by
  intro n
  induction n with
  | zero =>
    intro k s hn _
    have hs : s = [] := List.eq_nil_of_length_eq_zero (by omega)
    subst hs
    cases k with
    | zero => rfl
    | succ k => simp [genSplit, Index_nil hsep]
  | succ n ih =>
    intro k s hn hk
    cases k with
    | zero =>
      have hs : s = [] := List.eq_nil_of_length_eq_zero (by omega)
      subst hs
      simp [genSplit, Index_nil hsep]
    | succ k =>
      simp only [genSplit]
      cases hi : Index sep s with
      | none => rfl
      | some m =>
        have hl : 0 < sep.length := List.length_pos.mpr hsep
        simp only
        rw [ih k (s.drop (m + sep.length)) (by simp; omega) (by simp; omega)]

/-- The recursion `strings.Split` obeys, free of the loop bound. -/
theorem Split_eq {sep : Str} (hsep : sep ≠ []) (s : Str) :
    Split s sep =
      match Index sep s with
      | none => [s]
      | some m => s.take m :: Split (s.drop (m + sep.length)) sep := by
  unfold Split
  cases hl : s.length with
  | zero =>
    have hs : s = [] := List.eq_nil_of_length_eq_zero hl
    subst hs
    simp [genSplit, Index_nil hsep]
  | succ n =>
    simp only [genSplit]
    cases hi : Index sep s with
    | none => rfl
    | some m =>
      have hpos : 0 < sep.length := List.length_pos.mpr hsep
      simp only
      rw [genSplit_fuel hsep n (s.drop (m + sep.length)).length _ (by simp; omega) (le_refl _)]

theorem Split_ne_nil {sep : Str} (hsep : sep ≠ []) (s : Str) : Split s sep ≠ [] := by
  rw [Split_eq hsep]
  cases Index sep s <;> simp

theorem Split_sep_append {sep : Str} (hsep : sep ≠ []) (rest : Str) :
    Split (sep ++ rest) sep = [] :: Split rest sep := by
  rw [Split_eq hsep, Index_of_isPrefixOf (by simp)]
  simp

theorem Index_none_of_not_infix {sep : Str} :
    ∀ {s : Str}, ¬ sep <:+: s → Index sep s = none
  | [], h => by
    have hs : sep ≠ [] := by
      rintro rfl
      exact h List.nil_infix
    exact Index_nil hs
  | c :: s, h => by
    have hp : ¬ sep.isPrefixOf (c :: s) = true := by
      intro hp
      exact h (List.isPrefixOf_iff_prefix.mp hp).isInfix
    have hs : ¬ sep <:+: s := fun hi => h (hi.trans (List.suffix_cons c s).isInfix)
    simp [Index, hp, Index_none_of_not_infix hs]

theorem Split_of_not_infix {sep : Str} (hsep : sep ≠ []) {s : Str} (h : ¬ sep <:+: s) :
    Split s sep = [s] := by
  rw [Split_eq hsep, Index_none_of_not_infix h]

theorem Split_single_cons (c x : Byte) (s : Str) :
    Split (x :: s) [c] =
      if x = c then [] :: Split s [c] else (Split s [c]).modifyHead (List.cons x) := by
  have hsep : ([c] : Str) ≠ [] := by simp
  by_cases hx : x = c
  · subst hx
    have := Split_sep_append hsep s
    simpa using this
  · have hp : ¬ ([c] : Str).isPrefixOf (x :: s) = true := by
      simp [List.isPrefixOf]
      exact fun h => hx h.symm
    rw [Split_eq hsep (x :: s), Split_eq hsep s]
    simp only [Index, hp, if_neg hx]
    cases Index [c] s with
    | none => simp
    | some m => simp

/-- Splitting on a one-byte separator cuts at every occurrence of that byte. -/
theorem Split_single (c : Byte) (s : Str) : Split s [c] = s.splitOn c := by
  induction s with
  | nil => simp [Split, genSplit]
  | cons x s ih =>
    rw [Split_single_cons, ih]
    simp only [List.splitOn, List.splitOnP_cons, beq_iff_eq]

theorem B_amp : B "&" = [(38 : Byte)] := by decide
theorem B_eq : B "=" = [(61 : Byte)] := by decide
theorem B_plus : B "+" = [(43 : Byte)] := by decide

theorem magnetPrefix_ne_nil : magnetPrefix ≠ [] := by decide

/-! ## Visiting orders -/

theorem RangeOrder.topics_nil (o : RangeOrder) : o.topics [] = [] :=
  (o.topics_perm []).eq_nil

theorem RangeOrder.trackers_nil (o : RangeOrder) : o.trackers [] = [] :=
  (o.trackers_perm []).eq_nil

theorem RangeOrder.sources_nil (o : RangeOrder) : o.sources [] = [] :=
  (o.sources_perm []).eq_nil

theorem RangeOrder.extra_nil (o : RangeOrder) : o.extra [] = [] :=
  (o.extra_perm []).eq_nil

theorem RangeOrder.topics_singleton (o : RangeOrder) (a : Str) : o.topics [a] = [a] :=
  List.perm_singleton.mp (o.topics_perm [a])

theorem RangeOrder.trackers_singleton (o : RangeOrder) (a : Str) : o.trackers [a] = [a] :=
  List.perm_singleton.mp (o.trackers_perm [a])

theorem RangeOrder.sources_singleton (o : RangeOrder) (a : Str) : o.sources [a] = [a] :=
  List.perm_singleton.mp (o.sources_perm [a])

theorem RangeOrder.extra_singleton (o : RangeOrder) (a : Str × List Str) : o.extra [a] = [a] :=
  List.perm_singleton.mp (o.extra_perm [a])

/-! ## The prefix test of `Parse` -/

theorem eq_append_of_HasPrefix {raw : Str} (h : HasPrefix raw magnetPrefix = true) :
    ∃ rest, raw = magnetPrefix ++ rest := by
  obtain ⟨rest, hr⟩ := List.isPrefixOf_iff_prefix.mp h
  exact ⟨rest, hr.symm⟩

theorem HasPrefix_append (rest : Str) : HasPrefix (magnetPrefix ++ rest) magnetPrefix = true :=
  List.isPrefixOf_iff_prefix.mpr (List.prefix_append _ _)

/-- On a string with the prefix, `strings.Split(raw, magnetPrefix)` has at least two pieces. -/
theorem Split_length_of_HasPrefix {raw : Str} (h : HasPrefix raw magnetPrefix = true) :
    1 < (Split raw magnetPrefix).length := by
  obtain ⟨rest, rfl⟩ := eq_append_of_HasPrefix h
  rw [Split_sep_append magnetPrefix_ne_nil]
  have := List.length_pos.mpr (Split_ne_nil magnetPrefix_ne_nil rest)
  simp
  omega

/-- With the prefix present, `Parse` is the loop followed by the three copies. -/
theorem Parse_of_HasPrefix (o : RangeOrder) {raw : Str} (h : HasPrefix raw magnetPrefix = true) :
    Parse o raw =
      match scan (rawParams raw) {} with
      | .error err => .error err
      | .ok st => .ok (materialize o st) := by
  have hl := Split_length_of_HasPrefix h
  simp [Parse, h, Nat.not_le.mpr hl]

theorem Parse_of_scan (o : RangeOrder) (raw : Str) (st : ParseState)
    (h : HasPrefix raw magnetPrefix = true) (hs : scan (rawParams raw) {} = .ok st) :
    Parse o raw = .ok (materialize o st) := by
  rw [Parse_of_HasPrefix o h, hs]

/-! ## Errors of the library calls -/

theorem QueryUnescape_error {s : Str} {e : Error} (h : QueryUnescape s = .error e) :
    ∃ t, e = .EscapeError t := by
  induction s using QueryUnescape.induct generalizing e with
  | case1 => simp [QueryUnescape] at h
  | case2 a b rest hab t ht ih =>
    simp [QueryUnescape, hab, ht] at h
  | case3 a b rest hab e1 he ih =>
    simp [QueryUnescape, hab, he] at h
    subst h
    exact ih he
  | case4 a b rest hab =>
    simp [QueryUnescape, hab] at h
    exact ⟨_, h.symm⟩
  | case5 s hs =>
    unfold QueryUnescape at h
    simp only [if_true] at h
    exact ⟨_, (Except.error.inj h).symm⟩
  | case6 c s hc t ht ih =>
    unfold QueryUnescape at h
    simp [hc, ht] at h
  | case7 c s hc e1 he ih =>
    unfold QueryUnescape at h
    simp [hc, he] at h
    subst h
    exact ih he

theorem parseUintLoop_error {s : Str} {n : Nat} {e : Error} (h : parseUintLoop s n = .error e) :
    e = .ErrSyntax ∨ e = .ErrRange := by
  induction s generalizing n with
  | nil => simp [parseUintLoop] at h
  | cons c s ih =>
    unfold parseUintLoop at h
    split at h
    · split at h
      · exact Or.inr (Except.error.inj h).symm
      · simp only at h
        split at h
        · exact Or.inr (Except.error.inj h).symm
        · exact ih h
    · exact Or.inl (Except.error.inj h).symm

theorem ParseUint_error {s : Str} {e : Error} (h : ParseUint s = .error e) :
    e = .ErrSyntax ∨ e = .ErrRange := by
  unfold ParseUint at h
  by_cases hs : s = []
  · rw [if_pos hs] at h
    exact Or.inl (Except.error.inj h).symm
  · rw [if_neg hs] at h
    exact parseUintLoop_error h

theorem ParseInt_error {s : Str} {e : Error} (h : ParseInt s = .error e) :
    e = .ErrSyntax ∨ e = .ErrRange := by
  unfold ParseInt at h
  split at h
  · exact Or.inl (Except.error.inj h).symm
  · simp only at h
    split at h
    · rename_i e1 he
      have h2 : e1 = e := Except.error.inj h
      subst h2
      exact ParseUint_error he
    · split at h
      · exact Or.inr (Except.error.inj h).symm
      · split at h
        · exact Or.inr (Except.error.inj h).symm
        · cases h

/-! ## The `switch` of `Parse` -/

/-- The `switch` fails exactly on a bad `xl` number or on a bad percent-encoding under a key
other than `xt`, `kt`, `mt`, `xl`. -/
theorem dispatch_error_iff (st : ParseState) (key value : Str) (e : Error) :
    dispatch st key value = .error e ↔
      (key = B "xl" ∧ ParseInt value = .error e) ∨
      (key ≠ B "xt" ∧ key ≠ B "kt" ∧ key ≠ B "mt" ∧ key ≠ B "xl" ∧
        QueryUnescape value = .error e) := by
  unfold dispatch
  split_ifs with h1 h2 h3 h4 h5 h6 h7 h8 <;> (try split) <;> simp_all +decide

/-- The nine ways the `switch` of `Parse` succeeds, one per `case`. -/
theorem dispatch_ok_cases {st st1 : ParseState} {key value : Str}
    (h : dispatch st key value = .ok st1) :
    (key = B "dn" ∧ ∃ d, QueryUnescape value = .ok d ∧
        st1 = { st with m := { st.m with DisplayName := d } })
      ∨ (key = B "xt" ∧ st1 = { st with exactTopics := setInsert st.exactTopics value })
      ∨ (key = B "kt" ∧ st1 = { st with m := { st.m with
            KeywordTopic := st.m.KeywordTopic ++ Split value (B "+") } })
      ∨ (key = B "mt" ∧ st1 = { st with m := { st.m with ManifestTopic := value } })
      ∨ (key = B "tr" ∧ ∃ d, QueryUnescape value = .ok d ∧
          st1 = { st with trackers := setInsert st.trackers d })
      ∨ (key = B "as" ∧ ∃ d, QueryUnescape value = .ok d ∧
          st1 = { st with acceptableSources := setInsert st.acceptableSources d })
      ∨ (key = B "xl" ∧ ∃ d, ParseInt value = .ok d ∧
          st1 = { st with m := { st.m with ExactLength := d } })
      ∨ (key = B "xs" ∧ ∃ d, QueryUnescape value = .ok d ∧
          st1 = { st with m := { st.m with ExactSource := st.m.ExactSource ++ [d] } })
      ∨ (key ∉ recognizedKeys ∧ ∃ d, QueryUnescape value = .ok d ∧
          st1 = { st with m := { st.m with Extra := mapAppend st.m.Extra key d } }) := by
  unfold dispatch at h
  by_cases h1 : key = B "dn"
  · rw [if_pos h1] at h
    cases hq : QueryUnescape value with
    | error e => rw [hq] at h; cases h
    | ok d => rw [hq] at h; exact Or.inl ⟨h1, d, rfl, (Except.ok.inj h).symm⟩
  rw [if_neg h1] at h
  by_cases h2 : key = B "xt"
  · rw [if_pos h2] at h
    exact Or.inr (Or.inl ⟨h2, (Except.ok.inj h).symm⟩)
  rw [if_neg h2] at h
  by_cases h3 : key = B "kt"
  · rw [if_pos h3] at h
    exact Or.inr (Or.inr (Or.inl ⟨h3, (Except.ok.inj h).symm⟩))
  rw [if_neg h3] at h
  by_cases h4 : key = B "mt"
  · rw [if_pos h4] at h
    exact Or.inr (Or.inr (Or.inr (Or.inl ⟨h4, (Except.ok.inj h).symm⟩)))
  rw [if_neg h4] at h
  by_cases h5 : key = B "tr"
  · rw [if_pos h5] at h
    cases hq : QueryUnescape value with
    | error e => rw [hq] at h; cases h
    | ok d =>
      rw [hq] at h
      exact Or.inr (Or.inr (Or.inr (Or.inr (Or.inl ⟨h5, d, rfl, (Except.ok.inj h).symm⟩))))
  rw [if_neg h5] at h
  by_cases h6 : key = B "as"
  · rw [if_pos h6] at h
    cases hq : QueryUnescape value with
    | error e => rw [hq] at h; cases h
    | ok d =>
      rw [hq] at h
      exact Or.inr (Or.inr (Or.inr (Or.inr (Or.inr
        (Or.inl ⟨h6, d, rfl, (Except.ok.inj h).symm⟩)))))
  rw [if_neg h6] at h
  by_cases h7 : key = B "xl"
  · rw [if_pos h7] at h
    cases hq : ParseInt value with
    | error e => rw [hq] at h; cases h
    | ok d =>
      rw [hq] at h
      exact Or.inr (Or.inr (Or.inr (Or.inr (Or.inr (Or.inr
        (Or.inl ⟨h7, d, rfl, (Except.ok.inj h).symm⟩))))))
  rw [if_neg h7] at h
  by_cases h8 : key = B "xs"
  · rw [if_pos h8] at h
    cases hq : QueryUnescape value with
    | error e => rw [hq] at h; cases h
    | ok d =>
      rw [hq] at h
      exact Or.inr (Or.inr (Or.inr (Or.inr (Or.inr (Or.inr (Or.inr
        (Or.inl ⟨h8, d, rfl, (Except.ok.inj h).symm⟩)))))))
  rw [if_neg h8] at h
  have hnot : key ∉ recognizedKeys := by
    simp only [recognizedKeys, List.mem_cons, List.mem_singleton, List.not_mem_nil, or_false,
      not_or]
    exact ⟨h1, h2, h7, h5, h6, h8, h3, h4⟩
  cases hq : QueryUnescape value with
  | error e => rw [hq] at h; cases h
  | ok d =>
    rw [hq] at h
    exact Or.inr (Or.inr (Or.inr (Or.inr (Or.inr (Or.inr (Or.inr
      (Or.inr ⟨hnot, d, rfl, (Except.ok.inj h).symm⟩)))))))

theorem dispatch_DisplayName {st st1 : ParseState} {key value : Str}
    (h : dispatch st key value = .ok st1) :
    (key = B "dn" ∧ QueryUnescape value = .ok st1.m.DisplayName) ∨
      (key ≠ B "dn" ∧ st1.m.DisplayName = st.m.DisplayName) := by
  rcases dispatch_ok_cases h with ⟨hk, d, hq, rfl⟩ | ⟨hk, rfl⟩ | ⟨hk, rfl⟩ | ⟨hk, rfl⟩ |
    ⟨hk, d, hq, rfl⟩ | ⟨hk, d, hq, rfl⟩ | ⟨hk, d, hq, rfl⟩ | ⟨hk, d, hq, rfl⟩ | ⟨hk, d, hq, rfl⟩
  all_goals first
    | exact Or.inl ⟨hk, hq⟩
    | exact Or.inr ⟨by subst hk; decide, rfl⟩
    | exact Or.inr ⟨fun hc => hk (hc ▸ by decide), rfl⟩

theorem dispatch_ExactLength {st st1 : ParseState} {key value : Str}
    (h : dispatch st key value = .ok st1) :
    (key = B "xl" ∧ ParseInt value = .ok st1.m.ExactLength) ∨
      (key ≠ B "xl" ∧ st1.m.ExactLength = st.m.ExactLength) := by
  rcases dispatch_ok_cases h with ⟨hk, d, hq, rfl⟩ | ⟨hk, rfl⟩ | ⟨hk, rfl⟩ | ⟨hk, rfl⟩ |
    ⟨hk, d, hq, rfl⟩ | ⟨hk, d, hq, rfl⟩ | ⟨hk, d, hq, rfl⟩ | ⟨hk, d, hq, rfl⟩ | ⟨hk, d, hq, rfl⟩
  all_goals first
    | exact Or.inl ⟨hk, hq⟩
    | exact Or.inr ⟨by subst hk; decide, rfl⟩
    | exact Or.inr ⟨fun hc => hk (hc ▸ by decide), rfl⟩

theorem dispatch_ManifestTopic {st st1 : ParseState} {key value : Str}
    (h : dispatch st key value = .ok st1) :
    (key = B "mt" ∧ value = st1.m.ManifestTopic) ∨
      (key ≠ B "mt" ∧ st1.m.ManifestTopic = st.m.ManifestTopic) := by
  rcases dispatch_ok_cases h with ⟨hk, d, hq, rfl⟩ | ⟨hk, rfl⟩ | ⟨hk, rfl⟩ | ⟨hk, rfl⟩ |
    ⟨hk, d, hq, rfl⟩ | ⟨hk, d, hq, rfl⟩ | ⟨hk, d, hq, rfl⟩ | ⟨hk, d, hq, rfl⟩ | ⟨hk, d, hq, rfl⟩
  all_goals first
    | exact Or.inl ⟨hk, rfl⟩
    | exact Or.inr ⟨by subst hk; decide, rfl⟩
    | exact Or.inr ⟨fun hc => hk (hc ▸ by decide), rfl⟩

theorem dispatch_exactTopics {st st1 : ParseState} {key value : Str}
    (h : dispatch st key value = .ok st1) :
    (key = B "xt" ∧ st1.exactTopics = setInsert st.exactTopics value) ∨
      (key ≠ B "xt" ∧ st1.exactTopics = st.exactTopics) := by
  rcases dispatch_ok_cases h with ⟨hk, d, hq, rfl⟩ | ⟨hk, rfl⟩ | ⟨hk, rfl⟩ | ⟨hk, rfl⟩ |
    ⟨hk, d, hq, rfl⟩ | ⟨hk, d, hq, rfl⟩ | ⟨hk, d, hq, rfl⟩ | ⟨hk, d, hq, rfl⟩ | ⟨hk, d, hq, rfl⟩
  all_goals first
    | exact Or.inl ⟨hk, rfl⟩
    | exact Or.inr ⟨by subst hk; decide, rfl⟩
    | exact Or.inr ⟨fun hc => hk (hc ▸ by decide), rfl⟩

theorem dispatch_trackers {st st1 : ParseState} {key value : Str}
    (h : dispatch st key value = .ok st1) :
    (key = B "tr" ∧ ∃ v, QueryUnescape value = .ok v ∧ st1.trackers = setInsert st.trackers v) ∨
      (key ≠ B "tr" ∧ st1.trackers = st.trackers) := by
  rcases dispatch_ok_cases h with ⟨hk, d, hq, rfl⟩ | ⟨hk, rfl⟩ | ⟨hk, rfl⟩ | ⟨hk, rfl⟩ |
    ⟨hk, d, hq, rfl⟩ | ⟨hk, d, hq, rfl⟩ | ⟨hk, d, hq, rfl⟩ | ⟨hk, d, hq, rfl⟩ | ⟨hk, d, hq, rfl⟩
  all_goals first
    | exact Or.inl ⟨hk, d, hq, rfl⟩
    | exact Or.inr ⟨by subst hk; decide, rfl⟩
    | exact Or.inr ⟨fun hc => hk (hc ▸ by decide), rfl⟩

theorem dispatch_acceptableSources {st st1 : ParseState} {key value : Str}
    (h : dispatch st key value = .ok st1) :
    (key = B "as" ∧ ∃ v, QueryUnescape value = .ok v ∧
        st1.acceptableSources = setInsert st.acceptableSources v) ∨
      (key ≠ B "as" ∧ st1.acceptableSources = st.acceptableSources) := by
  rcases dispatch_ok_cases h with ⟨hk, d, hq, rfl⟩ | ⟨hk, rfl⟩ | ⟨hk, rfl⟩ | ⟨hk, rfl⟩ |
    ⟨hk, d, hq, rfl⟩ | ⟨hk, d, hq, rfl⟩ | ⟨hk, d, hq, rfl⟩ | ⟨hk, d, hq, rfl⟩ | ⟨hk, d, hq, rfl⟩
  all_goals first
    | exact Or.inl ⟨hk, d, hq, rfl⟩
    | exact Or.inr ⟨by subst hk; decide, rfl⟩
    | exact Or.inr ⟨fun hc => hk (hc ▸ by decide), rfl⟩

/-! ## The loop of `Parse` -/

theorem paramValue_eq_some {key param v : Str} :
    paramValue key param = some v ↔ keyValue param = some (key, v) := by
  unfold paramValue
  split
  · rename_i k w hk
    by_cases h : k = key
    · subst h; simp [hk]
    · simp [h, hk]
  · rename_i hk
    simp [hk]

theorem mem_valuesOf {key v : Str} {params : List Str} :
    v ∈ valuesOf key params ↔ ∃ p ∈ params, keyValue p = some (key, v) := by
  simp [valuesOf, List.mem_filterMap, paramValue_eq_some]

theorem scan_nil (st : ParseState) : scan [] st = .ok st := rfl

theorem scan_cons_ok {p : Str} {ps : List Str} {st st1 : ParseState}
    (h : scan (p :: ps) st = .ok st1) : ∃ st2, step st p = .ok st2 ∧ scan ps st2 = .ok st1 := by
  unfold scan at h
  split at h
  · cases h
  · rename_i st2 h2
    exact ⟨st2, h2, h⟩

theorem step_of_keyValue_none {p : Str} (st : ParseState) (h : keyValue p = none) :
    step st p = .ok st := by
  simp [step, h]

theorem step_of_keyValue_some {p k v : Str} (st : ParseState) (h : keyValue p = some (k, v)) :
    step st p = dispatch st k v := by
  simp [step, h]

/-- A field that each parameter with key `key` overwrites ends with what the last such
parameter wrote. -/
theorem scan_last {α : Type} (f : ParseState → α) (key : Str) (R : Str → α → Prop)
    (hstep : ∀ st st1 k v, dispatch st k v = .ok st1 →
      (k = key ∧ R v (f st1)) ∨ (k ≠ key ∧ f st1 = f st)) :
    ∀ (ps : List Str) (st st1 : ParseState), scan ps st = .ok st1 →
      match (valuesOf key ps).getLast? with
      | none => f st1 = f st
      | some v => R v (f st1) := by
  intro ps
  induction ps with
  | nil =>
    intro st st1 h
    simp [scan] at h
    simp [valuesOf, h]
  | cons p ps ih =>
    intro st st1 h
    obtain ⟨st2, h2, h3⟩ := scan_cons_ok h
    have ih1 := ih st2 st1 h3
    have hv : valuesOf key (p :: ps) = (paramValue key p).toList ++ valuesOf key ps := by
      simp only [valuesOf, List.filterMap_cons]
      cases paramValue key p <;> simp
    rw [hv]
    cases hl : (valuesOf key ps).getLast? with
    | some w =>
      rw [hl] at ih1
      have : ((paramValue key p).toList ++ valuesOf key ps).getLast? = some w := by
        rw [List.getLast?_append, hl]; rfl
      rw [this]
      exact ih1
    | none =>
      rw [hl] at ih1
      have hnil : valuesOf key ps = [] := List.getLast?_eq_none_iff.mp hl
      rw [hnil, List.append_nil]
      cases hkv : keyValue p with
      | none =>
        rw [step_of_keyValue_none st hkv] at h2
        have : paramValue key p = none := by simp [paramValue, hkv]
        cases h2
        simpa [this] using ih1
      | some kv =>
        obtain ⟨k, v⟩ := kv
        rw [step_of_keyValue_some st hkv] at h2
        rcases hstep st st2 k v h2 with ⟨hk, hR⟩ | ⟨hk, hf⟩
        · have : paramValue key p = some v := by simp [paramValue, hkv, hk]
          simp only [this, Option.toList, List.getLast?_singleton]
          simp only at ih1
          rw [ih1]
          exact hR
        · have : paramValue key p = none := by simp [paramValue, hkv, hk]
          simp only [this, Option.toList, List.getLast?_nil]
          simp only at ih1
          rw [ih1, hf]

theorem mem_setInsert {set : List Str} {v x : Str} :
    x ∈ setInsert set v ↔ x ∈ set ∨ x = v := by
  unfold setInsert
  split_ifs with h
  · constructor
    · exact Or.inl
    · rintro (hx | rfl)
      · exact hx
      · exact h
  · simp

theorem nodup_setInsert {set : List Str} (v : Str) (h : set.Nodup) : (setInsert set v).Nodup := by
  unfold setInsert
  split_ifs with hv
  · exact h
  · rw [List.nodup_append]
    refine ⟨h, List.nodup_singleton v, ?_⟩
    intro a ha hb
    rw [List.mem_singleton] at hb
    exact hv (hb ▸ ha)

/-- A set that each parameter with key `key` inserts into ends duplicate-free and holding what
it held before together with what those parameters inserted. -/
theorem scan_set (f : ParseState → List Str) (key : Str) (R : Str → Str → Prop)
    (hfun : ∀ v x y, R v x → R v y → x = y)
    (hstep : ∀ st st1 k v, dispatch st k v = .ok st1 →
      (k = key ∧ ∃ x, R v x ∧ f st1 = setInsert (f st) x) ∨ (k ≠ key ∧ f st1 = f st)) :
    ∀ (ps : List Str) (st st1 : ParseState), scan ps st = .ok st1 →
      ((f st).Nodup → (f st1).Nodup) ∧
        ∀ x, x ∈ f st1 ↔ x ∈ f st ∨ ∃ p ∈ ps, ∃ v, keyValue p = some (key, v) ∧ R v x := by
  intro ps
  induction ps with
  | nil =>
    intro st st1 h
    simp [scan] at h
    subst h
    simp
  | cons p ps ih =>
    intro st st1 h
    obtain ⟨st2, h2, h3⟩ := scan_cons_ok h
    obtain ⟨ihn, ihm⟩ := ih st2 st1 h3
    cases hkv : keyValue p with
    | none =>
      rw [step_of_keyValue_none st hkv] at h2
      cases h2
      refine ⟨ihn, fun x => ?_⟩
      rw [ihm x]
      simp [hkv]
    | some kv =>
      obtain ⟨k, v⟩ := kv
      rw [step_of_keyValue_some st hkv] at h2
      rcases hstep st st2 k v h2 with ⟨hk, y, hR, hf⟩ | ⟨hk, hf⟩
      · subst hk
        refine ⟨fun hn => ihn (hf ▸ nodup_setInsert y hn), fun x => ?_⟩
        rw [ihm x, hf, mem_setInsert]
        constructor
        · rintro ((hx | hx) | ⟨q, hq, w, hw, hRw⟩)
          · exact Or.inl hx
          · exact Or.inr ⟨p, List.mem_cons_self _ _, v, hkv, hx ▸ hR⟩
          · exact Or.inr ⟨q, List.mem_cons_of_mem _ hq, w, hw, hRw⟩
        · rintro (hx | ⟨q, hq, w, hw, hRw⟩)
          · exact Or.inl (Or.inl hx)
          · rcases List.mem_cons.mp hq with rfl | hq
            · rw [hkv] at hw
              have hvw : v = w := by simpa using hw
              subst hvw
              exact Or.inl (Or.inr (hfun v x y hRw hR))
            · exact Or.inr ⟨q, hq, w, hw, hRw⟩
      · refine ⟨fun hn => ihn (hf ▸ hn), fun x => ?_⟩
        rw [ihm x, hf]
        constructor
        · rintro (hx | ⟨q, hq, w, hw, hRw⟩)
          · exact Or.inl hx
          · exact Or.inr ⟨q, List.mem_cons_of_mem _ hq, w, hw, hRw⟩
        · rintro (hx | ⟨q, hq, w, hw, hRw⟩)
          · exact Or.inl hx
          · rcases List.mem_cons.mp hq with rfl | hq
            · rw [hkv] at hw
              have hkk : k = key := by
                have := congrArg Prod.fst (Option.some.inj hw)
                simpa using this
              exact absurd hkk hk
            · exact Or.inr ⟨q, hq, w, hw, hRw⟩

/-! ## Failures of the loop -/

theorem step_error_iff (st : ParseState) (p : Str) (e : Error) :
    step st p = .error e ↔ paramFails p e := by
  unfold paramFails
  cases hkv : keyValue p with
  | none => simp [step_of_keyValue_none st hkv]
  | some kv =>
    obtain ⟨k, v⟩ := kv
    rw [step_of_keyValue_some st hkv, dispatch_error_iff]
    constructor
    · intro h
      exact ⟨k, v, rfl, h⟩
    · rintro ⟨k1, v1, hkv1, h⟩
      have h1 := Option.some.inj hkv1
      have hk : k = k1 := congrArg Prod.fst h1
      have hv : v = v1 := congrArg Prod.snd h1
      subst hk
      subst hv
      exact h

theorem step_ok_of_not_fails (st : ParseState) {p : Str} (h : ∀ e, ¬ paramFails p e) :
    ∃ st1, step st p = .ok st1 := by
  cases hs : step st p with
  | ok st1 => exact ⟨st1, rfl⟩
  | error e => exact absurd ((step_error_iff st p e).mp hs) (h e)

theorem scan_append (a b : List Str) (st : ParseState) :
    scan (a ++ b) st =
      match scan a st with
      | .error err => .error err
      | .ok st1 => scan b st1 := by
  induction a generalizing st with
  | nil => simp [scan]
  | cons p a ih =>
    simp only [List.cons_append, scan]
    cases step st p with
    | error e => rfl
    | ok st2 => exact ih st2

/-- The loop gets through a list of parameters exactly when none of them fails. -/
theorem scan_ok_iff (ps : List Str) (st : ParseState) :
    (∃ st1, scan ps st = .ok st1) ↔ ∀ p ∈ ps, ∀ e, ¬ paramFails p e := by
  induction ps generalizing st with
  | nil => simp [scan]
  | cons p ps ih =>
    constructor
    · rintro ⟨st1, h⟩
      obtain ⟨st2, h2, h3⟩ := scan_cons_ok h
      intro q hq e hf
      rcases List.mem_cons.mp hq with rfl | hq
      · rw [← step_error_iff st] at hf
        rw [h2] at hf
        cases hf
      · exact (ih st2).mp ⟨st1, h3⟩ q hq e hf
    · intro h
      obtain ⟨st2, h2⟩ := step_ok_of_not_fails st (h p (List.mem_cons_self _ _))
      obtain ⟨st1, h1⟩ := (ih st2).mpr (fun q hq => h q (List.mem_cons_of_mem _ hq))
      exact ⟨st1, by simp [scan, h2, h1]⟩

/-- The error of the loop is the error of the first parameter that fails. -/
theorem scan_error_iff (ps : List Str) (st : ParseState) (e : Error) :
    scan ps st = .error e ↔
      ∃ pre p post, ps = pre ++ p :: post ∧ (∀ q ∈ pre, ∀ e1, ¬ paramFails q e1) ∧
        paramFails p e := by
  induction ps generalizing st with
  | nil => simp [scan]
  | cons p ps ih =>
    constructor
    · intro h
      cases hs : step st p with
      | error e1 =>
        simp only [scan, hs] at h
        cases h
        exact ⟨[], p, ps, rfl, by simp, (step_error_iff st p e).mp hs⟩
      | ok st2 =>
        simp only [scan, hs] at h
        obtain ⟨pre, q, post, hps, hpre, hq⟩ := (ih st2).mp h
        refine ⟨p :: pre, q, post, by simp [hps], ?_, hq⟩
        intro r hr e1 hf
        rcases List.mem_cons.mp hr with rfl | hr
        · rw [← step_error_iff st, hs] at hf
          cases hf
        · exact hpre r hr e1 hf
    · rintro ⟨pre, q, post, hps, hpre, hq⟩
      cases pre with
      | nil =>
        simp only [List.nil_append, List.cons.injEq] at hps
        obtain ⟨rfl, rfl⟩ := hps
        simp [scan, (step_error_iff st p e).mpr hq]
      | cons r pre =>
        simp only [List.cons_append, List.cons.injEq] at hps
        obtain ⟨rfl, rfl⟩ := hps
        obtain ⟨st2, h2⟩ := step_ok_of_not_fails st (hpre p (List.mem_cons_self _ _))
        simp only [scan, h2]
        exact (ih st2).mpr ⟨pre, q, post, rfl,
          fun x hx => hpre x (List.mem_cons_of_mem _ hx), hq⟩

/-! ## Successful parses -/

/-- A successful `Parse` is a successful loop over `rawParams raw` followed by the copies. -/
theorem Parse_ok {o : RangeOrder} {raw : Str} {m : Magnet} (h : Parse o raw = .ok m) :
    HasPrefix raw magnetPrefix = true ∧
      ∃ st, scan (rawParams raw) {} = .ok st ∧ m = materialize o st := by
  by_cases hp : HasPrefix raw magnetPrefix = true
  · refine ⟨hp, ?_⟩
    rw [Parse_of_HasPrefix o hp] at h
    cases hs : scan (rawParams raw) {} with
    | error e => rw [hs] at h; cases h
    | ok st =>
      rw [hs] at h
      exact ⟨st, rfl, (Except.ok.inj h).symm⟩
  · have hp1 : HasPrefix raw magnetPrefix = false := by simpa using hp
    simp [Parse, hp1] at h

theorem keyValue_value_ne_nil {p k v : Str} (h : keyValue p = some (k, v)) : v ≠ [] := by
  unfold keyValue at h
  split at h
  · rename_i key value rest hs
    by_cases hv : value = []
    · simp [hv] at h
    · simp [hv] at h
      exact h.2 ▸ hv
  · cases h

/-! ## `url.QueryUnescape` against the specification's percent-encoding -/

theorem ishex_ne_percent {a : Byte} (h : ishex a = true) : a ≠ 37 := by
  rintro rfl
  revert h
  decide

theorem QueryUnescape_cons_of_ne {c : Byte} (hc : c ≠ 37) (s : Str) :
    QueryUnescape (c :: s) =
      match QueryUnescape s with
      | .ok t => .ok ((if c = 43 then 32 else c) :: t)
      | .error e => .error e := by
  rw [QueryUnescape.eq_def]
  simp [hc]

theorem QueryUnescape_percent (a b : Byte) (rest : Str) :
    QueryUnescape (37 :: a :: b :: rest) =
      if ishex a && ishex b then
        match QueryUnescape rest with
        | .ok t => .ok (Fin.ofNat ((unhex a * 16 % 256) ||| unhex b) :: t)
        | .error e => .error e
      else .error (.EscapeError [37, a, b]) := by
  rw [QueryUnescape.eq_def]
  simp

/-- Go `url.QueryUnescape` fails exactly on the strings in which some `%` is not followed by two
hex digits. -/
theorem QueryUnescape_error_iff (s : Str) :
    (∃ e, QueryUnescape s = .error e) ↔ malformedPercent s = true := by
  induction s using QueryUnescape.induct with
  | case1 => simp [QueryUnescape, malformedPercent]
  | case2 a b rest hab t ht ih =>
    have ha : ishex a = true := by simp at hab; exact hab.1
    have hb : ishex b = true := by simp at hab; exact hab.2
    have h1 : malformedPercent (37 :: a :: b :: rest) = malformedPercent rest := by
      simp [malformedPercent, hexPair, ha, hb, ishex_ne_percent ha, ishex_ne_percent hb]
    rw [h1, ← ih]
    simp [QueryUnescape, hab, ht]
  | case3 a b rest hab e1 he ih =>
    have ha : ishex a = true := by simp at hab; exact hab.1
    have hb : ishex b = true := by simp at hab; exact hab.2
    have h1 : malformedPercent (37 :: a :: b :: rest) = malformedPercent rest := by
      simp [malformedPercent, hexPair, ha, hb, ishex_ne_percent ha, ishex_ne_percent hb]
    rw [h1, ← ih]
    simp [QueryUnescape, hab, he]
  | case4 a b rest hab =>
    have h1 : malformedPercent (37 :: a :: b :: rest) = true := by
      have : hexPair (a :: b :: rest) = false := by simpa [hexPair] using hab
      simp [malformedPercent, this]
    rw [h1]
    simp [QueryUnescape, hab]
  | case5 s hs =>
    have h2 : hexPair s = false := by
      unfold hexPair
      split
      · exact absurd rfl (hs _ _ _)
      · rfl
    have h1 : malformedPercent (37 :: s) = true := by simp [malformedPercent, h2]
    rw [h1]
    unfold QueryUnescape
    simp
  | case6 c s hc t ht ih =>
    have h1 : malformedPercent (c :: s) = malformedPercent s := by simp [malformedPercent, hc]
    rw [h1, ← ih, QueryUnescape_cons_of_ne hc]
    simp [ht]
  | case7 c s hc e1 he ih =>
    have h1 : malformedPercent (c :: s) = malformedPercent s := by simp [malformedPercent, hc]
    rw [h1, ← ih, QueryUnescape_cons_of_ne hc]
    simp [he]

/-! ## `strconv.ParseInt` against the specification's base-10 integers -/

theorem foldl_digits_ge (s : Str) (n : Nat) :
    n ≤ s.foldl (fun n c => 10 * n + (c.val - 48)) n := by
  induction s generalizing n with
  | nil => simp
  | cons c s ih =>
    simp only [List.foldl_cons]
    exact le_trans (by omega) (ih _)

theorem parseUintLoop_digits (s : Str) (n : Nat) (hn : n < 2 ^ 64)
    (hs : s.all isDigit = true) :
    parseUintLoop s n =
      if s.foldl (fun n c => 10 * n + (c.val - 48)) n < 2 ^ 64 then
        .ok (s.foldl (fun n c => 10 * n + (c.val - 48)) n)
      else .error .ErrRange := by
  induction s generalizing n with
  | nil =>
    simp only [parseUintLoop, List.foldl_nil]
    rw [if_pos hn]
  | cons c s ih =>
    simp only [List.all_cons, Bool.and_eq_true] at hs
    obtain ⟨hc, hs⟩ := hs
    have hc1 : 48 ≤ c.val ∧ c.val ≤ 57 := by simpa [isDigit] using hc
    have hge := foldl_digits_ge s (10 * n + (c.val - 48))
    simp only [List.foldl_cons]
    rw [parseUintLoop]
    simp only [hc1, and_self, if_true]
    by_cases h1 : n ≥ (2 ^ 64 - 1) / 10 + 1
    · rw [if_pos h1, if_neg]
      norm_num at h1 ⊢
      omega
    · rw [if_neg h1]
      norm_num at h1
      have h10 : n * 10 % 2 ^ 64 = n * 10 := Nat.mod_eq_of_lt (by norm_num; omega)
      simp only [h10]
      by_cases h2 : n * 10 + (c.val - 48) < 2 ^ 64
      · have h11 : (n * 10 + (c.val - 48)) % 2 ^ 64 = n * 10 + (c.val - 48) :=
          Nat.mod_eq_of_lt h2
        rw [h11, if_neg (by norm_num at h2 ⊢; omega), ih _ (by omega) hs]
        rw [show 10 * n + (c.val - 48) = n * 10 + (c.val - 48) by omega]
      · have h11 : (n * 10 + (c.val - 48)) % 2 ^ 64 < n * 10 := by
          norm_num at h2 ⊢
          omega
        rw [if_pos (Or.inl h11), if_neg]
        norm_num at h2 ⊢
        omega

theorem parseUintLoop_not_digits (s : Str) (n : Nat) (hs : s.all isDigit = false) :
    ∃ e, parseUintLoop s n = .error e := by
  induction s generalizing n with
  | nil => simp at hs
  | cons c s ih =>
    rw [parseUintLoop]
    by_cases hc1 : 48 ≤ c.val ∧ c.val ≤ 57
    · have hc : isDigit c = true := by simpa [isDigit] using hc1
      have hs1 : s.all isDigit = false := by
        simpa [List.all_cons, hc] using hs
      rw [if_pos hc1]
      by_cases h1 : n ≥ (2 ^ 64 - 1) / 10 + 1
      · rw [if_pos h1]
        exact ⟨_, rfl⟩
      · rw [if_neg h1]
        simp only []
        split_ifs
        · exact ⟨_, rfl⟩
        · exact ih _ hs1
    · rw [if_neg hc1]
      exact ⟨_, rfl⟩

/-- Go `strconv.ParseUint(s, 10, 64)` returns the number the digits of `s` denote when `s` is a
non-empty string of digits denoting a number below `2^64`, and fails on every other string. -/
theorem ParseUint_ok_iff (s : Str) (un : Nat) :
    ParseUint s = .ok un ↔
      s ≠ [] ∧ s.all isDigit = true ∧ digitsValue s = un ∧ un < 2 ^ 64 := by
  unfold ParseUint digitsValue
  by_cases hs : s = []
  · simp [hs]
  · rw [if_neg hs]
    cases hd : s.all isDigit with
    | false =>
      obtain ⟨e, he⟩ := parseUintLoop_not_digits s 0 hd
      simp [he]
    | true =>
      rw [parseUintLoop_digits s 0 (by norm_num) hd]
      split_ifs with h
      · constructor
        · intro h1
          have := Except.ok.inj h1
          exact ⟨hs, rfl, this, this ▸ h⟩
        · rintro ⟨-, -, h1, -⟩
          rw [h1]
      · constructor
        · intro h1; cases h1
        · rintro ⟨-, -, h1, h2⟩
          exact absurd (h1 ▸ h2) h

/-- Go `strconv.ParseInt(s, 10, 64)` returns `z` exactly when `s` denotes the base-10 integer `z`
and `z` is representable as a signed 64-bit value. -/
theorem ParseInt_ok_iff (s : Str) (z : Int) :
    ParseInt s = .ok z ↔ int64Decimal s = some z := by
  cases s with
  | nil => simp [ParseInt, int64Decimal, decimalValue]
  | cons c t =>
    simp only [ParseInt, int64Decimal, decimalValue]
    generalize hds : (if c = 43 ∨ c = 45 then t else c :: t) = ds
    cases hu : ParseUint ds with
    | error e =>
      have hnot : ¬ (ds ≠ [] ∧ ds.all isDigit = true ∧ digitsValue ds < 2 ^ 64) := by
        rintro ⟨h1, h2, h3⟩
        have := (ParseUint_ok_iff ds (digitsValue ds)).mpr ⟨h1, h2, rfl, h3⟩
        rw [hu] at this
        cases this
      by_cases hd : ds ≠ [] ∧ ds.all isDigit = true
      · have hbig : ¬ digitsValue ds < 2 ^ 64 := fun h3 => hnot ⟨hd.1, hd.2, h3⟩
        simp only [hd, ne_eq, not_false_eq_true, and_self, if_true]
        by_cases hneg : c = 45
        · simp only [hneg, if_true]
          rw [if_neg]
          · simp
          · norm_num at hbig ⊢
            omega
        · simp only [hneg, if_false]
          rw [if_neg]
          · simp
          · norm_num at hbig ⊢
            omega
      · rw [if_neg hd]
        simp
    | ok un =>
      obtain ⟨h1, h2, h3, h4⟩ := (ParseUint_ok_iff ds un).mp hu
      simp only [h1, h2, ne_eq, not_false_eq_true, and_self, if_true, h3]
      by_cases hneg : c = 45
      · simp only [hneg, decide_True, Bool.not_true, Bool.false_and, Bool.true_and, if_true]
        norm_num
        by_cases hr : 9223372036854775808 < un
        · rw [if_pos hr]
          constructor
          · intro h; cases h
          · rintro ⟨⟨h5, -⟩, -⟩
            omega
        · rw [if_neg hr]
          constructor
          · intro h
            have := Except.ok.inj h
            exact ⟨⟨by omega, by omega⟩, this⟩
          · rintro ⟨-, h⟩
            rw [h]
      · simp only [hneg, decide_False, Bool.not_false, Bool.true_and, Bool.false_and, if_false]
        norm_num
        by_cases hr : 9223372036854775808 ≤ un
        · rw [if_pos hr]
          constructor
          · intro h; cases h
          · rintro ⟨⟨-, h5⟩, -⟩
            omega
        · rw [if_neg hr]
          constructor
          · intro h
            have := Except.ok.inj h
            exact ⟨⟨by omega, by omega⟩, this⟩
          · rintro ⟨-, h⟩
            rw [h]

/-- Go `strconv.ParseInt(s, 10, 64)` fails exactly when `s` does not denote a base-10 integer
representable as a signed 64-bit value. -/
theorem ParseInt_error_iff (s : Str) :
    (∃ e, ParseInt s = .error e) ↔ int64Decimal s = none := by
  cases hp : ParseInt s with
  | ok z =>
    have := (ParseInt_ok_iff s z).mp hp
    simp [this]
  | error e =>
    cases hd : int64Decimal s with
    | none => simp
    | some z =>
      have := (ParseInt_ok_iff s z).mpr hd
      rw [hp] at this
      cases this

theorem int64Decimal_range {s : Str} {z : Int} (h : int64Decimal s = some z) :
    -(2 : Int) ^ 63 ≤ z ∧ z < (2 : Int) ^ 63 := by
  unfold int64Decimal at h
  split at h
  · split_ifs at h with hr
    have := Option.some.inj h
    exact this ▸ hr
  · cases h

theorem int64Decimal_nonneg {s : Str} {z : Int} (h : int64Decimal s = some z)
    (hs : s.head? ≠ some 45) : 0 ≤ z := by
  unfold int64Decimal at h
  split at h
  · rename_i w hw
    split_ifs at h with hr
    have hz : w = z := Option.some.inj h
    subst hz
    unfold decimalValue at hw
    split at hw
    · cases hw
    · rename_i c t
      have hc : c ≠ 45 := by
        intro hc
        apply hs
        simp [hc]
      simp only [hc, if_false] at hw
      split_ifs at hw
      all_goals
        have := Option.some.inj hw
        rw [← this]
        exact Int.natCast_nonneg _
  · cases h

/-! ## The scalar fields after the loop -/

theorem scan_DisplayName {ps : List Str} {st st1 : ParseState} (h : scan ps st = .ok st1) :
    match (valuesOf (B "dn") ps).getLast? with
    | none => st1.m.DisplayName = st.m.DisplayName
    | some v => QueryUnescape v = .ok st1.m.DisplayName :=
  scan_last (fun st => st.m.DisplayName) (B "dn") (fun v d => QueryUnescape v = .ok d)
    (fun _ _ _ _ hd => dispatch_DisplayName hd) ps st st1 h

theorem scan_ExactLength {ps : List Str} {st st1 : ParseState} (h : scan ps st = .ok st1) :
    match (valuesOf (B "xl") ps).getLast? with
    | none => st1.m.ExactLength = st.m.ExactLength
    | some v => ParseInt v = .ok st1.m.ExactLength :=
  scan_last (fun st => st.m.ExactLength) (B "xl") (fun v d => ParseInt v = .ok d)
    (fun _ _ _ _ hd => dispatch_ExactLength hd) ps st st1 h

theorem scan_ManifestTopic {ps : List Str} {st st1 : ParseState} (h : scan ps st = .ok st1) :
    match (valuesOf (B "mt") ps).getLast? with
    | none => st1.m.ManifestTopic = st.m.ManifestTopic
    | some v => v = st1.m.ManifestTopic :=
  scan_last (fun st => st.m.ManifestTopic) (B "mt") (fun v d => v = d)
    (fun _ _ _ _ hd => dispatch_ManifestTopic hd) ps st st1 h

/-! ## Parameters cut at `&` and at `=` -/

theorem not_mem_of_mem_splitOn (c : Byte) :
    ∀ (s q : Str), q ∈ s.splitOn c → c ∉ q := by
  intro s
  induction s with
  | nil =>
    intro q hq
    simp at hq
    simp [hq]
  | cons x s ih =>
    intro q hq
    simp only [List.splitOn, List.splitOnP_cons, beq_iff_eq] at hq
    by_cases hx : x = c
    · rw [if_pos hx] at hq
      rcases List.mem_cons.mp hq with rfl | hq
      · simp
      · exact ih q hq
    · rw [if_neg hx] at hq
      cases hsp : List.splitOnP (fun y => y == c) s with
      | nil => rw [hsp] at hq; simp at hq
      | cons hd tl =>
        rw [hsp] at hq
        have hhd : c ∉ hd := ih hd (by simp [List.splitOn, hsp])
        rcases List.mem_cons.mp hq with rfl | hq
        · intro hc
          rcases List.mem_cons.mp hc with h1 | h1
          · exact hx h1.symm
          · exact hhd h1
        · exact ih q (by simp [List.splitOn, hsp, hq])

theorem Join_Split_single (c : Byte) (s : Str) : Join (Split s [c]) [c] = s := by
  rw [Split_single]
  exact List.intercalate_splitOn s c

theorem Split_Join_single (c : Byte) {ls : List Str} (hx : ∀ l ∈ ls, c ∉ l) (hls : ls ≠ []) :
    Split (Join ls [c]) [c] = ls := by
  rw [Split_single]
  exact List.splitOn_intercalate ls c hx hls

/-- A parameter without `=` is skipped. -/
theorem keyValue_of_no_eq {p : Str} (h : (61 : Byte) ∉ p) : keyValue p = none := by
  unfold keyValue
  rw [B_eq, Split_single, List.splitOn, List.splitOnP_eq_single]
  intro x hx hxe
  rw [beq_iff_eq] at hxe
  exact h (hxe ▸ hx)

/-- A parameter that ends at its `=` is skipped. -/
theorem keyValue_of_empty_value {k : Str} (h : (61 : Byte) ∉ k) :
    keyValue (k ++ B "=") = none := by
  unfold keyValue
  rw [B_eq, Split_single, List.splitOn]
  have := List.splitOnP_first (fun y => y == (61 : Byte)) k
    (fun x hx hxe => h ((beq_iff_eq.mp hxe) ▸ hx)) 61 (by simp) []
  rw [this]
  simp

/-! ## Occurrences of the prefix inside the parameters -/

theorem infix_of_infix_append_cons {sep a b : Str} {c : Byte} (hc : c ∉ sep)
    (h : sep <:+: a ++ c :: b) : sep <:+: a ∨ sep <:+: b := by
  obtain ⟨s, t, hst⟩ := h
  rw [List.append_assoc] at hst
  rcases List.append_eq_append_iff.mp hst with ⟨a1, h1, h2⟩ | ⟨c1, h1, h2⟩
  · -- `a = s ++ a1`, `sep ++ t = a1 ++ c :: b`
    rcases List.append_eq_append_iff.mp h2 with ⟨a2, h3, h4⟩ | ⟨c2, h3, h4⟩
    · -- `a1 = sep ++ a2`
      left
      exact ⟨s, a2, by rw [h1, h3, List.append_assoc]⟩
    · -- `sep = a1 ++ c2`, `c :: b = c2 ++ t`
      cases c2 with
      | nil =>
        left
        refine ⟨s, [], ?_⟩
        rw [h1, h3]
        simp
      | cons d c3 =>
        simp only [List.cons_append, List.cons.injEq] at h4
        exact absurd (by rw [h3, h4.1]; simp) hc
  · -- `s = a ++ c1`, `c :: b = c1 ++ (sep ++ t)`
    cases c1 with
    | nil =>
      simp only [List.nil_append] at h2
      cases sep with
      | nil => left; exact List.nil_infix
      | cons d sep1 =>
        simp only [List.cons_append, List.cons.injEq] at h2
        exact absurd (by rw [h2.1]; simp) hc
    | cons d c3 =>
      simp only [List.cons_append, List.cons.injEq] at h2
      right
      exact ⟨c3, t, by rw [h2.2, List.append_assoc]⟩

theorem Join_cons_cons (q r : Str) (ls : List Str) (sep : Str) :
    Join (q :: r :: ls) sep = q ++ sep ++ Join (r :: ls) sep := by
  simp [Join, List.intercalate, List.intersperse, List.flatten]

theorem infix_Join_of_mem {c : Byte} {ls : List Str} {q : Str} (hq : q ∈ ls) :
    q <:+: Join ls [c] := by
  induction ls with
  | nil => cases hq
  | cons r ls ih =>
    cases ls with
    | nil =>
      rcases List.mem_cons.mp hq with rfl | hq
      · simp [Join, List.intercalate, List.intersperse, List.flatten]
      · cases hq
    | cons r1 ls1 =>
      rw [Join_cons_cons]
      rcases List.mem_cons.mp hq with rfl | hq
      · exact ⟨[], [c] ++ Join (r1 :: ls1) [c], by simp⟩
      · exact (ih hq).trans (List.suffix_append _ _).isInfix

/-- A string without the separator byte occurs in `Join ls` only inside one of the pieces. -/
theorem infix_Join_iff {sep : Str} {c : Byte} (hc : c ∉ sep) (hsep : sep ≠ [])
    (ls : List Str) : sep <:+: Join ls [c] ↔ ∃ q ∈ ls, sep <:+: q := by
  constructor
  · intro h
    induction ls with
    | nil =>
      simp [Join, List.intercalate, List.intersperse, List.flatten] at h
      exact absurd h hsep
    | cons r ls ih =>
      cases ls with
      | nil =>
        simp [Join, List.intercalate, List.intersperse, List.flatten] at h
        exact ⟨r, by simp, h⟩
      | cons r1 ls1 =>
        rw [Join_cons_cons, List.append_assoc] at h
        rcases infix_of_infix_append_cons hc h with h1 | h1
        · exact ⟨r, by simp, h1⟩
        · obtain ⟨q, hq, hq1⟩ := ih h1
          exact ⟨q, List.mem_cons_of_mem _ hq, hq1⟩
  · rintro ⟨q, hq, hq1⟩
    exact hq1.trans (infix_Join_of_mem hq)

theorem rawParams_of_not_infix {rest : Str} (h : ¬ magnetPrefix <:+: rest) :
    rawParams (magnetPrefix ++ rest) = Split rest (B "&") := by
  unfold rawParams
  rw [Split_sep_append magnetPrefix_ne_nil, Split_of_not_infix magnetPrefix_ne_nil h]
  rfl

theorem dispatch_KeywordTopic {st st1 : ParseState} {key value : Str}
    (h : dispatch st key value = .ok st1) :
    (key = B "kt" ∧ st1.m.KeywordTopic = st.m.KeywordTopic ++ Split value (B "+")) ∨
      (key ≠ B "kt" ∧ st1.m.KeywordTopic = st.m.KeywordTopic) := by
  rcases dispatch_ok_cases h with ⟨hk, d, hq, rfl⟩ | ⟨hk, rfl⟩ | ⟨hk, rfl⟩ | ⟨hk, rfl⟩ |
    ⟨hk, d, hq, rfl⟩ | ⟨hk, d, hq, rfl⟩ | ⟨hk, d, hq, rfl⟩ | ⟨hk, d, hq, rfl⟩ | ⟨hk, d, hq, rfl⟩
  all_goals first
    | exact Or.inl ⟨hk, rfl⟩
    | exact Or.inr ⟨by subst hk; decide, rfl⟩
    | exact Or.inr ⟨fun hc => hk (hc ▸ by decide), rfl⟩

theorem dispatch_ExactSource {st st1 : ParseState} {key value : Str}
    (h : dispatch st key value = .ok st1) :
    (key = B "xs" ∧ ∃ v, QueryUnescape value = .ok v ∧
        st1.m.ExactSource = st.m.ExactSource ++ [v]) ∨
      (key ≠ B "xs" ∧ st1.m.ExactSource = st.m.ExactSource) := by
  rcases dispatch_ok_cases h with ⟨hk, d, hq, rfl⟩ | ⟨hk, rfl⟩ | ⟨hk, rfl⟩ | ⟨hk, rfl⟩ |
    ⟨hk, d, hq, rfl⟩ | ⟨hk, d, hq, rfl⟩ | ⟨hk, d, hq, rfl⟩ | ⟨hk, d, hq, rfl⟩ | ⟨hk, d, hq, rfl⟩
  all_goals first
    | exact Or.inl ⟨hk, d, hq, rfl⟩
    | exact Or.inr ⟨by subst hk; decide, rfl⟩
    | exact Or.inr ⟨fun hc => hk (hc ▸ by decide), rfl⟩

theorem dispatch_Extra {st st1 : ParseState} {key value : Str}
    (h : dispatch st key value = .ok st1) :
    (key ∉ recognizedKeys ∧ ∃ v, QueryUnescape value = .ok v ∧
        st1.m.Extra = mapAppend st.m.Extra key v) ∨
      (key ∈ recognizedKeys ∧ st1.m.Extra = st.m.Extra) := by
  rcases dispatch_ok_cases h with ⟨hk, d, hq, rfl⟩ | ⟨hk, rfl⟩ | ⟨hk, rfl⟩ | ⟨hk, rfl⟩ |
    ⟨hk, d, hq, rfl⟩ | ⟨hk, d, hq, rfl⟩ | ⟨hk, d, hq, rfl⟩ | ⟨hk, d, hq, rfl⟩ | ⟨hk, d, hq, rfl⟩
  all_goals first
    | exact Or.inl ⟨hk, d, hq, rfl⟩
    | exact Or.inr ⟨by subst hk; decide, rfl⟩

/-! ## The sequence fields after the loop -/

/-- A sequence that each parameter with key `key` appends a chunk to ends as what it held
before followed by those chunks, in the order of the parameters. -/
theorem scan_chunks {α : Type} (f : ParseState → List α) (key : Str) (R : Str → List α → Prop)
    (hstep : ∀ st st1 k v, dispatch st k v = .ok st1 →
      (k = key ∧ ∃ chunk, R v chunk ∧ f st1 = f st ++ chunk) ∨ (k ≠ key ∧ f st1 = f st)) :
    ∀ (ps : List Str) (st st1 : ParseState), scan ps st = .ok st1 →
      ∃ chunks, List.Forall₂ R (valuesOf key ps) chunks ∧ f st1 = f st ++ chunks.flatten := by
  intro ps
  induction ps with
  | nil =>
    intro st st1 h
    simp [scan] at h
    subst h
    exact ⟨[], by simp [valuesOf], by simp⟩
  | cons p ps ih =>
    intro st st1 h
    obtain ⟨st2, h2, h3⟩ := scan_cons_ok h
    obtain ⟨chunks, hc, hf⟩ := ih st2 st1 h3
    cases hkv : keyValue p with
    | none =>
      rw [step_of_keyValue_none st hkv] at h2
      cases h2
      have hv : valuesOf key (p :: ps) = valuesOf key ps := by
        simp [valuesOf, List.filterMap_cons, paramValue, hkv]
      exact ⟨chunks, hv ▸ hc, hf⟩
    | some kv =>
      obtain ⟨k, v⟩ := kv
      rw [step_of_keyValue_some st hkv] at h2
      rcases hstep st st2 k v h2 with ⟨hk, chunk, hR, hf2⟩ | ⟨hk, hf2⟩
      · have hv : valuesOf key (p :: ps) = v :: valuesOf key ps := by
          simp [valuesOf, List.filterMap_cons, paramValue, hkv, hk]
        refine ⟨chunk :: chunks, hv ▸ List.Forall₂.cons hR hc, ?_⟩
        rw [hf, hf2]
        simp
      · have hv : valuesOf key (p :: ps) = valuesOf key ps := by
          simp [valuesOf, List.filterMap_cons, paramValue, hkv, hk]
        exact ⟨chunks, hv ▸ hc, by rw [hf, hf2]⟩

theorem forall2_eq_map {α β : Type} {g : α → β} {vs : List α} {chunks : List β}
    (h : List.Forall₂ (fun v chunk => chunk = g v) vs chunks) : chunks = vs.map g := by
  induction h with
  | nil => rfl
  | cons h1 _ ih => rw [List.map_cons, ← ih, h1]

theorem scan_KeywordTopic {ps : List Str} {st st1 : ParseState} (h : scan ps st = .ok st1) :
    st1.m.KeywordTopic =
      st.m.KeywordTopic ++ ((valuesOf (B "kt") ps).map (fun v => Split v (B "+"))).flatten := by
  obtain ⟨chunks, hc, hf⟩ := scan_chunks (fun st => st.m.KeywordTopic) (B "kt")
    (fun v chunk => chunk = Split v (B "+"))
    (fun st st1 k v hd => by
      rcases dispatch_KeywordTopic hd with ⟨hk, hf⟩ | ⟨hk, hf⟩
      · exact Or.inl ⟨hk, _, rfl, hf⟩
      · exact Or.inr ⟨hk, hf⟩)
    ps st st1 h
  rw [hf, forall2_eq_map hc]

theorem forall2_singletons {α β : Type} {R : α → β → Prop} {vs : List α}
    {chunks : List (List β)}
    (h : List.Forall₂ (fun v chunk => ∃ d, R v d ∧ chunk = [d]) vs chunks) :
    List.Forall₂ R vs chunks.flatten := by
  induction h with
  | nil => exact List.Forall₂.nil
  | cons h1 _ ih =>
    obtain ⟨d, hd, rfl⟩ := h1
    simpa using List.Forall₂.cons hd ih

theorem scan_ExactSource {ps : List Str} {st st1 : ParseState} (h : scan ps st = .ok st1) :
    ∃ ds, List.Forall₂ (fun v d => QueryUnescape v = .ok d) (valuesOf (B "xs") ps) ds ∧
      st1.m.ExactSource = st.m.ExactSource ++ ds := by
  obtain ⟨chunks, hc, hf⟩ := scan_chunks (fun st => st.m.ExactSource) (B "xs")
    (fun v chunk => ∃ d, QueryUnescape v = .ok d ∧ chunk = [d])
    (fun st st1 k v hd => by
      rcases dispatch_ExactSource hd with ⟨hk, d, hd1, hf⟩ | ⟨hk, hf⟩
      · exact Or.inl ⟨hk, [d], ⟨d, hd1, rfl⟩, hf⟩
      · exact Or.inr ⟨hk, hf⟩)
    ps st st1 h
  exact ⟨chunks.flatten, forall2_singletons hc, hf⟩

/-! ## The map `Extra` after the loop -/

theorem mapGet_mapAppend (m : List (Str × List Str)) (key v k : Str) :
    mapGet (mapAppend m key v) k = if key = k then mapGet m k ++ [v] else mapGet m k := by
  induction m with
  | nil =>
    by_cases h : key = k
    · simp [mapAppend, mapGet, h]
    · simp [mapAppend, mapGet, h]
  | cons e m ih =>
    obtain ⟨k1, vs⟩ := e
    by_cases h1 : k1 = key
    · subst h1
      by_cases h : k1 = k
      · simp [mapAppend, mapGet, h]
      · simp [mapAppend, mapGet, h]
    · by_cases h : key = k
      · subst h
        simp [mapAppend, mapGet, h1, ih]
      · by_cases h2 : k1 = k
        · subst h2
          simp [mapAppend, mapGet, h1, h]
        · simp [mapAppend, mapGet, h1, h2, ih, h]

theorem mapKeys_mapAppend (m : List (Str × List Str)) (key v : Str) :
    mapKeys (mapAppend m key v) = if key ∈ mapKeys m then mapKeys m else mapKeys m ++ [key] := by
  induction m with
  | nil => simp [mapAppend, mapKeys]
  | cons e m ih =>
    obtain ⟨k1, vs⟩ := e
    unfold mapKeys at ih ⊢
    by_cases h1 : k1 = key
    · subst h1
      simp [mapAppend]
    · have h2 : ¬ key = k1 := fun h => h1 h.symm
      simp only [mapAppend, h1, if_false, List.map_cons, ih, List.mem_cons, h2, false_or]
      split_ifs <;> simp

theorem mem_mapKeys_mapAppend {m : List (Str × List Str)} {key v k : Str} :
    k ∈ mapKeys (mapAppend m key v) ↔ k ∈ mapKeys m ∨ k = key := by
  rw [mapKeys_mapAppend]
  split_ifs with h
  · constructor
    · exact Or.inl
    · rintro (h1 | rfl)
      · exact h1
      · exact h
  · simp

theorem nodup_mapKeys_mapAppend {m : List (Str × List Str)} (key v : Str)
    (h : (mapKeys m).Nodup) : (mapKeys (mapAppend m key v)).Nodup := by
  rw [mapKeys_mapAppend]
  split_ifs with hk
  · exact h
  · rw [List.nodup_append]
    refine ⟨h, List.nodup_singleton _, ?_⟩
    intro a ha hb
    rw [List.mem_singleton] at hb
    exact hk (hb ▸ ha)

theorem mapGet_ne_nil_of_mem_mapAppend (m : List (Str × List Str)) (key v : Str)
    (h : ∀ k ∈ mapKeys m, mapGet m k ≠ []) :
    ∀ k ∈ mapKeys (mapAppend m key v), mapGet (mapAppend m key v) k ≠ [] := by
  intro k hk
  rw [mapGet_mapAppend]
  split_ifs with hkk
  · simp
  · rcases mem_mapKeys_mapAppend.mp hk with h1 | h1
    · exact h k h1
    · exact absurd h1.symm hkk

/-- After the loop, `Extra` has one entry per key, its keys are the keys it had together with
the unrecognized keys read, and no entry added is empty. -/
theorem scan_Extra_keys :
    ∀ (ps : List Str) (st st1 : ParseState), scan ps st = .ok st1 →
      ((mapKeys st.m.Extra).Nodup → (mapKeys st1.m.Extra).Nodup) ∧
        (∀ k, k ∈ mapKeys st1.m.Extra ↔
          k ∈ mapKeys st.m.Extra ∨
            (k ∉ recognizedKeys ∧ ∃ p ∈ ps, ∃ v, keyValue p = some (k, v))) := by
  intro ps
  induction ps with
  | nil =>
    intro st st1 h
    simp [scan] at h
    subst h
    simp
  | cons p ps ih =>
    intro st st1 h
    obtain ⟨st2, h2, h3⟩ := scan_cons_ok h
    obtain ⟨ihn, ihm⟩ := ih st2 st1 h3
    cases hkv : keyValue p with
    | none =>
      rw [step_of_keyValue_none st hkv] at h2
      cases h2
      refine ⟨ihn, fun k => ?_⟩
      rw [ihm k]
      simp [hkv]
    | some kv =>
      obtain ⟨k0, v0⟩ := kv
      rw [step_of_keyValue_some st hkv] at h2
      rcases dispatch_Extra h2 with ⟨hk, d, -, hf⟩ | ⟨hk, hf⟩
      · refine ⟨fun hn => ihn (hf ▸ nodup_mapKeys_mapAppend k0 d hn), fun k => ?_⟩
        rw [ihm k, hf, mem_mapKeys_mapAppend]
        constructor
        · rintro ((hx | hx) | ⟨hr, q, hq, w, hw⟩)
          · exact Or.inl hx
          · exact Or.inr ⟨hx ▸ hk, p, List.mem_cons_self _ _, v0, hx ▸ hkv⟩
          · exact Or.inr ⟨hr, q, List.mem_cons_of_mem _ hq, w, hw⟩
        · rintro (hx | ⟨hr, q, hq, w, hw⟩)
          · exact Or.inl (Or.inl hx)
          · rcases List.mem_cons.mp hq with rfl | hq
            · rw [hkv] at hw
              have : k0 = k := congrArg Prod.fst (Option.some.inj hw)
              exact Or.inl (Or.inr this.symm)
            · exact Or.inr ⟨hr, q, hq, w, hw⟩
      · refine ⟨fun hn => ihn (hf ▸ hn), fun k => ?_⟩
        rw [ihm k, hf]
        constructor
        · rintro (hx | ⟨hr, q, hq, w, hw⟩)
          · exact Or.inl hx
          · exact Or.inr ⟨hr, q, List.mem_cons_of_mem _ hq, w, hw⟩
        · rintro (hx | ⟨hr, q, hq, w, hw⟩)
          · exact Or.inl hx
          · rcases List.mem_cons.mp hq with rfl | hq
            · rw [hkv] at hw
              have : k0 = k := congrArg Prod.fst (Option.some.inj hw)
              exact absurd (this ▸ hk) hr
            · exact Or.inr ⟨hr, q, hq, w, hw⟩

theorem scan_Extra_get {ps : List Str} {st st1 : ParseState} (h : scan ps st = .ok st1)
    (k : Str) (hk : k ∉ recognizedKeys) :
    ∃ ds, List.Forall₂ (fun v d => QueryUnescape v = .ok d) (valuesOf k ps) ds ∧
      mapGet st1.m.Extra k = mapGet st.m.Extra k ++ ds := by
  obtain ⟨chunks, hc, hf⟩ := scan_chunks (fun st => mapGet st.m.Extra k) k
    (fun v chunk => ∃ d, QueryUnescape v = .ok d ∧ chunk = [d])
    (fun st st1 k1 v hd => by
      rcases dispatch_Extra hd with ⟨hk1, d, hd1, hf⟩ | ⟨hk1, hf⟩
      · by_cases hkk : k1 = k
        · refine Or.inl ⟨hkk, [d], ⟨d, hd1, rfl⟩, ?_⟩
          show mapGet st1.m.Extra k = _
          rw [hf, mapGet_mapAppend, if_pos hkk]
        · refine Or.inr ⟨hkk, ?_⟩
          show mapGet st1.m.Extra k = _
          rw [hf, mapGet_mapAppend, if_neg hkk]
      · refine Or.inr ⟨fun hkk => hk (hkk ▸ hk1), ?_⟩
        show mapGet st1.m.Extra k = _
        rw [hf])
    ps st st1 h
  exact ⟨chunks.flatten, forall2_singletons hc, hf⟩

/-! ## The order of `sort.Strings` -/

theorem strLE_total (a b : Str) : strLE a b = true ∨ strLE b a = true := by
  induction a generalizing b with
  | nil => simp [strLE]
  | cons x s ih =>
    cases b with
    | nil => simp [strLE]
    | cons y t =>
      simp only [strLE]
      by_cases h1 : x < y
      · simp [h1]
      · by_cases h2 : y < x
        · simp [h2]
        · simp only [h1, h2, if_false]
          exact ih t

theorem strLE_trans {a b c : Str} (hab : strLE a b = true) (hbc : strLE b c = true) :
    strLE a c = true := by
  induction a generalizing b c with
  | nil => simp [strLE]
  | cons x s ih =>
    cases b with
    | nil => simp [strLE] at hab
    | cons y t =>
      cases c with
      | nil => simp [strLE] at hbc
      | cons z u =>
        simp only [strLE] at hab hbc ⊢
        by_cases h1 : x < y
        · by_cases h3 : y < z
          · simp [lt_trans h1 h3]
          · by_cases h4 : z < y
            · simp [h3, h4] at hbc
            · have hyz : y = z := le_antisymm (not_lt.mp h4) (not_lt.mp h3)
              subst hyz
              simp [h1]
        · by_cases h2 : y < x
          · simp [h1, h2] at hab
          · have hxy : x = y := le_antisymm (not_lt.mp h2) (not_lt.mp h1)
            subst hxy
            simp only [h1, if_false] at hab
            by_cases h3 : x < z
            · simp [h3]
            · by_cases h4 : z < x
              · simp [h3, h4] at hbc
              · simp only [h3, h4, if_false] at hbc ⊢
                exact ih hab hbc

theorem strLE_antisymm {a b : Str} (hab : strLE a b = true) (hba : strLE b a = true) :
    a = b := by
  induction a generalizing b with
  | nil =>
    cases b with
    | nil => rfl
    | cons y t => simp [strLE] at hba
  | cons x s ih =>
    cases b with
    | nil => simp [strLE] at hab
    | cons y t =>
      simp only [strLE] at hab hba
      by_cases h1 : x < y
      · simp [h1, not_lt_of_lt h1] at hba
      · by_cases h2 : y < x
        · simp [h1, h2] at hab
        · have hxy : x = y := le_antisymm (not_lt.mp h2) (not_lt.mp h1)
          subst hxy
          simp only [h1, if_false] at hab hba
          rw [ih hab hba]

/-- The order of `strLE` in words: `a` comes first when it is a prefix of `b`, or when at the
first position where the two differ the byte of `a` is the smaller one. -/
theorem strLE_iff (a b : Str) :
    strLE a b = true ↔
      a <+: b ∨ ∃ (p : Str) (x y : Byte) (s t : Str),
        a = p ++ x :: s ∧ b = p ++ y :: t ∧ x < y := by
  induction a generalizing b with
  | nil => simp [strLE]
  | cons x s ih =>
    cases b with
    | nil =>
      simp only [strLE, Bool.false_eq_true, false_iff, not_or, not_exists, not_and]
      refine ⟨by simp, ?_⟩
      intro p x1 y s1 t _ hb
      simp at hb
    | cons y t =>
      simp only [strLE]
      by_cases h1 : x < y
      · simp only [h1, if_true, true_iff]
        exact Or.inr ⟨[], x, y, s, t, rfl, rfl, h1⟩
      · by_cases h2 : y < x
        · simp only [h1, h2, if_false, if_true, Bool.false_eq_true, false_iff, not_or,
            not_exists, not_and]
          constructor
          · intro hp
            have := (List.cons_prefix_cons.mp hp).1
            rw [this] at h2
            exact lt_irrefl _ h2
          · intro p x1 y1 s1 t1 ha hb hlt
            cases p with
            | nil =>
              simp only [List.nil_append, List.cons.injEq] at ha hb
              rw [← ha.1, ← hb.1] at hlt
              exact h1 hlt
            | cons c p1 =>
              simp only [List.cons_append, List.cons.injEq] at ha hb
              rw [ha.1, hb.1] at h2
              exact lt_irrefl _ h2
        · have hxy : x = y := le_antisymm (not_lt.mp h2) (not_lt.mp h1)
          subst hxy
          simp only [h1, if_false]
          rw [ih t]
          constructor
          · rintro (hp | ⟨p, x1, y1, s1, t1, ha, hb, hlt⟩)
            · exact Or.inl (List.cons_prefix_cons.mpr ⟨rfl, hp⟩)
            · exact Or.inr ⟨x :: p, x1, y1, s1, t1, by rw [ha]; rfl, by rw [hb]; rfl, hlt⟩
          · rintro (hp | ⟨p, x1, y1, s1, t1, ha, hb, hlt⟩)
            · exact Or.inl (List.cons_prefix_cons.mp hp).2
            · cases p with
              | nil =>
                simp only [List.nil_append, List.cons.injEq] at ha hb
                rw [← ha.1, ← hb.1] at hlt
                exact absurd hlt (lt_irrefl _)
              | cons c p1 =>
                simp only [List.cons_append, List.cons.injEq] at ha hb
                exact Or.inr ⟨p1, x1, y1, s1, t1, ha.2, hb.2, hlt⟩

/-- The result of `sort.Strings` is in ascending order. -/
theorem sorted_sortStrings (x : List Str) :
    (sortStrings x).Sorted (fun a b => strLE a b = true) :=
  @List.sorted_insertionSort _ (fun a b => strLE a b = true) _
    ⟨strLE_total⟩ ⟨fun _ _ _ => strLE_trans⟩ x

/-- The result of `sort.Strings` is a permutation of its argument. -/
theorem perm_sortStrings (x : List Str) : (sortStrings x).Perm x :=
  List.perm_insertionSort _ x

theorem sortStrings_of_sorted {x : List Str}
    (h : x.Sorted (fun a b => strLE a b = true)) : sortStrings x = x :=
  List.Sorted.insertionSort_eq h

theorem sortStrings_idem (x : List Str) : sortStrings (sortStrings x) = sortStrings x :=
  sortStrings_of_sorted (sorted_sortStrings x)

/-- Two permutations of one another are sorted to the same list. -/
theorem sortStrings_eq_of_perm {x y : List Str} (h : x.Perm y) :
    sortStrings x = sortStrings y :=
  @List.eq_of_perm_of_sorted _ (fun a b => strLE a b = true) ⟨fun _ _ => strLE_antisymm⟩ _ _
    (((perm_sortStrings x).trans h).trans (perm_sortStrings y).symm)
    (sorted_sortStrings x) (sorted_sortStrings y)

theorem forall2_and_left {α β : Type} {R : α → β → Prop} {P : α → Prop} {l1 : List α}
    {l2 : List β} (h : List.Forall₂ R l1 l2) (hP : ∀ a ∈ l1, P a) :
    List.Forall₂ (fun a b => P a ∧ R a b) l1 l2 := by
  induction h with
  | nil => exact List.Forall₂.nil
  | cons h1 _ ih =>
    exact List.Forall₂.cons ⟨hP _ (List.mem_cons_self _ _), h1⟩
      (ih (fun a ha => hP a (List.mem_cons_of_mem _ ha)))

theorem valuesOf_ne_nil {key v : Str} {ps : List Str} (h : v ∈ valuesOf key ps) : v ≠ [] := by
  obtain ⟨p, -, hkv⟩ := mem_valuesOf.mp h
  exact keyValue_value_ne_nil hkv

/-! ## `Normalize` field by field -/

theorem mapKeys_Normalize (m : Magnet) : mapKeys (Normalize m).Extra = mapKeys m.Extra := by
  simp [Normalize, mapKeys, List.map_map, Function.comp_def]

theorem mapGet_map_sortStrings (extra : List (Str × List Str)) (k : Str) :
    mapGet (extra.map (fun e => (e.1, sortStrings e.2))) k = sortStrings (mapGet extra k) := by
  induction extra with
  | nil => rfl
  | cons e extra ih =>
    obtain ⟨k1, vs⟩ := e
    by_cases h : k1 = k
    · simp [mapGet, h]
    · simp [mapGet, h, ih]

theorem mapGet_Normalize (m : Magnet) (k : Str) :
    mapGet (Normalize m).Extra k = sortStrings (mapGet m.Extra k) :=
  mapGet_map_sortStrings m.Extra k

/-! ## `strconv.FormatInt` writes the decimal digits -/

theorem digitsValue_append_singleton (l : Str) (d : Byte) :
    digitsValue (l ++ [d]) = 10 * digitsValue l + (d.val - 48) := by
  simp [digitsValue, List.foldl_append]

theorem val_digit {k : Nat} (hk : k < 10) : ((Fin.ofNat (48 + k) : Byte)).val = 48 + k := by
  show (48 + k) % 256 = 48 + k
  omega

theorem isDigit_digit {k : Nat} (hk : k < 10) : isDigit (Fin.ofNat (48 + k) : Byte) = true := by
  simp only [isDigit, val_digit hk]
  simp
  omega

/-- With enough fuel, `formatBits` writes the decimal digits of `n`: at least one digit, digits
only, denoting `n`. -/
theorem formatBits_spec : ∀ (fuel n : Nat), n < fuel →
    formatBits fuel n ≠ [] ∧ (formatBits fuel n).all isDigit = true
      ∧ digitsValue (formatBits fuel n) = n := by
  intro fuel
  induction fuel with
  | zero => intro n h; omega
  | succ fuel ih =>
    intro n hn
    unfold formatBits
    by_cases h10 : n < 10
    · rw [if_pos h10]
      refine ⟨by simp, by simp [isDigit_digit h10], ?_⟩
      simp [digitsValue, val_digit h10]
    · rw [if_neg h10]
      obtain ⟨h1, h2, h3⟩ := ih (n / 10) (by omega)
      have hm : n % 10 < 10 := Nat.mod_lt _ (by norm_num)
      refine ⟨by simp, ?_, ?_⟩
      · simp [List.all_append, h2, isDigit_digit hm]
      · rw [digitsValue_append_singleton, h3, val_digit hm]
        omega

theorem isDigit_ne_sign {c : Byte} (h : isDigit c = true) : ¬ (c = 43 ∨ c = 45) := by
  rintro (rfl | rfl) <;> revert h <;> decide

/-- The string `strconv.FormatInt(i, 10)` denotes the integer `i` in base 10. -/
theorem decimalValue_FormatInt (i : Int) : decimalValue (FormatInt i) = some i := by
  obtain ⟨h1, h2, h3⟩ := formatBits_spec (i.natAbs + 1) i.natAbs (by omega)
  unfold FormatInt
  by_cases hneg : i < 0
  · rw [if_pos hneg]
    simp only [decimalValue, or_true, if_true, h1, h2, ne_eq, not_false_eq_true, and_self, h3]
    congr 1
    omega
  · rw [if_neg hneg]
    cases hf : formatBits (i.natAbs + 1) i.natAbs with
    | nil => exact absurd hf h1
    | cons c t =>
      rw [hf] at h2 h3
      have hc : isDigit c = true := by
        simp only [List.all_cons, Bool.and_eq_true] at h2
        exact h2.1
      have hs := isDigit_ne_sign hc
      have hc45 : ¬ c = 45 := fun h => hs (Or.inr h)
      have hc43 : ¬ c = 43 := fun h => hs (Or.inl h)
      simp only [decimalValue, hc43, hc45, or_self, if_false, ne_eq, not_false_eq_true, h2,
        and_self, if_true, h3, List.cons_ne_nil]
      congr 1
      omega

/-- Go `strconv.ParseInt(strconv.FormatInt(i, 10), 10, 64)` returns `i` for every signed 64-bit
`i`. -/
theorem ParseInt_FormatInt {i : Int} (h1 : -(2 : Int) ^ 63 ≤ i) (h2 : i < (2 : Int) ^ 63) :
    ParseInt (FormatInt i) = .ok i := by
  rw [ParseInt_ok_iff]
  simp only [int64Decimal, decimalValue_FormatInt]
  rw [if_pos ⟨h1, h2⟩]

/-! ## `url.QueryEscape` and `url.QueryUnescape` -/

theorem upperhex_spec : ∀ n, n < 16 →
    ishex (upperhex n) = true ∧ unhex (upperhex n) = n ∧ shouldEscape (upperhex n) = false := by
  decide

set_option maxRecDepth 100000 in
theorem unhex_upperhex_byte : ∀ n, n < 256 →
    (unhex (upperhex (n / 16)) * 16 % 256) ||| unhex (upperhex (n % 16)) = n := by
  decide

theorem shouldEscape_false_ne {c : Byte} (h : shouldEscape c = false) : c ≠ 37 ∧ c ≠ 43 := by
  constructor <;> (rintro rfl; revert h; decide)

/-- Percent-decoding undoes percent-encoding, for every string. -/
theorem QueryUnescape_QueryEscape (s : Str) : QueryUnescape (QueryEscape s) = .ok s := by
  induction s with
  | nil => rfl
  | cons c s ih =>
    unfold QueryEscape
    by_cases h32 : c = 32
    · subst h32
      rw [if_pos rfl, QueryUnescape_cons_of_ne (by decide), ih]
      rfl
    · rw [if_neg h32]
      by_cases hse : shouldEscape c = true
      · rw [if_pos hse, QueryUnescape_percent]
        have h1 := upperhex_spec (c.val / 16) (by omega)
        have h2 := upperhex_spec (c.val % 16) (by omega)
        rw [h1.1, h2.1, ih]
        simp only [Bool.and_self, if_true]
        have h3 := unhex_upperhex_byte c.val c.isLt
        rw [h3]
        congr 2
        exact Fin.ext (Nat.mod_eq_of_lt c.isLt)
      · have hse1 : shouldEscape c = false := by simpa using hse
        obtain ⟨h37, h43⟩ := shouldEscape_false_ne hse1
        rw [if_neg hse, QueryUnescape_cons_of_ne h37, ih]
        simp [h43]

theorem escapedByte_of_mem_QueryEscape {s : Str} {x : Byte} (h : x ∈ QueryEscape s) :
    escapedByte x = true := by
  induction s with
  | nil => simp [QueryEscape] at h
  | cons c s ih =>
    unfold QueryEscape at h
    by_cases h32 : c = 32
    · rw [if_pos h32] at h
      rcases List.mem_cons.mp h with rfl | h
      · decide
      · exact ih h
    · rw [if_neg h32] at h
      by_cases hse : shouldEscape c = true
      · rw [if_pos hse] at h
        have h1 := upperhex_spec (c.val / 16) (by omega)
        have h2 := upperhex_spec (c.val % 16) (by omega)
        simp only [List.mem_cons] at h
        rcases h with rfl | rfl | rfl | h
        · decide
        · simp [escapedByte, h1.2.2]
        · simp [escapedByte, h2.2.2]
        · exact ih h
      · rw [if_neg hse] at h
        rcases List.mem_cons.mp h with rfl | h
        · simp [escapedByte, hse]
        · exact ih h

theorem QueryEscape_eq_nil {s : Str} : QueryEscape s = [] ↔ s = [] := by
  cases s with
  | nil => simp [QueryEscape]
  | cons c s =>
    unfold QueryEscape
    split_ifs <;> simp

theorem QueryUnescape_ne_nil {v d : Str} (h : QueryUnescape v = .ok d) (hv : v ≠ []) :
    d ≠ [] := by
  cases v with
  | nil => exact absurd rfl hv
  | cons c s =>
    by_cases hc : c = 37
    · subst hc
      cases s with
      | nil => rw [QueryUnescape.eq_def] at h; simp at h
      | cons a s1 =>
        cases s1 with
        | nil => rw [QueryUnescape.eq_def] at h; simp at h
        | cons b rest =>
          rw [QueryUnescape_percent] at h
          split_ifs at h
          cases hr : QueryUnescape rest with
          | error e => rw [hr] at h; cases h
          | ok t =>
            rw [hr] at h
            have := Except.ok.inj h
            rw [← this]
            simp
    · rw [QueryUnescape_cons_of_ne hc] at h
      cases hr : QueryUnescape s with
      | error e => rw [hr] at h; cases h
      | ok t =>
        rw [hr] at h
        have := Except.ok.inj h
        rw [← this]
        simp

/-! ## `Encode` as a list of parameters -/

theorem Join_nil (sep : Str) : Join [] sep = [] := rfl

theorem Join_singleton (q sep : Str) : Join [q] sep = q := by
  simp [Join, List.intercalate, List.intersperse, List.flatten]

theorem Join_cons_eq (c : Byte) (p : Str) (ps : List Str) :
    Join (p :: ps) [c] = p ++ (ps.map (fun q => c :: q)).flatten := by
  induction ps generalizing p with
  | nil => simp [Join_singleton]
  | cons q ps ih =>
    rw [Join_cons_cons, ih q]
    simp

theorem flatten_map_if {α : Type} (f : α → Str) (c : Prop) [Decidable c] (x : α) :
    ((if c then [x] else []).map f).flatten = if c then f x else [] := by
  split_ifs <;> simp

theorem writeExtra_eq (entries : List (Str × List Str)) :
    writeExtra entries =
      ((entries.flatMap (fun e => e.2.map (fun v => (e.1, v)))).map
        (fun kv => (38 : Byte) :: param kv)).flatten := by
  induction entries with
  | nil => rfl
  | cons e es ih =>
    unfold writeExtra at ih ⊢
    simp only [List.map_cons, List.flatten_cons, ih, List.flatMap_cons, List.map_append,
      List.flatten_append, List.map_map]
    congr 1

/-- The string `Encode` returns is the prefix followed by its parameters joined by `&`. -/
theorem Encode_eq_Join (o : RangeOrder) (m : Magnet) :
    Encode o m = magnetPrefix ++ Join ((encodePairs (o.extra m.Extra) m).map param) (B "&") := by
  have e0 : B "dn=" = B "dn" ++ B "=" := by decide
  have e1 : B "&xt=" = 38 :: (B "xt" ++ B "=") := by decide
  have e2 : B "&xl=" = 38 :: (B "xl" ++ B "=") := by decide
  have e3 : B "&tr=" = 38 :: (B "tr" ++ B "=") := by decide
  have e4 : B "&as=" = 38 :: (B "as" ++ B "=") := by decide
  have e5 : B "&xs=" = 38 :: (B "xs" ++ B "=") := by decide
  have e6 : B "&kt=" = 38 :: (B "kt" ++ B "=") := by decide
  have e7 : B "&mt=" = 38 :: (B "mt" ++ B "=") := by decide
  unfold Encode encodePairs
  rw [B_amp, writeExtra_eq]
  simp only [List.singleton_append, List.cons_append, List.map_cons, Join_cons_eq,
    List.map_append, List.flatten_append, List.map_map, flatten_map_if, List.append_assoc,
    writeEach, param, Function.comp_def, id, e0, e1, e2, e3, e4, e5, e6, e7, List.map_nil,
    List.flatten_nil, List.nil_append]

/-! ## Reading back a written parameter -/

theorem keyValue_param {k v : Str} (hk : (61 : Byte) ∉ k) (hv : (61 : Byte) ∉ v) :
    keyValue (param (k, v)) = if v = [] then none else some (k, v) := by
  unfold keyValue param
  rw [B_eq, Split_single, List.splitOn]
  have h1 := List.splitOnP_first (fun y => y == (61 : Byte)) k
    (fun x hx hxe => hk ((beq_iff_eq.mp hxe) ▸ hx)) 61 (by simp) v
  have h2 : List.splitOnP (fun y => y == (61 : Byte)) v = [v] :=
    List.splitOnP_eq_single (fun y => y == (61 : Byte)) v
      (fun x hx hxe => hv ((beq_iff_eq.mp hxe) ▸ hx))
  have h3 : k ++ [(61 : Byte)] ++ v = k ++ 61 :: v := by simp
  simp only [h3, h1, h2]

theorem step_param {k v : Str} (st : ParseState) (hk : (61 : Byte) ∉ k) (hv : (61 : Byte) ∉ v)
    (hne : v ≠ []) : step st (param (k, v)) = dispatch st k v := by
  rw [step, keyValue_param hk hv, if_neg hne]

theorem step_param_empty {k : Str} (st : ParseState) (hk : (61 : Byte) ∉ k) :
    step st (param (k, [])) = .ok st := by
  rw [step, keyValue_param hk (by simp), if_pos rfl]

/-- The loop over the parameters written for the elements of one list. -/
theorem scan_map_params (k : Str) (g : Str → Str) (upd : ParseState → Str → ParseState)
    (hk : (61 : Byte) ∉ k)
    (hd : ∀ st v, dispatch st k (g v) = .ok (upd st v)) :
    ∀ (vs : List Str) (rest : List Str) (st : ParseState),
      (∀ v ∈ vs, (61 : Byte) ∉ g v ∧ g v ≠ []) →
      scan (vs.map (fun v => param (k, g v)) ++ rest) st = scan rest (vs.foldl upd st) := by
  intro vs
  induction vs with
  | nil => intro rest st _; rfl
  | cons v vs ih =>
    intro rest st hg
    obtain ⟨h1, h2⟩ := hg v (List.mem_cons_self _ _)
    simp only [List.map_cons, List.cons_append, scan, step_param st hk h1 h2, hd st v,
      List.foldl_cons]
    exact ih rest _ (fun w hw => hg w (List.mem_cons_of_mem _ hw))

theorem dispatch_xt (st : ParseState) (v : Str) :
    dispatch st (B "xt") v = .ok { st with exactTopics := setInsert st.exactTopics v } := by
  simp +decide [dispatch]

theorem dispatch_tr (st : ParseState) (v : Str) :
    dispatch st (B "tr") (QueryEscape v)
      = .ok { st with trackers := setInsert st.trackers v } := by
  simp +decide [dispatch, QueryUnescape_QueryEscape]

theorem dispatch_as (st : ParseState) (v : Str) :
    dispatch st (B "as") (QueryEscape v)
      = .ok { st with acceptableSources := setInsert st.acceptableSources v } := by
  simp +decide [dispatch, QueryUnescape_QueryEscape]

theorem dispatch_xs (st : ParseState) (v : Str) :
    dispatch st (B "xs") (QueryEscape v)
      = .ok { st with m := { st.m with ExactSource := st.m.ExactSource ++ [v] } } := by
  simp +decide [dispatch, QueryUnescape_QueryEscape]

theorem dispatch_dn (st : ParseState) (v : Str) :
    dispatch st (B "dn") (QueryEscape v)
      = .ok { st with m := { st.m with DisplayName := v } } := by
  simp +decide [dispatch, QueryUnescape_QueryEscape]

theorem dispatch_mt (st : ParseState) (v : Str) :
    dispatch st (B "mt") v = .ok { st with m := { st.m with ManifestTopic := v } } := by
  simp +decide [dispatch]

theorem dispatch_kt (st : ParseState) (v : Str) :
    dispatch st (B "kt") v
      = .ok { st with m := { st.m with KeywordTopic := st.m.KeywordTopic ++ Split v (B "+") } } := by
  simp +decide [dispatch]

theorem dispatch_xl (st : ParseState) {i : Int} (h1 : -(2 : Int) ^ 63 ≤ i)
    (h2 : i < (2 : Int) ^ 63) :
    dispatch st (B "xl") (FormatInt i) = .ok { st with m := { st.m with ExactLength := i } } := by
  simp +decide [dispatch, ParseInt_FormatInt h1 h2]

theorem foldl_exactTopics (vs : List Str) (st : ParseState) :
    vs.foldl (fun st v => { st with exactTopics := setInsert st.exactTopics v }) st
      = { st with exactTopics := vs.foldl setInsert st.exactTopics } := by
  induction vs generalizing st with
  | nil => rfl
  | cons v vs ih => simp only [List.foldl_cons, ih]

theorem foldl_trackers (vs : List Str) (st : ParseState) :
    vs.foldl (fun st v => { st with trackers := setInsert st.trackers v }) st
      = { st with trackers := vs.foldl setInsert st.trackers } := by
  induction vs generalizing st with
  | nil => rfl
  | cons v vs ih => simp only [List.foldl_cons, ih]

theorem foldl_acceptableSources (vs : List Str) (st : ParseState) :
    vs.foldl (fun st v => { st with acceptableSources := setInsert st.acceptableSources v }) st
      = { st with acceptableSources := vs.foldl setInsert st.acceptableSources } := by
  induction vs generalizing st with
  | nil => rfl
  | cons v vs ih => simp only [List.foldl_cons, ih]

theorem foldl_ExactSource (vs : List Str) (st : ParseState) :
    vs.foldl (fun st v => { st with m := { st.m with ExactSource := st.m.ExactSource ++ [v] } }) st
      = { st with m := { st.m with ExactSource := st.m.ExactSource ++ vs } } := by
  induction vs generalizing st with
  | nil => simp
  | cons v vs ih => simp only [List.foldl_cons, ih, List.append_assoc, List.singleton_append]

theorem mem_foldl_setInsert (vs set : List Str) (x : Str) :
    x ∈ vs.foldl setInsert set ↔ x ∈ set ∨ x ∈ vs := by
  induction vs generalizing set with
  | nil => simp
  | cons v vs ih =>
    rw [List.foldl_cons, ih, mem_setInsert, List.mem_cons]
    tauto

/-! ## What `Encode` writes contains no separator and no second prefix -/

theorem not_infix_of_no_colon {s : Str} (h : (58 : Byte) ∉ s) : ¬ magnetPrefix <:+: s := by
  intro hin
  exact h (hin.subset (by decide))

theorem not_mem_QueryEscape {s : Str} {x : Byte} (hx : escapedByte x = false) :
    x ∉ QueryEscape s := by
  intro h
  rw [escapedByte_of_mem_QueryEscape h] at hx
  cases hx

theorem mem_FormatInt {i : Int} {x : Byte} (h : x ∈ FormatInt i) :
    x = 45 ∨ isDigit x = true := by
  obtain ⟨-, h2, -⟩ := formatBits_spec (i.natAbs + 1) i.natAbs (by omega)
  rw [List.all_eq_true] at h2
  unfold FormatInt at h
  split_ifs at h
  · rcases List.mem_cons.mp h with h1 | h1
    · exact Or.inl h1
    · exact Or.inr (h2 x h1)
  · exact Or.inr (h2 x h)

theorem not_mem_FormatInt {i : Int} {x : Byte} (h1 : x ≠ 45) (h2 : isDigit x = false) :
    x ∉ FormatInt i := by
  intro h
  rcases mem_FormatInt h with h3 | h3
  · exact h1 h3
  · rw [h3] at h2
    cases h2

theorem FormatInt_ne_nil (i : Int) : FormatInt i ≠ [] := by
  obtain ⟨h1, -, -⟩ := formatBits_spec (i.natAbs + 1) i.natAbs (by omega)
  unfold FormatInt
  split_ifs
  · simp
  · exact h1

theorem mem_Join {c x : Byte} {ls : List Str} (h : x ∈ Join ls [c]) :
    x = c ∨ ∃ q ∈ ls, x ∈ q := by
  induction ls with
  | nil => simp [Join_nil] at h
  | cons q ls ih =>
    cases ls with
    | nil =>
      rw [Join_singleton] at h
      exact Or.inr ⟨q, by simp, h⟩
    | cons r ls1 =>
      rw [Join_cons_cons] at h
      simp only [List.mem_append, List.mem_singleton] at h
      rcases h with (h | h) | h
      · exact Or.inr ⟨q, by simp, h⟩
      · exact Or.inl h
      · rcases ih h with h1 | ⟨t, ht, hxt⟩
        · exact Or.inl h1
        · exact Or.inr ⟨t, List.mem_cons_of_mem _ ht, hxt⟩

theorem Join_eq_nil {c : Byte} {ls : List Str} (h : Join ls [c] = []) : ls = [] ∨ ls = [[]] := by
  cases ls with
  | nil => exact Or.inl rfl
  | cons q ls =>
    cases ls with
    | nil =>
      rw [Join_singleton] at h
      exact Or.inr (by rw [h])
    | cons r ls1 =>
      rw [Join_cons_cons] at h
      simp at h

theorem not_mem_param {x : Byte} {k v : Str} (hx : x ≠ 61) (hk : x ∉ k) (hv : x ∉ v) :
    x ∉ param (k, v) := by
  unfold param
  rw [B_eq]
  simp only [List.mem_append, List.mem_singleton, not_or]
  exact ⟨⟨hk, hx⟩, hv⟩

theorem not_infix_param {k v : Str} (hk : ¬ magnetPrefix <:+: k) (hv : ¬ magnetPrefix <:+: v) :
    ¬ magnetPrefix <:+: param (k, v) := by
  unfold param
  rw [B_eq]
  intro h
  have h1 : k ++ [(61 : Byte)] ++ v = k ++ 61 :: v := by simp
  rw [h1] at h
  rcases infix_of_infix_append_cons (by decide) h with h2 | h2
  · exact hk h2
  · exact hv h2

/-! ## `Parse` after `Encode` -/

theorem Join_kt_clean {kt : List Str}
    (h : ∀ t ∈ kt, (38 : Byte) ∉ t ∧ (61 : Byte) ∉ t ∧ (43 : Byte) ∉ t ∧ ¬ magnetPrefix <:+: t) :
    (38 : Byte) ∉ Join kt (B "+") ∧ (61 : Byte) ∉ Join kt (B "+")
      ∧ ¬ magnetPrefix <:+: Join kt (B "+") := by
  rw [B_plus]
  refine ⟨fun hx => ?_, fun hx => ?_, fun hx => ?_⟩
  · rcases mem_Join hx with h1 | ⟨q, hq, hxq⟩
    · revert h1; decide
    · exact (h q hq).1 hxq
  · rcases mem_Join hx with h1 | ⟨q, hq, hxq⟩
    · revert h1; decide
    · exact (h q hq).2.1 hxq
  · obtain ⟨q, hq, hin⟩ := (infix_Join_iff (by decide) magnetPrefix_ne_nil kt).mp hx
    exact (h q hq).2.2.2 hin

/-- Every parameter `Encode` writes for a Magnet that round-trips has no `&` and no occurrence
of the prefix. -/
theorem encodePairs_clean {m : Magnet} (h : roundTrips m) :
    ∀ kv ∈ encodePairs [] m, (38 : Byte) ∉ param kv ∧ ¬ magnetPrefix <:+: param kv := by
  obtain ⟨hxt, hmt, hkt, -, -, -, -, -, -⟩ := h
  have hesc : ∀ (k s : Str), (38 : Byte) ∉ k → ¬ magnetPrefix <:+: k →
      (38 : Byte) ∉ param (k, QueryEscape s) ∧ ¬ magnetPrefix <:+: param (k, QueryEscape s) :=
    fun k s h1 h2 =>
      ⟨not_mem_param (by decide) h1 (not_mem_QueryEscape (by decide)),
        not_infix_param h2 (not_infix_of_no_colon (not_mem_QueryEscape (by decide)))⟩
  intro kv hkv
  simp only [encodePairs, List.flatMap_nil, List.append_nil, List.mem_append, List.mem_cons,
    List.mem_map, List.mem_singleton, List.not_mem_nil, or_false] at hkv
  rcases hkv with ((((((hkv | hkv) | hkv) | hkv) | hkv) | hkv) | hkv) | hkv
  · subst hkv
    exact hesc _ _ (by decide) (by decide)
  · obtain ⟨x, hx, rfl⟩ := hkv
    obtain ⟨-, h1, -, h3⟩ := hxt x hx
    exact ⟨not_mem_param (by decide) (by decide) h1, not_infix_param (by decide) h3⟩
  · split_ifs at hkv
    · simp only [List.mem_singleton] at hkv
      subst hkv
      exact ⟨not_mem_param (by decide) (by decide) (not_mem_FormatInt (by decide) (by decide)),
        not_infix_param (by decide)
          (not_infix_of_no_colon (not_mem_FormatInt (by decide) (by decide)))⟩
    · cases hkv
  · obtain ⟨x, -, rfl⟩ := hkv
    exact hesc _ _ (by decide) (by decide)
  · obtain ⟨x, -, rfl⟩ := hkv
    exact hesc _ _ (by decide) (by decide)
  · obtain ⟨x, -, rfl⟩ := hkv
    exact hesc _ _ (by decide) (by decide)
  · split_ifs at hkv
    · simp only [List.mem_singleton] at hkv
      subst hkv
      obtain ⟨h1, -, h3⟩ := Join_kt_clean hkt
      exact ⟨not_mem_param (by decide) (by decide) h1, not_infix_param (by decide) h3⟩
    · cases hkv
  · split_ifs at hkv with hne
    · simp only [List.mem_singleton] at hkv
      subst hkv
      obtain ⟨-, h1, -, h3⟩ := hmt hne
      exact ⟨not_mem_param (by decide) (by decide) h1, not_infix_param (by decide) h3⟩
    · cases hkv

theorem encodePairs_ne_nil (entries : List (Str × List Str)) (m : Magnet) :
    (encodePairs entries m).map param ≠ [] := by
  simp [encodePairs]

/-- The parameters `Parse` reads from the text `Encode` wrote are the parameters written. -/
theorem rawParams_Encode (o : RangeOrder) {m : Magnet} (h : roundTrips m) :
    rawParams (Encode o m) = (encodePairs [] m).map param := by
  have hextra : m.Extra = [] := h.2.2.2.2.2.2.2.1
  have hclean := encodePairs_clean h
  rw [Encode_eq_Join, hextra, o.extra_nil, B_amp]
  have hno : ¬ magnetPrefix <:+: Join ((encodePairs [] m).map param) [38] := by
    intro hin
    obtain ⟨q, hq, hq1⟩ := (infix_Join_iff (by decide) magnetPrefix_ne_nil _).mp hin
    obtain ⟨kv, hkv, rfl⟩ := List.mem_map.mp hq
    exact (hclean kv hkv).2 hq1
  rw [ rawParams_of_not_infix hno, B_amp, Split_Join_single 38 _ (encodePairs_ne_nil _ _)]
  intro l hl
  obtain ⟨kv, hkv, rfl⟩ := List.mem_map.mp hl
  exact (hclean kv hkv).1

theorem scan_cons_dispatch {k v : Str} {rest : List Str} {st st1 : ParseState}
    (hk : (61 : Byte) ∉ k) (hv : (61 : Byte) ∉ v) (hne : v ≠ [])
    (hd : dispatch st k v = .ok st1) :
    scan (param (k, v) :: rest) st = scan rest st1 := by
  simp only [scan, step_param st hk hv hne, hd]

theorem not_eq_mem_QueryEscape (s : Str) : (61 : Byte) ∉ QueryEscape s :=
  not_mem_QueryEscape (by decide)

/-- The loop of `Parse` on the parameters `Encode` writes for a Magnet that round-trips ends in
the state `reparsed m`. -/
theorem scan_encodePairs {m : Magnet} (h : roundTrips m) :
    scan ((encodePairs [] m).map param) {} = .ok (reparsed m) := by
  obtain ⟨hxt, hmt, hkt, hkt1, htr, has, hxs, -, hr1, hr2⟩ := h
  simp only [encodePairs, List.flatMap_nil, List.append_nil, List.map_append, List.map_map,
    List.append_assoc, List.singleton_append, List.map_cons, List.map_nil, Function.comp_def,
    List.cons_append, List.nil_append]
  -- `dn`
  have hdn : ∀ rest, scan (param (B "dn", QueryEscape m.DisplayName) :: rest) {}
      = scan rest { m := { DisplayName := m.DisplayName } } := by
    intro rest
    by_cases hd : m.DisplayName = []
    · rw [hd]
      simp only [scan]
      rw [show QueryEscape [] = [] from rfl, step_param_empty _ (by decide)]
    · exact scan_cons_dispatch (by decide) (not_eq_mem_QueryEscape _)
        (fun hq => hd (QueryEscape_eq_nil.mp hq)) (dispatch_dn _ _)
  rw [hdn]
  -- `xt`
  have hxtseg : ∀ (rest : List Str) (st : ParseState),
      scan (m.ExactTopics.map (fun x => param (B "xt", x)) ++ rest) st
        = scan rest (m.ExactTopics.foldl
            (fun st v => { st with exactTopics := setInsert st.exactTopics v }) st) :=
    fun rest st => scan_map_params (B "xt") (fun v => v) _ (by decide)
      (fun st v => dispatch_xt st v) m.ExactTopics rest st
      (fun v hv => ⟨(hxt v hv).2.2.1, (hxt v hv).1⟩)
  rw [hxtseg, foldl_exactTopics]
  -- `xl`
  have hxl : ∀ (st : ParseState) rest,
      scan ((if m.ExactLength > 0 then [(B "xl", FormatInt m.ExactLength)] else []).map param
        ++ rest) st
      = scan rest { st with m := { st.m with
          ExactLength := if 0 < m.ExactLength then m.ExactLength else st.m.ExactLength } } := by
    intro st rest
    by_cases hpos : m.ExactLength > 0
    · rw [if_pos hpos, if_pos hpos]
      exact scan_cons_dispatch (by decide) (not_mem_FormatInt (by decide) (by decide))
        (FormatInt_ne_nil _) (dispatch_xl st hr1 hr2)
    · rw [if_neg hpos, if_neg hpos]
      rfl
  rw [hxl]
  -- `tr`, `as`, `xs`
  rw [scan_map_params (B "tr") QueryEscape _ (by decide) (fun st v => dispatch_tr st v)
    m.Trackers _ _
    (fun v hv => ⟨not_eq_mem_QueryEscape v, fun hq => htr v hv (QueryEscape_eq_nil.mp hq)⟩),
    foldl_trackers]
  rw [scan_map_params (B "as") QueryEscape _ (by decide) (fun st v => dispatch_as st v)
    m.AcceptableSources _ _
    (fun v hv => ⟨not_eq_mem_QueryEscape v, fun hq => has v hv (QueryEscape_eq_nil.mp hq)⟩),
    foldl_acceptableSources]
  rw [scan_map_params (B "xs") QueryEscape _ (by decide) (fun st v => dispatch_xs st v)
    m.ExactSource _ _
    (fun v hv => ⟨not_eq_mem_QueryEscape v, fun hq => hxs v hv (QueryEscape_eq_nil.mp hq)⟩),
    foldl_ExactSource]
  -- `kt`
  have hktp : ∀ (st : ParseState) rest, st.m.KeywordTopic = [] →
      scan ((if m.KeywordTopic.length > 0 then [(B "kt", Join m.KeywordTopic (B "+"))]
        else []).map param ++ rest) st
      = scan rest { st with m := { st.m with KeywordTopic := m.KeywordTopic } } := by
    intro st rest hst
    by_cases hpos : m.KeywordTopic.length > 0
    · rw [if_pos hpos]
      have hne : m.KeywordTopic ≠ [] := List.length_pos.mp hpos
      have hjoin : Join m.KeywordTopic (B "+") ≠ [] := by
        intro hj
        rw [B_plus] at hj
        rcases Join_eq_nil hj with h1 | h1
        · exact hne h1
        · exact hkt1 h1
      have hd := dispatch_kt st (Join m.KeywordTopic (B "+"))
      rw [hst, List.nil_append] at hd
      have hsplit : Split (Join m.KeywordTopic (B "+")) (B "+") = m.KeywordTopic := by
        rw [B_plus]
        exact Split_Join_single 43 (fun l hl => (hkt l hl).2.2.1) hne
      rw [hsplit] at hd
      exact scan_cons_dispatch (by decide) (Join_kt_clean hkt).2.1 hjoin hd
    · rw [if_neg hpos]
      have hnil : m.KeywordTopic = [] := by
        cases hm : m.KeywordTopic with
        | nil => rfl
        | cons a l => rw [hm] at hpos; simp at hpos
      rw [hnil, ← hst]
      rfl
  rw [hktp _ _ rfl]
  -- `mt`
  by_cases hmne : m.ManifestTopic ≠ []
  · rw [if_pos hmne]
    obtain ⟨h1, -, h3, -⟩ := hmt hmne
    simp only [List.map_cons, List.map_nil]
    rw [scan_cons_dispatch (by decide) h3 h1 (dispatch_mt _ _)]
    simp [scan, reparsed]
  · rw [if_neg hmne]
    have hnil : m.ManifestTopic = [] := by simpa using hmne
    simp [scan, reparsed, hnil]

/-- Parsing what `Encode` wrote for a Magnet that round-trips succeeds, with the state
`reparsed m`. -/
theorem Parse_Encode (o2 o3 : RangeOrder) {m : Magnet} (h : roundTrips m) :
    Parse o3 (Encode o2 m) = .ok (materialize o3 (reparsed m)) := by
  have hp : HasPrefix (Encode o2 m) magnetPrefix = true := by
    rw [Encode_eq_Join]
    exact HasPrefix_append _
  rw [Parse_of_HasPrefix o3 hp, rawParams_Encode o2 h, scan_encodePairs h]

/-! ## The pieces of `strings.Split` contain no separator -/

theorem not_infix_nil {sep : Str} (h : sep ≠ []) : ¬ sep <:+: [] := by
  intro hin
  exact h (List.infix_nil.mp hin)

theorem not_infix_of_Index_none {sep : Str} (hsep : sep ≠ []) :
    ∀ {s : Str}, Index sep s = none → ¬ sep <:+: s
  | [], _ => not_infix_nil hsep
  | c :: s, h => by
    by_cases hp : sep.isPrefixOf (c :: s) = true
    · simp [Index, hp] at h
    · simp only [Index, hp] at h
      have hs : Index sep s = none := by
        cases hi : Index sep s with
        | none => rfl
        | some k => simp [hi] at h
      intro hin
      rcases List.infix_cons_iff.mp hin with h1 | h1
      · exact hp (List.isPrefixOf_iff_prefix.mpr h1)
      · exact not_infix_of_Index_none hsep hs h1

/-- The text before the first occurrence of the separator contains no occurrence of it. -/
theorem not_infix_take_of_Index {sep : Str} (hsep : sep ≠ []) :
    ∀ {s : Str} {m : Nat}, Index sep s = some m → ¬ sep <:+: s.take m
  | [], m, h => by
    simp [Index, hsep] at h
  | c :: s, m, h => by
    by_cases hp : sep.isPrefixOf (c :: s) = true
    · simp only [Index, hp, if_true, Option.some.injEq] at h
      subst h
      exact not_infix_nil hsep
    · simp only [Index, hp] at h
      cases hi : Index sep s with
      | none => simp [hi] at h
      | some k =>
        simp only [hi, Option.map_some', Option.some.injEq, Bool.false_eq_true, if_false] at h
        subst h
        rw [List.take_succ_cons]
        intro hin
        rcases List.infix_cons_iff.mp hin with h1 | h1
        · exact hp (List.isPrefixOf_iff_prefix.mpr
            (h1.trans ((List.prefix_cons_inj c).mpr ( List.take_prefix k s))))
        · exact not_infix_take_of_Index hsep hi h1

theorem not_infix_of_mem_genSplit {sep : Str} (hsep : sep ≠ []) :
    ∀ (n : Nat) (s : Str), s.length ≤ n → ∀ q ∈ genSplit sep n s, ¬ sep <:+: q := by
  intro n
  induction n with
  | zero =>
    intro s hs q hq
    have hnil : s = [] := List.eq_nil_of_length_eq_zero (by omega)
    subst hnil
    simp only [genSplit, List.mem_singleton] at hq
    subst hq
    exact not_infix_nil hsep
  | succ n ih =>
    intro s hs q hq
    simp only [genSplit] at hq
    cases hi : Index sep s with
    | none =>
      rw [hi] at hq
      simp only [List.mem_singleton] at hq
      subst hq
      exact not_infix_of_Index_none hsep hi
    | some m =>
      rw [hi] at hq
      have hl : 0 < sep.length := List.length_pos.mpr hsep
      rcases List.mem_cons.mp hq with rfl | hq
      · exact not_infix_take_of_Index hsep hi
      · exact ih _ (by simp; omega) q hq

/-- No piece of `strings.Split(s, sep)` contains an occurrence of `sep`. -/
theorem not_infix_of_mem_Split {sep : Str} (hsep : sep ≠ []) (s : Str) :
    ∀ q ∈ Split s sep, ¬ sep <:+: q :=
  not_infix_of_mem_genSplit hsep s.length s (le_refl _)

theorem infix_of_mem_Split_single (c : Byte) (s q : Str) (h : q ∈ Split s [c]) : q <:+: s := by
  have := infix_Join_of_mem (c := c) h
  rwa [Join_Split_single] at this

/-! ## The values `Parse` reads are clean -/

theorem getD_one_not_infix (raw : Str) :
    ¬ magnetPrefix <:+: (Split raw magnetPrefix).getD 1 [] := by
  cases hs : Split raw magnetPrefix with
  | nil => exact not_infix_nil magnetPrefix_ne_nil
  | cons a l =>
    cases l with
    | nil => exact not_infix_nil magnetPrefix_ne_nil
    | cons b l1 =>
      exact not_infix_of_mem_Split magnetPrefix_ne_nil raw b (by rw [hs]; simp)

/-- A parameter `Parse` reads has no `&` and no occurrence of the prefix. -/
theorem rawParams_clean {raw p : Str} (hp : p ∈ rawParams raw) :
    (38 : Byte) ∉ p ∧ ¬ magnetPrefix <:+: p := by
  unfold rawParams at hp
  rw [B_amp] at hp
  refine ⟨?_, fun hin => ?_⟩
  · rw [Split_single] at hp
    exact not_mem_of_mem_splitOn 38 _ p hp
  · exact getD_one_not_infix raw (hin.trans (infix_of_mem_Split_single 38 _ p hp))

theorem keyValue_mem_Split {p k v : Str} (h : keyValue p = some (k, v)) :
    v ∈ Split p (B "=") := by
  unfold keyValue at h
  split at h
  · rename_i key value rest hs
    split_ifs at h
    have := Option.some.inj h
    have hv : value = v := congrArg Prod.snd this
    rw [hs, ← hv]
    simp
  · cases h

/-- A value `Parse` reads is not empty and has no `&`, no `=` and no occurrence of the
prefix. -/
theorem cleanValue_of_keyValue {raw p k v : Str} (hp : p ∈ rawParams raw)
    (hkv : keyValue p = some (k, v)) : cleanValue v := by
  obtain ⟨h38, hin⟩ := rawParams_clean hp
  have hmem := keyValue_mem_Split hkv
  rw [B_eq] at hmem
  have hinf : v <:+: p := infix_of_mem_Split_single 61 p v hmem
  refine ⟨keyValue_value_ne_nil hkv, fun h => h38 (hinf.subset h), ?_, fun h => hin (h.trans hinf)⟩
  rw [Split_single] at hmem
  exact not_mem_of_mem_splitOn 61 p v hmem

theorem cleanValue_of_mem_valuesOf {raw key v : Str} (h : v ∈ valuesOf key (rawParams raw)) :
    cleanValue v := by
  obtain ⟨p, hp, hkv⟩ := mem_valuesOf.mp h
  exact cleanValue_of_keyValue hp hkv

theorem token_clean {v t : Str} (hv : cleanValue v) (ht : t ∈ Split v (B "+")) :
    (38 : Byte) ∉ t ∧ (61 : Byte) ∉ t ∧ (43 : Byte) ∉ t ∧ ¬ magnetPrefix <:+: t := by
  rw [B_plus] at ht
  have hinf : t <:+: v := infix_of_mem_Split_single 43 v t ht
  obtain ⟨-, h1, h2, h3⟩ := hv
  refine ⟨fun h => h1 (hinf.subset h), fun h => h2 (hinf.subset h), ?_,
    fun h => h3 (h.trans hinf)⟩
  rw [Split_single] at ht
  exact not_mem_of_mem_splitOn 43 v t ht

theorem flatten_Split_ne_singleton_nil (vs : List Str) (hvs : ∀ v ∈ vs, v ≠ []) :
    (vs.map (fun v => Split v (B "+"))).flatten ≠ [[]] := by
  cases vs with
  | nil => simp
  | cons v vs =>
    intro h
    simp only [List.map_cons, List.flatten_cons] at h
    have hne : Split v (B "+") ≠ [] := Split_ne_nil (by decide) v
    cases hs : Split v (B "+") with
    | nil => exact hne hs
    | cons x xs =>
      rw [hs] at h
      simp only [List.cons_append, List.cons.injEq, List.append_eq_nil] at h
      obtain ⟨hx, hxs, -⟩ := h
      have hj := Join_Split_single 43 v
      rw [← B_plus, hs, hx, hxs] at hj
      exact hvs v (List.mem_cons_self _ _) hj.symm

theorem forall2_right_of_left {α β : Type} {R : α → β → Prop} {P : α → Prop} {Q : β → Prop}
    (hR : ∀ a b, P a → R a b → Q b) {l1 : List α} {l2 : List β}
    (h : List.Forall₂ R l1 l2) (hP : ∀ a ∈ l1, P a) : ∀ b ∈ l2, Q b := by
  induction h with
  | nil => intro b hb; cases hb
  | cons h1 _ ih =>
    intro b hb
    rcases List.mem_cons.mp hb with rfl | hb
    · exact hR _ _ (hP _ (List.mem_cons_self _ _)) h1
    · exact ih (fun a ha => hP a (List.mem_cons_of_mem _ ha)) b hb

/-- A Magnet that `Parse` returned with an empty `Extra` round-trips. -/
theorem roundTrips_of_Parse {o : RangeOrder} {raw : Str} {m : Magnet}
    (h : Parse o raw = .ok m) (hextra : m.Extra = []) : roundTrips m := by
  obtain ⟨-, st, hs, rfl⟩ := Parse_ok h
  have hxt := (scan_set (fun st => st.exactTopics) (B "xt") (fun v x => v = x)
    (fun v x y hx hy => hx.symm.trans hy)
    (fun st st1 k v hd => by
      rcases dispatch_exactTopics hd with ⟨hk, hf⟩ | ⟨hk, hf⟩
      · exact Or.inl ⟨hk, v, rfl, hf⟩
      · exact Or.inr ⟨hk, hf⟩)
    (rawParams raw) {} st hs).2
  have htr := (scan_set (fun st => st.trackers) (B "tr") (fun v x => QueryUnescape v = .ok x)
    (fun v x y hx hy => Except.ok.inj (hx.symm.trans hy))
    (fun st st1 k v hd => dispatch_trackers hd)
    (rawParams raw) {} st hs).2
  have has := (scan_set (fun st => st.acceptableSources) (B "as")
    (fun v x => QueryUnescape v = .ok x)
    (fun v x y hx hy => Except.ok.inj (hx.symm.trans hy))
    (fun st st1 k v hd => dispatch_acceptableSources hd)
    (rawParams raw) {} st hs).2
  have hkt : st.m.KeywordTopic
      = ((valuesOf (B "kt") (rawParams raw)).map (fun v => Split v (B "+"))).flatten := by
    simpa using scan_KeywordTopic hs
  refine ⟨?_, ?_, ?_, ?_, ?_, ?_, ?_, hextra, ?_⟩
  · intro x hx
    have hx1 : x ∈ o.topics st.exactTopics := hx
    rw [(o.topics_perm _).mem_iff, hxt x] at hx1
    rcases hx1 with hx1 | ⟨p, hp, v, hkv, rfl⟩
    · cases hx1
    · exact cleanValue_of_keyValue hp hkv
  · intro hne
    have hmt := scan_ManifestTopic hs
    show cleanValue st.m.ManifestTopic
    cases hl : (valuesOf (B "mt") (rawParams raw)).getLast? with
    | none =>
      rw [hl] at hmt
      exact absurd hmt hne
    | some v =>
      rw [hl] at hmt
      have hv : v = st.m.ManifestTopic := hmt
      rw [← hv]
      exact cleanValue_of_mem_valuesOf (List.mem_of_getLast?_eq_some hl)
  · intro t ht
    have ht1 : t ∈ st.m.KeywordTopic := ht
    rw [hkt, List.mem_flatten] at ht1
    obtain ⟨l, hl, htl⟩ := ht1
    obtain ⟨v, hv, rfl⟩ := List.mem_map.mp hl
    exact token_clean (cleanValue_of_mem_valuesOf hv) htl
  · show st.m.KeywordTopic ≠ [[]]
    rw [hkt]
    exact flatten_Split_ne_singleton_nil _ (fun v hv => valuesOf_ne_nil hv)
  · intro t ht
    have ht1 : t ∈ o.trackers st.trackers := ht
    rw [(o.trackers_perm _).mem_iff, htr t] at ht1
    rcases ht1 with ht1 | ⟨p, hp, v, hkv, hq⟩
    · cases ht1
    · exact QueryUnescape_ne_nil hq (keyValue_value_ne_nil hkv)
  · intro t ht
    have ht1 : t ∈ o.sources st.acceptableSources := ht
    rw [(o.sources_perm _).mem_iff, has t] at ht1
    rcases ht1 with ht1 | ⟨p, hp, v, hkv, hq⟩
    · cases ht1
    · exact QueryUnescape_ne_nil hq (keyValue_value_ne_nil hkv)
  · obtain ⟨ds, hds, hf⟩ := scan_ExactSource hs
    have hf1 : st.m.ExactSource = ds := by simpa using hf
    show ∀ t ∈ st.m.ExactSource, t ≠ []
    rw [hf1]
    exact forall2_right_of_left (P := fun v => v ≠ [])
      (fun a b ha hab => QueryUnescape_ne_nil hab ha) hds (fun v hv => valuesOf_ne_nil hv)
  · have hx := scan_ExactLength hs
    show -(2 : Int) ^ 63 ≤ st.m.ExactLength ∧ st.m.ExactLength < (2 : Int) ^ 63
    cases hl : (valuesOf (B "xl") (rawParams raw)).getLast? with
    | none =>
      rw [hl] at hx
      have h0 : st.m.ExactLength = 0 := hx
      rw [h0]
      norm_num
    | some w =>
      rw [hl] at hx
      exact int64Decimal_range ((ParseInt_ok_iff w _).mp hx)

/-- The fields of the Magnet parsed back from what `Encode` wrote. -/
theorem Parse_Encode_fields (o2 o3 : RangeOrder) {m : Magnet} (h : roundTrips m) :
    ∃ m2, Parse o3 (Encode o2 m) = .ok m2
      ∧ m2.DisplayName = m.DisplayName
      ∧ m2.ManifestTopic = m.ManifestTopic
      ∧ m2.ExactSource = m.ExactSource
      ∧ m2.KeywordTopic = m.KeywordTopic
      ∧ m2.Extra = []
      ∧ (∀ s, s ∈ m2.ExactTopics ↔ s ∈ m.ExactTopics)
      ∧ (∀ s, s ∈ m2.Trackers ↔ s ∈ m.Trackers)
      ∧ (∀ s, s ∈ m2.AcceptableSources ↔ s ∈ m.AcceptableSources)
      ∧ (0 ≤ m.ExactLength → m2.ExactLength = m.ExactLength)
      ∧ (m.ExactLength < 0 → m2.ExactLength = 0) := by
  refine ⟨_, Parse_Encode o2 o3 h, rfl, rfl, rfl, rfl, rfl, fun s => ?_, fun s => ?_,
    fun s => ?_, fun h0 => ?_, fun h0 => ?_⟩
  · show s ∈ o3.topics (m.ExactTopics.foldl setInsert []) ↔ _
    rw [(o3.topics_perm _).mem_iff, mem_foldl_setInsert]
    simp
  · show s ∈ o3.trackers (m.Trackers.foldl setInsert []) ↔ _
    rw [(o3.trackers_perm _).mem_iff, mem_foldl_setInsert]
    simp
  · show s ∈ o3.sources (m.AcceptableSources.foldl setInsert []) ↔ _
    rw [(o3.sources_perm _).mem_iff, mem_foldl_setInsert]
    simp
  · show (if 0 < m.ExactLength then m.ExactLength else 0) = m.ExactLength
    split_ifs with hp
    · rfl
    · omega
  · show (if 0 < m.ExactLength then m.ExactLength else 0) = 0
    rw [if_neg (by omega)]

/-- The three set-valued fields of a Magnet `Parse` returned have no duplicates. -/
theorem Parse_nodup {o : RangeOrder} {raw : Str} {m : Magnet} (h : Parse o raw = .ok m) :
    m.ExactTopics.Nodup ∧ m.Trackers.Nodup ∧ m.AcceptableSources.Nodup := by
  obtain ⟨-, st, hs, rfl⟩ := Parse_ok h
  have hxt := (scan_set (fun st => st.exactTopics) (B "xt") (fun v x => v = x)
    (fun v x y hx hy => hx.symm.trans hy)
    (fun st st1 k v hd => by
      rcases dispatch_exactTopics hd with ⟨hk, hf⟩ | ⟨hk, hf⟩
      · exact Or.inl ⟨hk, v, rfl, hf⟩
      · exact Or.inr ⟨hk, hf⟩)
    (rawParams raw) {} st hs).1
  have htr := (scan_set (fun st => st.trackers) (B "tr") (fun v x => QueryUnescape v = .ok x)
    (fun v x y hx hy => Except.ok.inj (hx.symm.trans hy))
    (fun st st1 k v hd => dispatch_trackers hd)
    (rawParams raw) {} st hs).1
  have has := (scan_set (fun st => st.acceptableSources) (B "as")
    (fun v x => QueryUnescape v = .ok x)
    (fun v x y hx hy => Except.ok.inj (hx.symm.trans hy))
    (fun st st1 k v hd => dispatch_acceptableSources hd)
    (rawParams raw) {} st hs).1
  exact ⟨(o.topics_perm _).nodup_iff.mpr (hxt List.nodup_nil),
    (o.trackers_perm _).nodup_iff.mpr (htr List.nodup_nil),
    (o.sources_perm _).nodup_iff.mpr (has List.nodup_nil)⟩

/-- Two Magnets that agree up to the order of their multi-valued fields are encoded alike after
`Normalize` when the entries of `Extra` are visited in the same order. -/
theorem Encode_Normalize_eq (o1 o2 : RangeOrder) {a b : Magnet}
    (hdn : a.DisplayName = b.DisplayName) (hxl : a.ExactLength = b.ExactLength)
    (hmt : a.ManifestTopic = b.ManifestTopic)
    (hxt : a.ExactTopics.Perm b.ExactTopics) (htr : a.Trackers.Perm b.Trackers)
    (has : a.AcceptableSources.Perm b.AcceptableSources)
    (hxs : a.ExactSource.Perm b.ExactSource) (hkt : a.KeywordTopic.Perm b.KeywordTopic)
    (hex : o1.extra (Normalize a).Extra = o2.extra (Normalize b).Extra) :
    Encode o1 (Normalize a) = Encode o2 (Normalize b) := by
  have e1 : (Normalize a).ExactTopics = (Normalize b).ExactTopics := sortStrings_eq_of_perm hxt
  have e2 : (Normalize a).Trackers = (Normalize b).Trackers := sortStrings_eq_of_perm htr
  have e3 : (Normalize a).AcceptableSources = (Normalize b).AcceptableSources :=
    sortStrings_eq_of_perm has
  have e4 : (Normalize a).ExactSource = (Normalize b).ExactSource := sortStrings_eq_of_perm hxs
  have e5 : (Normalize a).KeywordTopic = (Normalize b).KeywordTopic :=
    sortStrings_eq_of_perm hkt
  have e6 : (Normalize a).DisplayName = (Normalize b).DisplayName := hdn
  have e7 : (Normalize a).ExactLength = (Normalize b).ExactLength := hxl
  have e8 : (Normalize a).ManifestTopic = (Normalize b).ManifestTopic := hmt
  unfold Encode
  rw [e1, e2, e3, e4, e5, e6, e7, e8, hex]

/-- A map with at most one entry is visited in one way only. -/
theorem extra_visit_eq_of_length_le_one (o1 o2 : RangeOrder) {a b : Magnet}
    (hab : a.Extra = b.Extra) (hlen : a.Extra.length ≤ 1) :
    o1.extra (Normalize a).Extra = o2.extra (Normalize b).Extra := by
  have hN : (Normalize a).Extra = (Normalize b).Extra := by
    show a.Extra.map _ = b.Extra.map _
    rw [hab]
  rw [hN]
  cases hl : (Normalize b).Extra with
  | nil => rw [o1.extra_nil, o2.extra_nil]
  | cons e es =>
    cases es with
    | nil => rw [o1.extra_singleton, o2.extra_singleton]
    | cons e1 es1 =>
      have : (Normalize b).Extra.length = b.Extra.length := by
        show (b.Extra.map _).length = _
        simp
      rw [hl, ← hab] at this
      simp at this
      omega

/-! ## Slices sorted in place -/

theorem length_sortStrings (x : List Str) : (sortStrings x).length = x.length :=
  (perm_sortStrings x).length_eq

theorem Slice.length_read {h : Heap} {s : Slice} (hv : s.valid h = true) :
    (s.read h).length = s.len := by
  simp only [Slice.valid, decide_eq_true_eq] at hv
  simp only [Slice.read, List.length_take, List.length_drop]
  omega

theorem sortStringsAt_of_ne (h : Heap) (s : Slice) {i : Nat} (hi : i ≠ s.arr) :
    sortStringsAt h s i = h i := by
  simp [sortStringsAt, hi]

theorem sortStringsAt_arr (h : Heap) (s : Slice) :
    sortStringsAt h s s.arr
      = (h s.arr).take s.off ++ sortStrings (s.read h) ++ (h s.arr).drop (s.off + s.len) := by
  simp [sortStringsAt]

theorem length_sortStringsAt {h : Heap} {s : Slice} (hv : s.valid h = true) (i : Nat) :
    (sortStringsAt h s i).length = (h i).length := by
  by_cases hi : i = s.arr
  · subst hi
    rw [sortStringsAt_arr]
    have := Slice.length_read hv
    simp only [Slice.valid, decide_eq_true_eq] at hv
    simp only [List.length_append, List.length_take, List.length_drop, length_sortStrings, this]
    omega
  · rw [sortStringsAt_of_ne h s hi]

theorem Slice.valid_sortStringsAt {h : Heap} {s : Slice} (hv : s.valid h = true) (t : Slice) :
    t.valid (sortStringsAt h s) = t.valid h := by
  simp only [Slice.valid, length_sortStringsAt hv]

/-- After `sort.Strings(s)` the slice `s` holds its former elements, sorted. -/
theorem Slice.read_sortStringsAt_self {h : Heap} {s : Slice} (hv : s.valid h = true) :
    s.read (sortStringsAt h s) = sortStrings (s.read h) := by
  have hl := Slice.length_read hv
  simp only [Slice.valid, decide_eq_true_eq] at hv
  rw [Slice.read, sortStringsAt_arr, List.append_assoc]
  have h1 : ((h s.arr).take s.off).length = s.off := by
    rw [List.length_take]; omega
  rw [List.drop_append_of_le_length (by omega), List.drop_of_length_le (by omega),
    List.nil_append, List.take_append_of_le_length (by rw [length_sortStrings, hl]),
    List.take_of_length_le (by rw [length_sortStrings, hl])]

theorem take_drop_splice_after (A M N C : List Str) (hlen : M.length = N.length) (n k : Nat)
    (hn : A.length + M.length ≤ n) :
    ((A ++ M ++ C).drop n).take k = ((A ++ N ++ C).drop n).take k := by
  obtain ⟨j, rfl⟩ := Nat.exists_eq_add_of_le hn
  have e1 : (A ++ M ++ C).drop (A.length + M.length + j) = C.drop j := by
    rw [← List.length_append]; exact List.drop_append j
  have e2 : (A ++ N ++ C).drop (A.length + M.length + j) = C.drop j := by
    rw [hlen, ← List.length_append]; exact List.drop_append j
  rw [e1, e2]

theorem take_drop_splice_before (A X Y : List Str) (n k : Nat) (hn : n + k ≤ A.length) :
    ((A ++ X).drop n).take k = ((A ++ Y).drop n).take k := by
  rw [List.drop_append_of_le_length (by omega), List.drop_append_of_le_length (by omega),
    List.take_append_of_le_length (by rw [List.length_drop]; omega),
    List.take_append_of_le_length (by rw [List.length_drop]; omega)]

/-- The sort of a slice in place leaves every slice that shares no element with it as it
was. -/
theorem Slice.read_sortStringsAt_of_separate {h : Heap} {s t : Slice}
    (hv : s.valid h = true) (hst : s.separate t = true) :
    t.read (sortStringsAt h s) = t.read h := by
  have hl := Slice.length_read hv
  have hs := length_sortStrings (s.read h)
  simp only [Slice.valid, decide_eq_true_eq] at hv
  simp only [Slice.separate, Bool.or_eq_true, decide_eq_true_eq, ne_eq] at hst
  by_cases ha : t.arr = s.arr
  swap
  · rw [Slice.read, sortStringsAt_of_ne h s ha, Slice.read]
  by_cases ht : t.len = 0
  · simp [Slice.read, ht]
  have hdec : h s.arr
      = (h s.arr).take s.off ++ s.read h ++ (h s.arr).drop (s.off + s.len) := by
    rw [Slice.read, List.append_assoc, ← List.drop_drop, List.take_append_drop,
      List.take_append_drop]
  have h1 : ((h s.arr).take s.off).length = s.off := by
    rw [List.length_take]; omega
  rw [Slice.read, Slice.read, ha, sortStringsAt_arr]
  nth_rewrite 3 [hdec]
  rcases hst with (((hst | hst) | hst) | hst) | hst
  · -- the sorted slice is empty
    have e : s.read h = [] := List.eq_nil_of_length_eq_zero (by rw [hl, hst])
    rw [e]; rfl
  · exact absurd hst ht
  · exact absurd ha.symm hst
  · exact take_drop_splice_after _ _ _ _ (by rw [hs]) _ _ (by rw [h1, hs, hl]; exact hst)
  · rw [List.append_assoc, List.append_assoc]
    exact take_drop_splice_before _ _ _ _ _ (by rw [h1]; exact hst)

theorem Slice.separate_symm {s t : Slice} (h : s.separate t = true) : t.separate s = true := by
  simp only [Slice.separate, Bool.or_eq_true, decide_eq_true_eq, ne_eq] at h ⊢
  rcases h with (((h | h) | h) | h) | h
  · exact Or.inl (Or.inl (Or.inl (Or.inr h)))
  · exact Or.inl (Or.inl (Or.inl (Or.inl h)))
  · exact Or.inl (Or.inl (Or.inr (fun e => h e.symm)))
  · exact Or.inr h
  · exact Or.inl (Or.inr h)

theorem pairwiseSeparate_iff (l : List Slice) :
    pairwiseSeparate l = true ↔ l.Pairwise (fun s t => s.separate t = true) := by
  induction l with
  | nil => simp [pairwiseSeparate]
  | cons s l ih =>
    simp only [pairwiseSeparate, Bool.and_eq_true, List.all_eq_true, ih, List.pairwise_cons]

theorem pairwiseSeparate_of_perm {l1 l2 : List Slice} (hp : l1.Perm l2)
    (h : pairwiseSeparate l2 = true) : pairwiseSeparate l1 = true := by
  rw [pairwiseSeparate_iff] at h ⊢
  exact (hp.pairwise_iff (fun hst => Slice.separate_symm hst)).2 h

/-- Sorting slices in place, one after the other, keeps every slice within its array. -/
theorem valid_foldl_sortStringsAt (l : List Slice) (h : Heap)
    (hv : ∀ s ∈ l, s.valid h = true) (t : Slice) :
    t.valid (l.foldl sortStringsAt h) = t.valid h := by
  induction l generalizing h with
  | nil => rfl
  | cons s l ih =>
    have hs := hv s (List.mem_cons_self _ _)
    rw [List.foldl_cons, ih _ (fun u hu => by
      rw [Slice.valid_sortStringsAt hs]; exact hv u (List.mem_cons_of_mem _ hu)),
      Slice.valid_sortStringsAt hs]

/-- Sorting slices in place leaves a slice that shares no element with any of them as it
was. -/
theorem read_foldl_sortStringsAt_of_separate (l : List Slice) (h : Heap) (t : Slice)
    (hv : ∀ s ∈ l, s.valid h = true) (hst : ∀ s ∈ l, s.separate t = true) :
    t.read (l.foldl sortStringsAt h) = t.read h := by
  induction l generalizing h with
  | nil => rfl
  | cons s l ih =>
    have hs := hv s (List.mem_cons_self _ _)
    rw [List.foldl_cons, ih _ (fun u hu => by
      rw [Slice.valid_sortStringsAt hs]; exact hv u (List.mem_cons_of_mem _ hu))
      (fun u hu => hst u (List.mem_cons_of_mem _ hu)),
      Slice.read_sortStringsAt_of_separate hs (hst s (List.mem_cons_self _ _))]

/-- Sorting in place, one after the other, slices of which no two share an element sorts each
of them. -/
theorem read_foldl_sortStringsAt_of_mem (l : List Slice) (h : Heap) (t : Slice)
    (hv : ∀ s ∈ l, s.valid h = true) (hp : pairwiseSeparate l = true) (ht : t ∈ l) :
    t.read (l.foldl sortStringsAt h) = sortStrings (t.read h) := by
  induction l generalizing h with
  | nil => cases ht
  | cons s l ih =>
    have hs := hv s (List.mem_cons_self _ _)
    have hv1 : ∀ u ∈ l, u.valid (sortStringsAt h s) = true := fun u hu => by
      rw [Slice.valid_sortStringsAt hs]; exact hv u (List.mem_cons_of_mem _ hu)
    simp only [pairwiseSeparate, Bool.and_eq_true, List.all_eq_true] at hp
    rw [List.foldl_cons]
    by_cases hin : t ∈ l
    · rw [ih _ hv1 hp.2 hin, Slice.read_sortStringsAt_of_separate hs (hp.1 t hin)]
    · have hts : t = s := by
        rcases List.mem_cons.1 ht with e | e
        · exact e
        · exact absurd e hin
      subst hts
      rw [read_foldl_sortStringsAt_of_separate l _ t hv1
        (fun u hu => Slice.separate_symm (hp.1 u hu)), Slice.read_sortStringsAt_self hs]

/-- The sorts of `Normalize` as one sequence. -/
theorem MagnetMem.Normalize_eq_foldl (v : VisitOrder) (h : Heap) (m : MagnetMem) :
    m.Normalize v h
      = ([m.ExactTopics, m.Trackers, m.AcceptableSources, m.ExactSource, m.KeywordTopic]
          ++ (v.order m.Extra).map Prod.snd).foldl sortStringsAt h := by
  simp only [MagnetMem.Normalize, List.foldl_append, List.foldl_cons, List.foldl_nil,
    List.foldl_map]

theorem MagnetMem.visited_perm (v : VisitOrder) (m : MagnetMem) :
    ([m.ExactTopics, m.Trackers, m.AcceptableSources, m.ExactSource, m.KeywordTopic]
        ++ (v.order m.Extra).map Prod.snd).Perm m.slices :=
  List.Perm.append_left _ ((v.order_perm m.Extra).map Prod.snd)

/-- After `Normalize` every slice of a Magnet with separate storage holds its former elements,
sorted. -/
theorem MagnetMem.read_Normalize (v : VisitOrder) {h : Heap} {m : MagnetMem}
    (hsep : m.separateStorage h = true) {t : Slice} (ht : t ∈ m.slices) :
    t.read (m.Normalize v h) = sortStrings (t.read h) := by
  simp only [MagnetMem.separateStorage, storageSeparate, Bool.and_eq_true, List.all_eq_true] at hsep
  rw [MagnetMem.Normalize_eq_foldl]
  exact read_foldl_sortStringsAt_of_mem _ h t
    (fun s hs => hsep.1 s ((MagnetMem.visited_perm v m).mem_iff.1 hs))
    (pairwiseSeparate_of_perm (MagnetMem.visited_perm v m) hsep.2)
    ((MagnetMem.visited_perm v m).mem_iff.2 ht)

/-- `Normalize` keeps every slice of a Magnet within its array, whatever the storage. -/
theorem MagnetMem.valid_Normalize (v : VisitOrder) {h : Heap} {m : MagnetMem}
    (hv : ∀ s ∈ m.slices, s.valid h = true) (t : Slice) :
    t.valid (m.Normalize v h) = t.valid h := by
  rw [MagnetMem.Normalize_eq_foldl]
  exact valid_foldl_sortStringsAt _ h
    (fun s hs => hv s ((MagnetMem.visited_perm v m).mem_iff.1 hs)) t

/-- On a Magnet whose slices share no storage, the call `m.Normalize()` in memory has the
effect of the function `Normalize` on its value. -/
theorem MagnetMem.value_Normalize (v : VisitOrder) {h : Heap} {m : MagnetMem}
    (hsep : m.separateStorage h = true) :
    m.value (m.Normalize v h) = Magneturi.Normalize (m.value h) := by
  have r := fun (t : Slice) (ht : t ∈ m.slices) => MagnetMem.read_Normalize v hsep ht
  simp only [MagnetMem.value, Magneturi.Normalize, List.map_map, Function.comp_def]
  rw [r _ (by simp [MagnetMem.slices]), r m.Trackers (by simp [MagnetMem.slices]),
    r m.AcceptableSources (by simp [MagnetMem.slices]),
    r m.ExactSource (by simp [MagnetMem.slices]), r m.KeywordTopic (by simp [MagnetMem.slices])]
  congr 1
  apply List.map_congr_left
  intro e he
  rw [r e.2 (by
    simp only [MagnetMem.slices, List.mem_append, List.mem_map]
    exact Or.inr ⟨e, he, rfl⟩)]

/-- `Normalize` keeps the storage of a Magnet separate. -/
theorem MagnetMem.separateStorage_Normalize (v : VisitOrder) {h : Heap} {m : MagnetMem}
    (hsep : m.separateStorage h = true) : m.separateStorage (m.Normalize v h) = true := by
  simp only [MagnetMem.separateStorage, storageSeparate, Bool.and_eq_true, List.all_eq_true] at hsep ⊢
  exact ⟨fun s hs => by rw [MagnetMem.valid_Normalize v hsep.1]; exact hsep.1 s hs, hsep.2⟩

/-! ## Magnets stored as `Parse` builds them -/

theorem Heap.ofList_append_length (pre : List (List Str)) (x : List Str)
    (rest : List (List Str)) : Heap.ofList (pre ++ x :: rest) pre.length = x := by
  show (pre ++ x :: rest).getD pre.length [] = x
  induction pre with
  | nil => rfl
  | cons p pre ih => simpa using ih

theorem storeExtra_value (pre : List (List Str)) (extra : List (Str × List Str)) (hh : Heap)
    (hhe : hh = Heap.ofList (pre ++ extra.map Prod.snd)) :
    (storeExtra pre.length extra).map (fun e => (e.1, e.2.read hh)) = extra := by
  subst hhe
  induction extra generalizing pre with
  | nil => rfl
  | cons e rest ih =>
    obtain ⟨k, vs⟩ := e
    simp only [storeExtra, List.map_cons, List.cons.injEq, Prod.mk.injEq, true_and]
    constructor
    · simp [Slice.read, Heap.ofList_append_length]
    · have := ih (pre ++ [vs])
      simp only [List.length_append, List.length_singleton, List.append_assoc,
        List.singleton_append] at this
      exact this

theorem storeExtra_arr (i : Nat) (extra : List (Str × List Str)) :
    ∀ e ∈ storeExtra i extra, i ≤ e.2.arr := by
  induction extra generalizing i with
  | nil => intro e he; cases he
  | cons x rest ih =>
    obtain ⟨k, vs⟩ := x
    intro e he
    simp only [storeExtra, List.mem_cons] at he
    rcases he with rfl | he
    · exact Nat.le_refl _
    · exact Nat.le_of_succ_le (ih (i + 1) e he)

theorem Slice.separate_of_arr_ne {s t : Slice} (h : s.arr ≠ t.arr) : s.separate t = true := by
  simp [Slice.separate, h]

theorem storeExtra_pairwiseSeparate (i : Nat) (extra : List (Str × List Str)) :
    pairwiseSeparate ((storeExtra i extra).map Prod.snd) = true := by
  induction extra generalizing i with
  | nil => rfl
  | cons x rest ih =>
    obtain ⟨k, vs⟩ := x
    simp only [storeExtra, List.map_cons, pairwiseSeparate, Bool.and_eq_true, List.all_eq_true,
      List.mem_map, forall_exists_index, and_imp, forall_apply_eq_imp_iff₂]
    refine ⟨fun e he => Slice.separate_of_arr_ne ?_, ih (i + 1)⟩
    have := storeExtra_arr (i + 1) rest e he
    show i ≠ e.2.arr
    omega

theorem storeExtra_valid (pre : List (List Str)) (extra : List (Str × List Str)) :
    ∀ e ∈ storeExtra pre.length extra,
      e.2.valid (Heap.ofList (pre ++ extra.map Prod.snd)) = true := by
  induction extra generalizing pre with
  | nil => intro e he; cases he
  | cons x rest ih =>
    obtain ⟨k, vs⟩ := x
    intro e he
    simp only [storeExtra, List.mem_cons] at he
    rcases he with rfl | he
    · simp [Slice.valid, Heap.ofList_append_length]
    · have := ih (pre ++ [vs]) e (by simpa using he)
      simpa using this

/-- A stored Magnet has the value that was stored. -/
theorem store_value (m : Magnet) : (store m).2.value (store m).1 = m := by
  have he := storeExtra_value
    [m.ExactTopics, m.Trackers, m.AcceptableSources, m.ExactSource, m.KeywordTopic] m.Extra
    _ rfl
  cases m
  simp only [store, MagnetMem.value, Magnet.mk.injEq]
  refine ⟨?_, trivial, trivial, ?_, ?_, ?_, ?_, trivial, he⟩ <;> simp [Slice.read, Heap.ofList]

/-- A stored Magnet has separate storage. -/
theorem store_separateStorage (m : Magnet) : (store m).2.separateStorage (store m).1 = true := by
  have hv := storeExtra_valid
    [m.ExactTopics, m.Trackers, m.AcceptableSources, m.ExactSource, m.KeywordTopic] m.Extra
  have ha := storeExtra_arr 5 m.Extra
  have hp := storeExtra_pairwiseSeparate 5 m.Extra
  simp only [List.length_cons, List.length_nil] at hv
  simp only [MagnetMem.separateStorage, storageSeparate, MagnetMem.slices, store, Bool.and_eq_true,
    List.all_eq_true, List.mem_append, List.mem_cons, List.mem_map, List.mem_singleton,
    List.not_mem_nil, or_false]
  constructor
  · rintro s (hs | ⟨e, he, rfl⟩)
    · rcases hs with rfl | rfl | rfl | rfl | rfl <;> simp [Slice.valid, Heap.ofList]
    · exact hv e he
  · rw [pairwiseSeparate_iff, List.pairwise_append]
    refine ⟨?_, (pairwiseSeparate_iff _).1 hp, ?_⟩
    · simp [Slice.separate]
    · intro a ha b hb
      obtain ⟨e, he, rfl⟩ := List.mem_map.1 hb
      have h5 := storeExtra_arr 5 m.Extra e he
      refine Slice.separate_of_arr_ne ?_
      simp only [List.mem_cons, List.mem_singleton, List.not_mem_nil, or_false] at ha
      rcases ha with rfl | rfl | rfl | rfl | rfl <;> dsimp only <;> omega

/-! ## `Normalize` in memory against `Normalize` on values -/

theorem VisitOrder.order_nil (v : VisitOrder) : v.order [] = [] :=
  (v.order_perm []).eq_nil

/-- `Normalize` leaves a slice that shares no element with a slice of the receiver as it
was. -/
theorem MagnetMem.read_Normalize_of_separate (v : VisitOrder) {h : Heap} {m : MagnetMem}
    (hv : ∀ s ∈ m.slices, s.valid h = true) {t : Slice}
    (hst : ∀ s ∈ m.slices, s.separate t = true) :
    t.read (m.Normalize v h) = t.read h := by
  rw [MagnetMem.Normalize_eq_foldl]
  exact read_foldl_sortStringsAt_of_separate _ h t
    (fun s hs => hv s ((MagnetMem.visited_perm v m).mem_iff.1 hs))
    (fun s hs => hst s ((MagnetMem.visited_perm v m).mem_iff.1 hs))

/-- `Normalize` on one Magnet leaves the value of a Magnet that shares no storage with it as
it was. -/
theorem MagnetMem.value_Normalize_of_separate (v : VisitOrder) {h : Heap} {a b : MagnetMem}
    (hv : ∀ s ∈ a.slices, s.valid h = true)
    (hab : ∀ s ∈ a.slices, ∀ t ∈ b.slices, s.separate t = true) :
    b.value (a.Normalize v h) = b.value h := by
  have r := fun (t : Slice) (ht : t ∈ b.slices) =>
    MagnetMem.read_Normalize_of_separate v hv (fun s hs => hab s hs t ht)
  simp only [MagnetMem.value]
  rw [r _ (by simp [MagnetMem.slices]), r b.Trackers (by simp [MagnetMem.slices]),
    r b.AcceptableSources (by simp [MagnetMem.slices]),
    r b.ExactSource (by simp [MagnetMem.slices]), r b.KeywordTopic (by simp [MagnetMem.slices])]
  congr 1
  apply List.map_congr_left
  intro e he
  rw [r e.2 (by
    simp only [MagnetMem.slices, List.mem_append, List.mem_map]
    exact Or.inr ⟨e, he, rfl⟩)]

/-- The storage of two Magnets that is separate as a whole is separate for each of them and
between them. -/
theorem storageSeparate_append {h : Heap} {l1 l2 : List Slice}
    (hs : storageSeparate h (l1 ++ l2) = true) :
    storageSeparate h l1 = true ∧ storageSeparate h l2 = true
      ∧ ∀ s ∈ l1, ∀ t ∈ l2, s.separate t = true := by
  simp only [storageSeparate, Bool.and_eq_true, List.all_eq_true, pairwiseSeparate_iff,
    List.pairwise_append, List.mem_append] at hs ⊢
  exact ⟨⟨fun s hs1 => hs.1 s (Or.inl hs1), hs.2.1⟩, ⟨fun s hs2 => hs.1 s (Or.inr hs2), hs.2.2.1⟩,
    hs.2.2.2⟩

/-- After `a.Normalize()` and then `b.Normalize()` on two Magnets that share no storage, each
has the value of the function `Normalize` on its value before. -/
theorem MagnetMem.value_Normalize_two (va vb : VisitOrder) {h : Heap} {a b : MagnetMem}
    (hs : storageSeparate h (a.slices ++ b.slices) = true) :
    a.value (a.Normalize va h) = Magneturi.Normalize (a.value h)
      ∧ b.value (b.Normalize vb (a.Normalize va h)) = Magneturi.Normalize (b.value h)
      ∧ a.value (b.Normalize vb (a.Normalize va h)) = a.value (a.Normalize va h) := by
  obtain ⟨ha, hb, hab⟩ := storageSeparate_append hs
  have hva : ∀ s ∈ a.slices, s.valid h = true := by
    simp only [storageSeparate, Bool.and_eq_true, List.all_eq_true] at ha
    exact ha.1
  have hvb : ∀ s ∈ b.slices, s.valid h = true := by
    simp only [storageSeparate, Bool.and_eq_true, List.all_eq_true] at hb
    exact hb.1
  have hb1 : b.separateStorage (a.Normalize va h) = true := by
    simp only [MagnetMem.separateStorage, storageSeparate, Bool.and_eq_true,
      List.all_eq_true] at hb ⊢
    exact ⟨fun s hs => by rw [MagnetMem.valid_Normalize va hva]; exact hb.1 s hs, hb.2⟩
  have hvb1 : ∀ s ∈ b.slices, s.valid (a.Normalize va h) = true := fun s hs => by
    rw [MagnetMem.valid_Normalize va hva]; exact hvb s hs
  refine ⟨MagnetMem.value_Normalize va ha, ?_, ?_⟩
  · rw [MagnetMem.value_Normalize vb hb1, MagnetMem.value_Normalize_of_separate va hva hab]
  · exact MagnetMem.value_Normalize_of_separate vb hvb1
      (fun s hs t ht => Slice.separate_symm (hab t ht s hs))

/-- The scalars and the keys of `Extra` of the value of a Magnet in memory do not depend on the
heap. -/
theorem MagnetMem.value_frame (h1 h2 : Heap) (m : MagnetMem) :
    (m.value h1).DisplayName = (m.value h2).DisplayName
      ∧ (m.value h1).ExactLength = (m.value h2).ExactLength
      ∧ (m.value h1).ManifestTopic = (m.value h2).ManifestTopic
      ∧ mapKeys (m.value h1).Extra = mapKeys (m.value h2).Extra := by
  refine ⟨rfl, rfl, rfl, ?_⟩
  simp [MagnetMem.value, mapKeys, List.map_map, Function.comp_def]

/-- On a Magnet whose slices share no storage `Normalize` sorts every multi-valued field: each
is then in ascending order and a permutation of what it was. -/
theorem MagnetMem.Normalize_sorts_of_separateStorage (v : VisitOrder) {h : Heap} {m : MagnetMem}
    (hsep : m.separateStorage h = true) {t : Slice} (ht : t ∈ m.slices) :
    (t.read (m.Normalize v h)).Sorted (fun a b => strLE a b = true)
      ∧ (t.read (m.Normalize v h)).Perm (t.read h) := by
  rw [MagnetMem.read_Normalize v hsep ht]
  exact ⟨sorted_sortStrings _, perm_sortStrings _⟩

/-- On a Magnet whose slices share no storage a second `Normalize` changes nothing. -/
theorem MagnetMem.Normalize_idem_of_separateStorage (v1 v2 : VisitOrder) {h : Heap} {m : MagnetMem}
    (hsep : m.separateStorage h = true) :
    m.value (m.Normalize v2 (m.Normalize v1 h)) = m.value (m.Normalize v1 h) := by
  rw [MagnetMem.value_Normalize v2 (MagnetMem.separateStorage_Normalize v1 hsep),
    MagnetMem.value_Normalize v1 hsep]
  simp [Magneturi.Normalize, sortStrings_idem, List.map_map, Function.comp_def]

/-- A Magnet stored the way `Parse` builds it and normalized in memory has the value of the
function `Normalize`. -/
theorem Normalize_store (v : VisitOrder) (m : Magnet) :
    (store m).2.value ((store m).2.Normalize v (store m).1) = Normalize m := by
  rw [MagnetMem.value_Normalize v (store_separateStorage m), store_value]

theorem aliasedMagnet_Normalize (v : VisitOrder) (h : Heap) :
    aliasedMagnet.Normalize v h = aliasedMagnet.Normalize VisitOrder.insertion h := by
  unfold MagnetMem.Normalize
  rw [show aliasedMagnet.Extra = [] from rfl, v.order_nil, VisitOrder.insertion.order_nil]

/-! ## `Normalize` on values -/

/-- On values: after `Normalize` each of `ExactTopics`, `Trackers`,
`AcceptableSources`, `ExactSource`, `KeywordTopic` is in ascending bytewise lexicographic order
and is a permutation of what it was; `Extra` has the same entries under the same keys, each
value list in ascending order and a permutation of what it was (entry by entry, and so for
every read `Extra[k]`).  The order `strLE` is the bytewise lexicographic one: `a` is before `b`
when `a` is a prefix of `b` or has the smaller byte at the first position where they differ. -/
theorem Normalize_value_sorts (m : Magnet) :
    ((Normalize m).ExactTopics.Sorted (fun a b => strLE a b = true)
        ∧ (Normalize m).ExactTopics.Perm m.ExactTopics)
      ∧ ((Normalize m).Trackers.Sorted (fun a b => strLE a b = true)
        ∧ (Normalize m).Trackers.Perm m.Trackers)
      ∧ ((Normalize m).AcceptableSources.Sorted (fun a b => strLE a b = true)
        ∧ (Normalize m).AcceptableSources.Perm m.AcceptableSources)
      ∧ ((Normalize m).ExactSource.Sorted (fun a b => strLE a b = true)
        ∧ (Normalize m).ExactSource.Perm m.ExactSource)
      ∧ ((Normalize m).KeywordTopic.Sorted (fun a b => strLE a b = true)
        ∧ (Normalize m).KeywordTopic.Perm m.KeywordTopic)
      ∧ List.Forall₂
          (fun e1 e => e1.1 = e.1 ∧ e1.2.Sorted (fun a b => strLE a b = true) ∧ e1.2.Perm e.2)
          (Normalize m).Extra m.Extra
      ∧ (∀ k, (mapGet (Normalize m).Extra k).Sorted (fun a b => strLE a b = true)
          ∧ (mapGet (Normalize m).Extra k).Perm (mapGet m.Extra k))
      ∧ (∀ a b : Str, strLE a b = true ↔
          a <+: b ∨ ∃ (p : Str) (x y : Byte) (s t : Str),
            a = p ++ x :: s ∧ b = p ++ y :: t ∧ x < y) := by
  refine ⟨⟨sorted_sortStrings _, perm_sortStrings _⟩, ⟨sorted_sortStrings _, perm_sortStrings _⟩,
    ⟨sorted_sortStrings _, perm_sortStrings _⟩, ⟨sorted_sortStrings _, perm_sortStrings _⟩,
    ⟨sorted_sortStrings _, perm_sortStrings _⟩, ?_, fun k => ?_, strLE_iff⟩
  · show List.Forall₂ _ (m.Extra.map (fun e => (e.1, sortStrings e.2))) m.Extra
    induction m.Extra with
    | nil => exact List.Forall₂.nil
    | cons e extra ih =>
      exact List.Forall₂.cons ⟨rfl, sorted_sortStrings _, perm_sortStrings _⟩ ih
  · rw [mapGet_Normalize]
    exact ⟨sorted_sortStrings _, perm_sortStrings _⟩

/-- On values: applying `Normalize` twice gives the same Magnet as applying it once. -/
theorem Normalize_value_idem (m : Magnet) : Normalize (Normalize m) = Normalize m := by
  simp [Normalize, sortStrings_idem, List.map_map, Function.comp_def]

/-! ## Claims -/

/-- C1 (round trip parse, encode, parse keeps the set-valued fields) fails on
`magnet:?x.a=%26tr%3Dfoo`: the first parse has no tracker and `Extra["x.a"] = ["&tr=foo"]`;
`Encode` writes that value raw, giving `magnet:?dn=&x.a=&tr=foo`; the second parse has the
tracker `foo`.  This holds for every order in which the maps are visited. -/
theorem C1_roundtrip_breaks_on_extra (o1 o2 o3 : RangeOrder) :
    ∃ m1 m2, Parse o1 (B "magnet:?x.a=%26tr%3Dfoo") = .ok m1
      ∧ m1.Trackers = [] ∧ m1.Extra = [(B "x.a", [B "&tr=foo"])]
      ∧ Encode o2 m1 = B "magnet:?dn=&x.a=&tr=foo"
      ∧ Parse o3 (Encode o2 m1) = .ok m2
      ∧ m2.Trackers = [B "foo"] := by
  have h1 : Parse o1 (B "magnet:?x.a=%26tr%3Dfoo")
      = .ok (materialize o1 { m := { Extra := [(B "x.a", [B "&tr=foo"])] } }) :=
    Parse_of_scan o1 _ _ (by decide) (by decide)
  have he : Encode o2 (materialize o1 { m := { Extra := [(B "x.a", [B "&tr=foo"])] } })
      = B "magnet:?dn=&x.a=&tr=foo" := by
    simp only [Encode, materialize, RangeOrder.topics_nil, RangeOrder.trackers_nil,
      RangeOrder.sources_nil, RangeOrder.extra_singleton]
    decide
  have h2 : Parse o3 (B "magnet:?dn=&x.a=&tr=foo")
      = .ok (materialize o3 { trackers := [B "foo"] }) :=
    Parse_of_scan o3 _ _ (by decide) (by decide)
  refine ⟨_, materialize o3 { trackers := [B "foo"] }, h1, ?_, rfl, he, ?_, ?_⟩
  · exact o1.trackers_nil
  · rw [he, h2]
  · exact o3.trackers_singleton _

/-- C2 (only the first `=` separates key from value) fails: `Parse` splits the parameter on
every `=` and takes the second piece, so `magnet:?xt=urn:btih:QUJD==` yields the exact topic
`urn:btih:QUJD` (not `urn:btih:QUJD==`) and `magnet:?mt=a=b` yields the manifest topic `a`
(not `a=b`). -/
theorem C2_value_is_cut_at_second_equals (o : RangeOrder) :
    Parse o (B "magnet:?xt=urn:btih:QUJD==") = .ok { ExactTopics := [B "urn:btih:QUJD"] }
      ∧ Parse o (B "magnet:?mt=a=b") = .ok { ManifestTopic := B "a" } := by
  constructor
  · rw [Parse_of_scan o _ { exactTopics := [B "urn:btih:QUJD"] } (by decide) (by decide)]
    simp [materialize, RangeOrder.topics_singleton, RangeOrder.trackers_nil,
      RangeOrder.sources_nil]
  · rw [Parse_of_scan o _ { m := { ManifestTopic := B "a" } } (by decide) (by decide)]
    simp [materialize, RangeOrder.topics_nil, RangeOrder.trackers_nil, RangeOrder.sources_nil]

/-- C3 (the prefix is stripped once, nothing after a later `magnet:?` is lost) fails: `Parse`
splits `raw` on `magnet:?` and reads only the second piece, so on
`magnet:?xt=a&mt=magnet:?x&xt=b` the parameters are `xt=a` and `mt=`; the result has the one
exact topic `a` and no manifest topic. -/
theorem C3_text_after_second_prefix_is_dropped (o : RangeOrder) :
    rawParams (B "magnet:?xt=a&mt=magnet:?x&xt=b") = [B "xt=a", B "mt="]
      ∧ Parse o (B "magnet:?xt=a&mt=magnet:?x&xt=b") = .ok { ExactTopics := [B "a"] } := by
  constructor
  · decide
  · rw [Parse_of_scan o _ { exactTopics := [B "a"] } (by decide) (by decide)]
    simp [materialize, RangeOrder.topics_singleton, RangeOrder.trackers_nil,
      RangeOrder.sources_nil]

/-- C4: `Parse` returns the missing-prefix error `errNoPrefix` (and no Magnet) exactly when `raw`
does not begin with `magnet:?`.  When `raw` begins with it, `strings.Split(raw, magnetPrefix)`
has at least two pieces, so the second test `len(parts) <= 1` never fires.  `Parse("magnet:?")`
succeeds with the empty Magnet; `http://example.com`, the empty string and `Magnet:?xt=a` are
rejected with `errNoPrefix`. -/
theorem C4_missing_prefix_iff (o : RangeOrder) (raw : Str) :
    (Parse o raw = .error .errNoPrefix ↔ HasPrefix raw magnetPrefix = false)
      ∧ (HasPrefix raw magnetPrefix = true → 1 < (Split raw magnetPrefix).length)
      ∧ Parse o (B "magnet:?") = .ok {}
      ∧ Parse o (B "http://example.com") = .error .errNoPrefix
      ∧ Parse o (B "") = .error .errNoPrefix
      ∧ Parse o (B "Magnet:?xt=a") = .error .errNoPrefix := by
  have hno : ∀ r : Str, HasPrefix r magnetPrefix = false → Parse o r = .error .errNoPrefix := by
    intro r hr
    simp [Parse, hr]
  refine ⟨⟨fun h => ?_, hno raw⟩, Split_length_of_HasPrefix, ?_, hno _ (by decide),
    hno _ (by decide), hno _ (by decide)⟩
  · by_contra hp
    have hp1 : HasPrefix raw magnetPrefix = true := by simpa using hp
    rw [Parse_of_HasPrefix o hp1] at h
    cases hs : scan (rawParams raw) {} with
    | ok st => rw [hs] at h; cases h
    | error e =>
      rw [hs] at h
      have he : e = .errNoPrefix := Except.error.inj h
      obtain ⟨pre, p, post, -, -, k, v, -, hf⟩ := (scan_error_iff _ _ _).mp hs
      rcases hf with ⟨-, hf⟩ | ⟨-, -, -, -, hf⟩
      · rcases ParseInt_error hf with h1 | h1 <;> rw [h1] at he <;> cases he
      · obtain ⟨t, ht⟩ := QueryUnescape_error hf
        rw [ht] at he
        cases he
  · rw [Parse_of_scan o _ {} (by decide) (by decide)]
    simp [materialize, RangeOrder.topics_nil, RangeOrder.trackers_nil, RangeOrder.sources_nil]

/-- C4 at `Magnet:?xt=a` (no prefix) and at `magnet:?` (prefix, two pieces). -/
theorem C4_missing_prefix_iff_witness :
    Parse RangeOrder.insertion (B "Magnet:?xt=a") = .error .errNoPrefix
      ∧ 1 < (Split (B "magnet:?") magnetPrefix).length :=
  ⟨(C4_missing_prefix_iff RangeOrder.insertion (B "Magnet:?xt=a")).1.mpr (by decide),
    (C4_missing_prefix_iff RangeOrder.insertion (B "magnet:?")).2.1 (by decide)⟩

/-- C5: on every successful parse, `ExactTopics`, `Trackers` and `AcceptableSources` have no
duplicates; a string is in `ExactTopics` exactly when it is the raw (non-empty) value of a
parameter read with key `xt`, and in `Trackers` (resp. `AcceptableSources`) exactly when it is
the percent-decoding of the (non-empty) value of a parameter read with key `tr` (resp. `as`).
`magnet:?xt=urn:btih:ABCD&xt=urn:btih:ABCD` yields the one exact topic `urn:btih:ABCD`.
Parameters, keys and values are the ones `Parse` reads (`rawParams`, `keyValue`). -/
theorem C5_set_fields_are_sets (o : RangeOrder) (raw : Str) (m : Magnet)
    (h : Parse o raw = .ok m) :
    (m.ExactTopics.Nodup ∧ m.Trackers.Nodup ∧ m.AcceptableSources.Nodup)
      ∧ (∀ s, s ∈ m.ExactTopics ↔
          s ≠ [] ∧ ∃ p ∈ rawParams raw, keyValue p = some (B "xt", s))
      ∧ (∀ s, s ∈ m.Trackers ↔
          ∃ p ∈ rawParams raw, ∃ v, v ≠ [] ∧ keyValue p = some (B "tr", v)
            ∧ QueryUnescape v = .ok s)
      ∧ (∀ s, s ∈ m.AcceptableSources ↔
          ∃ p ∈ rawParams raw, ∃ v, v ≠ [] ∧ keyValue p = some (B "as", v)
            ∧ QueryUnescape v = .ok s)
      ∧ Parse o (B "magnet:?xt=urn:btih:ABCD&xt=urn:btih:ABCD")
          = .ok { ExactTopics := [B "urn:btih:ABCD"] } := by
  obtain ⟨-, st, hs, rfl⟩ := Parse_ok h
  have hxt := scan_set (fun st => st.exactTopics) (B "xt") (fun v x => v = x)
    (fun v x y hx hy => hx.symm.trans hy)
    (fun st st1 k v hd => by
      rcases dispatch_exactTopics hd with ⟨hk, hf⟩ | ⟨hk, hf⟩
      · exact Or.inl ⟨hk, v, rfl, hf⟩
      · exact Or.inr ⟨hk, hf⟩)
    (rawParams raw) {} st hs
  have htr := scan_set (fun st => st.trackers) (B "tr") (fun v x => QueryUnescape v = .ok x)
    (fun v x y hx hy => Except.ok.inj (hx.symm.trans hy))
    (fun st st1 k v hd => dispatch_trackers hd)
    (rawParams raw) {} st hs
  have has := scan_set (fun st => st.acceptableSources) (B "as")
    (fun v x => QueryUnescape v = .ok x)
    (fun v x y hx hy => Except.ok.inj (hx.symm.trans hy))
    (fun st st1 k v hd => dispatch_acceptableSources hd)
    (rawParams raw) {} st hs
  refine ⟨⟨?_, ?_, ?_⟩, fun s => ?_, fun s => ?_, fun s => ?_, ?_⟩
  · exact (o.topics_perm _).nodup_iff.mpr (hxt.1 List.nodup_nil)
  · exact (o.trackers_perm _).nodup_iff.mpr (htr.1 List.nodup_nil)
  · exact (o.sources_perm _).nodup_iff.mpr (has.1 List.nodup_nil)
  · show s ∈ o.topics st.exactTopics ↔ _
    rw [(o.topics_perm _).mem_iff, hxt.2 s]
    constructor
    · rintro (hx | ⟨p, hp, v, hkv, rfl⟩)
      · cases hx
      · exact ⟨keyValue_value_ne_nil hkv, p, hp, hkv⟩
    · rintro ⟨-, p, hp, hkv⟩
      exact Or.inr ⟨p, hp, s, hkv, rfl⟩
  · show s ∈ o.trackers st.trackers ↔ _
    rw [(o.trackers_perm _).mem_iff, htr.2 s]
    constructor
    · rintro (hx | ⟨p, hp, v, hkv, hv⟩)
      · cases hx
      · exact ⟨p, hp, v, keyValue_value_ne_nil hkv, hkv, hv⟩
    · rintro ⟨p, hp, v, -, hkv, hv⟩
      exact Or.inr ⟨p, hp, v, hkv, hv⟩
  · show s ∈ o.sources st.acceptableSources ↔ _
    rw [(o.sources_perm _).mem_iff, has.2 s]
    constructor
    · rintro (hx | ⟨p, hp, v, hkv, hv⟩)
      · cases hx
      · exact ⟨p, hp, v, keyValue_value_ne_nil hkv, hkv, hv⟩
    · rintro ⟨p, hp, v, -, hkv, hv⟩
      exact Or.inr ⟨p, hp, v, hkv, hv⟩
  · rw [Parse_of_scan o _ { exactTopics := [B "urn:btih:ABCD"] } (by decide) (by decide)]
    simp [materialize, RangeOrder.topics_singleton, RangeOrder.trackers_nil,
      RangeOrder.sources_nil]

/-- C5 at `magnet:?xt=a&tr=b%20c&tr=b+c&xt=a`. -/
theorem C5_set_fields_are_sets_witness :
    ∃ m, Parse RangeOrder.insertion (B "magnet:?xt=a&tr=b%20c&tr=b+c&xt=a") = .ok m
      ∧ m.ExactTopics = [B "a"] ∧ m.Trackers = [B "b c"]
      ∧ (m.ExactTopics.Nodup ∧ m.Trackers.Nodup ∧ m.AcceptableSources.Nodup) :=
  ⟨{ ExactTopics := [B "a"], Trackers := [B "b c"] }, by decide, rfl, rfl,
    (C5_set_fields_are_sets RangeOrder.insertion (B "magnet:?xt=a&tr=b%20c&tr=b+c&xt=a")
      { ExactTopics := [B "a"], Trackers := [B "b c"] } (by decide)).1⟩

/-- C6: let `raw = "magnet:?" ++ rest` with no occurrence of `magnet:?` in `rest`, and let `p` be
one of the `&`-separated parameters of `rest` that contains no `=` or ends at its only `=`.
Deleting `p` from the parameter list changes neither whether `Parse` succeeds nor what it
returns (the sets being visited in the same order).  `Parse("magnet:?dn=&xt=urn:btih:X")`
succeeds with the default empty `DisplayName`, and `Parse("magnet:?dn=a&dn=")` yields the
`DisplayName` `a`. -/
theorem C6_skipped_parameter_is_noop (o : RangeOrder) (rest p : Str) (ps1 ps2 : List Str)
    (hno : ¬ magnetPrefix <:+: rest)
    (hsplit : Split rest (B "&") = ps1 ++ p :: ps2)
    (hp : (61 : Byte) ∉ p ∨ ∃ k, (61 : Byte) ∉ k ∧ p = k ++ B "=") :
    Parse o (magnetPrefix ++ Join (ps1 ++ ps2) (B "&")) = Parse o (magnetPrefix ++ rest)
      ∧ Parse o (B "magnet:?dn=&xt=urn:btih:X")
          = .ok { ExactTopics := [B "urn:btih:X"], DisplayName := B "" }
      ∧ Parse o (B "magnet:?dn=a&dn=") = .ok { DisplayName := B "a" } := by
  refine ⟨?_, ?_, ?_⟩
  · have hkv : keyValue p = none := by
      rcases hp with hp | ⟨k, hk, rfl⟩
      · exact keyValue_of_no_eq hp
      · exact keyValue_of_empty_value hk
    rw [B_amp] at hsplit ⊢
    have hrest : rest = Join (ps1 ++ p :: ps2) [38] := by
      rw [← hsplit, Join_Split_single]
    have helems : ∀ q ∈ ps1 ++ p :: ps2, (38 : Byte) ∉ q := by
      intro q hq
      rw [← hsplit, Split_single] at hq
      exact not_mem_of_mem_splitOn 38 rest q hq
    have hsub : ∀ q ∈ ps1 ++ ps2, q ∈ ps1 ++ p :: ps2 := by
      intro q hq
      rcases List.mem_append.mp hq with h1 | h1
      · exact List.mem_append_left _ h1
      · exact List.mem_append_right _ (List.mem_cons_of_mem _ h1)
    have hamp : (38 : Byte) ∉ magnetPrefix := by decide
    have hno1 : ¬ magnetPrefix <:+: Join (ps1 ++ ps2) [38] := by
      intro hin
      obtain ⟨q, hq, hq1⟩ := (infix_Join_iff hamp magnetPrefix_ne_nil _).mp hin
      apply hno
      rw [hrest]
      exact (infix_Join_iff hamp magnetPrefix_ne_nil _).mpr ⟨q, hsub q hq, hq1⟩
    have hscan1 : scan (ps1 ++ p :: ps2) {} = scan (ps1 ++ ps2) {} := by
      rw [scan_append, scan_append]
      cases scan ps1 {} with
      | error e => rfl
      | ok st =>
        simp only [scan, step_of_keyValue_none st hkv]
    have hscan2 : scan (Split (Join (ps1 ++ ps2) [38]) [38]) {} = scan (ps1 ++ ps2) {} := by
      by_cases hnil : ps1 ++ ps2 = []
      · rw [hnil]
        rfl
      · rw [Split_Join_single 38 (fun l hl => helems l (hsub l hl)) hnil]
    rw [Parse_of_HasPrefix o (HasPrefix_append _), Parse_of_HasPrefix o (HasPrefix_append _),
      rawParams_of_not_infix hno1, rawParams_of_not_infix hno, B_amp, hsplit, hscan2, hscan1]
  · rw [Parse_of_scan o _ { exactTopics := [B "urn:btih:X"] } (by decide) (by decide)]
    simp [materialize, RangeOrder.topics_singleton, RangeOrder.trackers_nil,
      RangeOrder.sources_nil, B]
  · rw [Parse_of_scan o _ { m := { DisplayName := B "a" } } (by decide) (by decide)]
    simp [materialize, RangeOrder.topics_nil, RangeOrder.trackers_nil, RangeOrder.sources_nil]

/-- C6 at `magnet:?xt=a&foo&dn=b`, deleting the parameter `foo`. -/
theorem C6_skipped_parameter_is_noop_witness :
    Parse RangeOrder.insertion (magnetPrefix ++ Join ([B "xt=a"] ++ [B "dn=b"]) (B "&"))
      = Parse RangeOrder.insertion (magnetPrefix ++ B "xt=a&foo&dn=b") :=
  (C6_skipped_parameter_is_noop RangeOrder.insertion (B "xt=a&foo&dn=b") (B "foo")
    [B "xt=a"] [B "dn=b"] (by decide) (by decide) (Or.inl (by decide))).1

/-- C7 as stated (`ExactLength` is never negative) fails: `Parse("magnet:?xl=-5")` succeeds with
`ExactLength = -5`. -/
theorem C7_negative_length_is_accepted :
    ∃ m, Parse RangeOrder.insertion (B "magnet:?xl=-5") = .ok m
      ∧ m.ExactLength = -5 ∧ ¬ 0 ≤ m.ExactLength :=
  ⟨{ ExactLength := -5 }, by decide, rfl, by decide⟩

/-- C7 amended: on every successful parse `ExactLength` is a signed 64-bit value; it is `0` when
no parameter is read with key `xl`, and it is not negative when the value of the last parameter
read with key `xl` does not begin with `-`. -/
theorem C7_length_range (o : RangeOrder) (raw : Str) (m : Magnet) (h : Parse o raw = .ok m) :
    (-(2 : Int) ^ 63 ≤ m.ExactLength ∧ m.ExactLength < (2 : Int) ^ 63)
      ∧ ((valuesOf (B "xl") (rawParams raw)).getLast? = none → m.ExactLength = 0)
      ∧ (∀ v, (valuesOf (B "xl") (rawParams raw)).getLast? = some v → v.head? ≠ some 45 →
          0 ≤ m.ExactLength) := by
  obtain ⟨-, st, hs, rfl⟩ := Parse_ok h
  have hx := scan_ExactLength hs
  show (-(2 : Int) ^ 63 ≤ st.m.ExactLength ∧ st.m.ExactLength < (2 : Int) ^ 63)
      ∧ (_ → st.m.ExactLength = 0) ∧ (∀ v, _ → _ → 0 ≤ st.m.ExactLength)
  cases hl : (valuesOf (B "xl") (rawParams raw)).getLast? with
  | none =>
    rw [hl] at hx
    have h0 : st.m.ExactLength = 0 := hx
    rw [h0]
    refine ⟨by norm_num, fun _ => rfl, fun v hv => (by cases hv)⟩
  | some w =>
    rw [hl] at hx
    have hd := (ParseInt_ok_iff w _).mp hx
    refine ⟨int64Decimal_range hd, fun hn => (by cases hn), fun v hv hne => ?_⟩
    have hvw : w = v := Option.some.inj hv
    subst hvw
    exact int64Decimal_nonneg hd hne

/-- C7 amended at `magnet:?xl=-5&xl=12`: the last `xl` value is `12`, the length is `12`. -/
theorem C7_length_range_witness :
    Parse RangeOrder.insertion (B "magnet:?xl=-5&xl=12") = .ok { ExactLength := 12 }
      ∧ (0 : Int) ≤ ({ ExactLength := 12 } : Magnet).ExactLength :=
  ⟨by decide,
    (C7_length_range RangeOrder.insertion (B "magnet:?xl=-5&xl=12") { ExactLength := 12 }
      (by decide)).2.2 (B "12") (by decide) (by decide)⟩

/-- C8: when `raw` begins with `magnet:?`, some parameter is read with key `xl` and a (non-empty)
value that does not denote a base-10 integer representable as a signed 64-bit value, and the
loop gets through every earlier parameter, `Parse` returns no Magnet and the error of
`strconv.ParseInt` (a syntax or a range `NumError`).  `notanumber`, `12a`, `1.5` are syntax
errors, `9223372036854775808` is a range error. -/
theorem C8_invalid_xl_fails (o : RangeOrder) (raw : Str) (pre post : List Str) (p v : Str)
    (hp : HasPrefix raw magnetPrefix = true)
    (hparams : rawParams raw = pre ++ p :: post)
    (hpre : ∃ st, scan pre {} = .ok st)
    (hkv : keyValue p = some (B "xl", v))
    (hbad : int64Decimal v = none) :
    (∃ e, Parse o raw = .error e ∧ ParseInt v = .error e ∧ (e = .ErrSyntax ∨ e = .ErrRange))
      ∧ Parse o (B "magnet:?xl=notanumber") = .error .ErrSyntax
      ∧ Parse o (B "magnet:?xl=12a") = .error .ErrSyntax
      ∧ Parse o (B "magnet:?xl=1.5") = .error .ErrSyntax
      ∧ Parse o (B "magnet:?xl=9223372036854775808") = .error .ErrRange := by
  have hex : ∀ (r : Str) (e : Error), HasPrefix r magnetPrefix = true →
      scan (rawParams r) {} = .error e → Parse o r = .error e := by
    intro r e hr hs
    rw [Parse_of_HasPrefix o hr, hs]
  refine ⟨?_, hex _ _ (by decide) (by decide), hex _ _ (by decide) (by decide),
    hex _ _ (by decide) (by decide), hex _ _ (by decide) (by decide)⟩
  obtain ⟨e, he⟩ := (ParseInt_error_iff v).mpr hbad
  refine ⟨e, hex raw e hp ?_, he, ParseInt_error he⟩
  rw [hparams]
  exact (scan_error_iff _ _ _).mpr
    ⟨pre, p, post, rfl, (scan_ok_iff pre {}).mp hpre, B "xl", v, hkv, Or.inl ⟨rfl, he⟩⟩

/-- C8 at `magnet:?dn=a&xl=12a&xl=3`. -/
theorem C8_invalid_xl_fails_witness :
    ∃ e, Parse RangeOrder.insertion (B "magnet:?dn=a&xl=12a&xl=3") = .error e
      ∧ ParseInt (B "12a") = .error e ∧ (e = .ErrSyntax ∨ e = .ErrRange) :=
  (C8_invalid_xl_fails RangeOrder.insertion (B "magnet:?dn=a&xl=12a&xl=3")
    [B "dn=a"] [B "xl=3"] (B "xl=12a") (B "12a") (by decide) (by decide)
    ⟨{ m := { DisplayName := B "a" } }, by decide⟩ (by decide) (by decide)).1

/-- C9: for `raw` beginning with `magnet:?`, (1) if some parameter is read with a key other than
`xt`, `kt`, `mt`, `xl` (so `dn`, `tr`, `as`, `xs` or an unrecognized key) and a value in which
some `%` is not followed by two hex digits, `Parse` returns an error and no Magnet, whatever the
other parameters are; (2) every failure of `Parse` comes from a parameter whose key is none of
`xt`, `kt`, `mt`: an `xl` value that is no 64-bit base-10 integer, or a malformed
percent-encoding under another key; so no `xt`, `kt` or `mt` value makes `Parse` fail.
`magnet:?xt=a&dn=%zz&tr=b` and `magnet:?tr=abc%` fail; `magnet:?xt=%zz&kt=%&mt=abc%` succeeds
and stores the three values raw. -/
theorem C9_decoding_failure (o : RangeOrder) (raw : Str)
    (hp : HasPrefix raw magnetPrefix = true) :
    (∀ p ∈ rawParams raw, ∀ k v, keyValue p = some (k, v) →
        k ≠ B "xt" → k ≠ B "kt" → k ≠ B "mt" → k ≠ B "xl" → malformedPercent v = true →
        ∃ e, Parse o raw = .error e)
      ∧ (∀ e, Parse o raw = .error e →
          ∃ p ∈ rawParams raw, ∃ k v, keyValue p = some (k, v)
            ∧ k ≠ B "xt" ∧ k ≠ B "kt" ∧ k ≠ B "mt"
            ∧ ((k = B "xl" ∧ int64Decimal v = none)
              ∨ (k ≠ B "xl" ∧ malformedPercent v = true)))
      ∧ (∃ e, Parse o (B "magnet:?xt=a&dn=%zz&tr=b") = .error e)
      ∧ (∃ e, Parse o (B "magnet:?tr=abc%") = .error e)
      ∧ Parse o (B "magnet:?xt=%zz&kt=%&mt=abc%")
          = .ok { ExactTopics := [B "%zz"], KeywordTopic := [B "%"], ManifestTopic := B "abc%" } := by
  have hex : ∀ (r : Str) (e : Error), HasPrefix r magnetPrefix = true →
      scan (rawParams r) {} = .error e → Parse o r = .error e := by
    intro r e hr hs
    rw [Parse_of_HasPrefix o hr, hs]
  refine ⟨?_, ?_, ⟨_, hex _ (.EscapeError (B "%zz")) (by decide) (by decide)⟩,
    ⟨_, hex _ (.EscapeError (B "%")) (by decide) (by decide)⟩, ?_⟩
  · intro p hmem k v hkv h1 h2 h3 h4 hbad
    obtain ⟨e, he⟩ := (QueryUnescape_error_iff v).mpr hbad
    cases hs : scan (rawParams raw) {} with
    | error e1 => exact ⟨e1, hex raw e1 hp hs⟩
    | ok st =>
      exact absurd ⟨k, v, hkv, Or.inr ⟨h1, h2, h3, h4, he⟩⟩
        ((scan_ok_iff _ _).mp ⟨st, hs⟩ p hmem e)
  · intro e he
    rw [Parse_of_HasPrefix o hp] at he
    cases hs : scan (rawParams raw) {} with
    | ok st => rw [hs] at he; cases he
    | error e1 =>
      obtain ⟨pre, p, post, hps, -, k, v, hkv, hf⟩ := (scan_error_iff _ _ _).mp hs
      refine ⟨p, by simp [hps], k, v, hkv, ?_⟩
      rcases hf with ⟨hk, hf⟩ | ⟨h1, h2, h3, h4, hf⟩
      · subst hk
        exact ⟨by decide, by decide, by decide,
          Or.inl ⟨rfl, (ParseInt_error_iff v).mp ⟨e1, hf⟩⟩⟩
      · exact ⟨h1, h2, h3, Or.inr ⟨h4, (QueryUnescape_error_iff v).mp ⟨e1, hf⟩⟩⟩
  · rw [Parse_of_scan o _
      { m := { KeywordTopic := [B "%"], ManifestTopic := B "abc%" }, exactTopics := [B "%zz"] }
      (by decide) (by decide)]
    simp [materialize, RangeOrder.topics_singleton, RangeOrder.trackers_nil,
      RangeOrder.sources_nil]

/-- C9 at `magnet:?xt=a&x.y=ab%2&tr=b`: the unrecognized key `x.y` carries `ab%2`. -/
theorem C9_decoding_failure_witness :
    ∃ e, Parse RangeOrder.insertion (B "magnet:?xt=a&x.y=ab%2&tr=b") = .error e :=
  (C9_decoding_failure RangeOrder.insertion (B "magnet:?xt=a&x.y=ab%2&tr=b") (by decide)).1
    (B "x.y=ab%2") (by decide) (B "x.y") (B "ab%2") (by decide) (by decide) (by decide)
    (by decide) (by decide) (by decide)

/-- C10: on every successful parse, `DisplayName` is the percent-decoding of the value of the
last parameter read with key `dn` (empty if there is none), `ExactLength` is the base-10 integer
denoted by the value of the last parameter read with key `xl` (`0` if none), and
`ManifestTopic` is the raw value of the last parameter read with key `mt` (empty if none);
values read are never empty.  `magnet:?dn=My%20File&xl=12345` yields `My File` and `12345`. -/
theorem C10_scalars_take_last (o : RangeOrder) (raw : Str) (m : Magnet)
    (h : Parse o raw = .ok m) :
    (match (valuesOf (B "dn") (rawParams raw)).getLast? with
      | none => m.DisplayName = []
      | some v => v ≠ [] ∧ QueryUnescape v = .ok m.DisplayName)
      ∧ (match (valuesOf (B "xl") (rawParams raw)).getLast? with
        | none => m.ExactLength = 0
        | some v => v ≠ [] ∧ decimalValue v = some m.ExactLength)
      ∧ (match (valuesOf (B "mt") (rawParams raw)).getLast? with
        | none => m.ManifestTopic = []
        | some v => v ≠ [] ∧ m.ManifestTopic = v)
      ∧ Parse o (B "magnet:?dn=My%20File&xl=12345")
          = .ok { DisplayName := B "My File", ExactLength := 12345 } := by
  obtain ⟨-, st, hs, rfl⟩ := Parse_ok h
  have hne : ∀ (key v : Str), (valuesOf key (rawParams raw)).getLast? = some v → v ≠ [] := by
    intro key v hv
    obtain ⟨p, -, hkv⟩ := mem_valuesOf.mp (List.mem_of_getLast?_eq_some hv)
    exact keyValue_value_ne_nil hkv
  have hdn := scan_DisplayName hs
  have hxl := scan_ExactLength hs
  have hmt := scan_ManifestTopic hs
  refine ⟨?_, ?_, ?_, ?_⟩
  · show match (valuesOf (B "dn") (rawParams raw)).getLast? with
      | none => st.m.DisplayName = []
      | some v => v ≠ [] ∧ QueryUnescape v = .ok st.m.DisplayName
    cases hl : (valuesOf (B "dn") (rawParams raw)).getLast? with
    | none => rw [hl] at hdn; exact hdn
    | some v => rw [hl] at hdn; exact ⟨hne _ v hl, hdn⟩
  · show match (valuesOf (B "xl") (rawParams raw)).getLast? with
      | none => st.m.ExactLength = 0
      | some v => v ≠ [] ∧ decimalValue v = some st.m.ExactLength
    cases hl : (valuesOf (B "xl") (rawParams raw)).getLast? with
    | none => rw [hl] at hxl; exact hxl
    | some v =>
      rw [hl] at hxl
      have hd := (ParseInt_ok_iff v _).mp hxl
      refine ⟨hne _ v hl, ?_⟩
      unfold int64Decimal at hd
      split at hd
      · rename_i z hz
        split_ifs at hd
        rw [hz, hd]
      · cases hd
  · show match (valuesOf (B "mt") (rawParams raw)).getLast? with
      | none => st.m.ManifestTopic = []
      | some v => v ≠ [] ∧ st.m.ManifestTopic = v
    cases hl : (valuesOf (B "mt") (rawParams raw)).getLast? with
    | none => rw [hl] at hmt; exact hmt
    | some v => rw [hl] at hmt; exact ⟨hne _ v hl, hmt.symm⟩
  · rw [Parse_of_scan o _ { m := { DisplayName := B "My File", ExactLength := 12345 } }
      (by decide) (by decide)]
    simp [materialize, RangeOrder.topics_nil, RangeOrder.trackers_nil, RangeOrder.sources_nil]

/-- C10 at `magnet:?dn=a&mt=x&dn=b%21&xl=7&xl=-8`: the last `dn`, `xl`, `mt` values are `b%21`,
`-8` and `x`. -/
theorem C10_scalars_take_last_witness :
    Parse RangeOrder.insertion (B "magnet:?dn=a&mt=x&dn=b%21&xl=7&xl=-8")
        = .ok { DisplayName := B "b!", ExactLength := -8, ManifestTopic := B "x" }
      ∧ (B "b%21" ≠ [] ∧ QueryUnescape (B "b%21") = .ok (B "b!"))
      ∧ (B "-8" ≠ [] ∧ decimalValue (B "-8") = some (-8))
      ∧ (B "x" ≠ [] ∧ B "x" = B "x") :=
  have h := C10_scalars_take_last RangeOrder.insertion
    (B "magnet:?dn=a&mt=x&dn=b%21&xl=7&xl=-8")
    { DisplayName := B "b!", ExactLength := -8, ManifestTopic := B "x" } (by decide)
  ⟨by decide, h.1, h.2.1, h.2.2.1⟩

/-- C11: on every successful parse, `KeywordTopic` is the concatenation, in parameter order, of
the lists obtained by splitting on `+` the raw (non-empty) value of each parameter read with key
`kt`; no token contains `+`.  `magnet:?kt=foo+bar+baz` yields `[foo, bar, baz]` and
`magnet:?kt=a+b&kt=c` yields `[a, b, c]`. -/
theorem C11_keyword_topics (o : RangeOrder) (raw : Str) (m : Magnet)
    (h : Parse o raw = .ok m) :
    m.KeywordTopic
        = ((valuesOf (B "kt") (rawParams raw)).map (fun v => Split v (B "+"))).flatten
      ∧ (∀ v ∈ valuesOf (B "kt") (rawParams raw), v ≠ [])
      ∧ (∀ t ∈ m.KeywordTopic, (43 : Byte) ∉ t)
      ∧ Parse o (B "magnet:?kt=foo+bar+baz")
          = .ok { KeywordTopic := [B "foo", B "bar", B "baz"] }
      ∧ Parse o (B "magnet:?kt=a+b&kt=c") = .ok { KeywordTopic := [B "a", B "b", B "c"] } := by
  obtain ⟨-, st, hs, rfl⟩ := Parse_ok h
  have hkt : st.m.KeywordTopic
      = ((valuesOf (B "kt") (rawParams raw)).map (fun v => Split v (B "+"))).flatten := by
    simpa using scan_KeywordTopic hs
  refine ⟨hkt, fun v hv => valuesOf_ne_nil hv, ?_, ?_, ?_⟩
  · intro t ht
    have ht1 : t ∈ st.m.KeywordTopic := ht
    rw [hkt, List.mem_flatten] at ht1
    obtain ⟨l, hl, htl⟩ := ht1
    obtain ⟨v, -, rfl⟩ := List.mem_map.mp hl
    rw [B_plus, Split_single] at htl
    exact not_mem_of_mem_splitOn 43 v t htl
  · rw [Parse_of_scan o _ { m := { KeywordTopic := [B "foo", B "bar", B "baz"] } }
      (by decide) (by decide)]
    simp [materialize, RangeOrder.topics_nil, RangeOrder.trackers_nil, RangeOrder.sources_nil]
  · rw [Parse_of_scan o _ { m := { KeywordTopic := [B "a", B "b", B "c"] } }
      (by decide) (by decide)]
    simp [materialize, RangeOrder.topics_nil, RangeOrder.trackers_nil, RangeOrder.sources_nil]

/-- C11 at `magnet:?kt=a++b&xt=c&kt=d`: the tokens are `a`, the empty string, `b`, `d`. -/
theorem C11_keyword_topics_witness :
    ({ ExactTopics := [B "c"], KeywordTopic := [B "a", B "", B "b", B "d"] } : Magnet).KeywordTopic
      = ((valuesOf (B "kt") (rawParams (B "magnet:?kt=a++b&xt=c&kt=d"))).map
          (fun v => Split v (B "+"))).flatten :=
  (C11_keyword_topics RangeOrder.insertion (B "magnet:?kt=a++b&xt=c&kt=d")
    { ExactTopics := [B "c"], KeywordTopic := [B "a", B "", B "b", B "d"] } (by decide)).1

/-- C12: on every successful parse, `ExactSource` lists, in parameter order and with
repetitions, the percent-decodings of the (non-empty) values of the parameters read with key
`xs`; and for every key `k` that is not recognized, `Extra[k]` lists, in parameter order and
with repetitions, the percent-decodings of the (non-empty) values of the parameters read with
key `k`.  `magnet:?xs=b&xs=a&xs=b` yields `ExactSource = [b, a, b]`. -/
theorem C12_sequences_keep_order (o : RangeOrder) (raw : Str) (m : Magnet)
    (h : Parse o raw = .ok m) :
    List.Forall₂ (fun v d => v ≠ [] ∧ QueryUnescape v = .ok d)
        (valuesOf (B "xs") (rawParams raw)) m.ExactSource
      ∧ (∀ k, k ∉ recognizedKeys →
          List.Forall₂ (fun v d => v ≠ [] ∧ QueryUnescape v = .ok d)
            (valuesOf k (rawParams raw)) (mapGet m.Extra k))
      ∧ Parse o (B "magnet:?xs=b&xs=a&xs=b") = .ok { ExactSource := [B "b", B "a", B "b"] } := by
  obtain ⟨-, st, hs, rfl⟩ := Parse_ok h
  refine ⟨?_, fun k hk => ?_, ?_⟩
  · obtain ⟨ds, hds, hf⟩ := scan_ExactSource hs
    have : st.m.ExactSource = ds := by simpa using hf
    show List.Forall₂ _ _ st.m.ExactSource
    rw [this]
    exact forall2_and_left hds (fun v hv => valuesOf_ne_nil hv)
  · obtain ⟨ds, hds, hf⟩ := scan_Extra_get hs k hk
    have : mapGet st.m.Extra k = ds := by simpa [mapGet] using hf
    show List.Forall₂ _ _ (mapGet st.m.Extra k)
    rw [this]
    exact forall2_and_left hds (fun v hv => valuesOf_ne_nil hv)
  · rw [Parse_of_scan o _ { m := { ExactSource := [B "b", B "a", B "b"] } }
      (by decide) (by decide)]
    simp [materialize, RangeOrder.topics_nil, RangeOrder.trackers_nil, RangeOrder.sources_nil]

/-- C12 at `magnet:?x.a=1&xs=b%20c&x.a=0&x.a=1`: `Extra["x.a"] = [1, 0, 1]`. -/
theorem C12_sequences_keep_order_witness :
    List.Forall₂ (fun v d => v ≠ [] ∧ QueryUnescape v = .ok d)
      (valuesOf (B "x.a") (rawParams (B "magnet:?x.a=1&xs=b%20c&x.a=0&x.a=1")))
      [B "1", B "0", B "1"] :=
  (C12_sequences_keep_order RangeOrder.insertion (B "magnet:?x.a=1&xs=b%20c&x.a=0&x.a=1")
    { ExactSource := [B "b c"], Extra := [(B "x.a", [B "1", B "0", B "1"])] }
    (by decide)).2.1 (B "x.a") (by decide)

/-- C13: on every successful parse, a key is a key of `Extra` exactly when it is none of `dn`,
`xt`, `xl`, `tr`, `as`, `xs`, `kt`, `mt` and is the key of some parameter read with a
(non-empty) value; so none of the eight is a key of `Extra`.  `Normalize` leaves the keys of
`Extra` of any Magnet as they are, so it preserves this; it is so too for the method run in
memory, however the slices of the Magnet are stored. -/
theorem C13_extra_has_no_recognized_key (o : RangeOrder) (raw : Str) (m : Magnet)
    (h : Parse o raw = .ok m) :
    (∀ k, k ∈ mapKeys m.Extra ↔
        k ∉ recognizedKeys ∧ ∃ p ∈ rawParams raw, ∃ v, v ≠ [] ∧ keyValue p = some (k, v))
      ∧ (∀ k ∈ recognizedKeys, k ∉ mapKeys m.Extra)
      ∧ (∀ k ∈ recognizedKeys, k ∉ mapKeys (Normalize m).Extra)
      ∧ (∀ m1 : Magnet, mapKeys (Normalize m1).Extra = mapKeys m1.Extra)
      ∧ (∀ (v : VisitOrder) (hp : Heap) (mm : MagnetMem),
          mapKeys (mm.value (mm.Normalize v hp)).Extra = mapKeys (mm.value hp).Extra)
      ∧ (∀ (v : VisitOrder) (hp : Heap) (mm : MagnetMem), mm.value hp = m →
          ∀ k ∈ recognizedKeys, k ∉ mapKeys (mm.value (mm.Normalize v hp)).Extra) := by
  obtain ⟨-, st, hs, rfl⟩ := Parse_ok h
  have hk := (scan_Extra_keys (rawParams raw) {} st hs).2
  have h1 : ∀ k, k ∈ mapKeys st.m.Extra ↔
      k ∉ recognizedKeys ∧ ∃ p ∈ rawParams raw, ∃ v, v ≠ [] ∧ keyValue p = some (k, v) := by
    intro k
    rw [hk k]
    constructor
    · rintro (hx | ⟨hr, p, hp, v, hkv⟩)
      · simp [mapKeys] at hx
      · exact ⟨hr, p, hp, v, keyValue_value_ne_nil hkv, hkv⟩
    · rintro ⟨hr, p, hp, v, -, hkv⟩
      exact Or.inr ⟨hr, p, hp, v, hkv⟩
  have h2 : ∀ k ∈ recognizedKeys, k ∉ mapKeys st.m.Extra :=
    fun k hkr hke => ((h1 k).mp hke).1 hkr
  refine ⟨h1, h2, ?_, mapKeys_Normalize,
    fun v hp mm => (MagnetMem.value_frame _ _ mm).2.2.2, fun v hp mm hm k hkr => ?_⟩
  · intro k hkr
    rw [mapKeys_Normalize]
    exact h2 k hkr
  · rw [(MagnetMem.value_frame (mm.Normalize v hp) hp mm).2.2.2, hm]
    exact h2 k hkr

/-- C13 at `magnet:?dn=a&x.pe=b&ws=c&xl=5`: the keys of `Extra` are `x.pe` and `ws`. -/
theorem C13_extra_has_no_recognized_key_witness :
    mapKeys [(B "x.pe", [B "b"]), (B "ws", [B "c"])] = [B "x.pe", B "ws"]
      ∧ ∀ k ∈ recognizedKeys, k ∉ mapKeys [(B "x.pe", [B "b"]), (B "ws", [B "c"])] :=
  ⟨by decide,
    (C13_extra_has_no_recognized_key RangeOrder.insertion (B "magnet:?dn=a&x.pe=b&ws=c&xl=5")
      { DisplayName := B "a", ExactLength := 5,
        Extra := [(B "x.pe", [B "b"]), (B "ws", [B "c"])] } (by decide)).2.1⟩

/-- C14 (after `Normalize` every multi-valued field is sorted and a permutation of what it
was) fails on `s := []string{"c", "b", "a"}; m := &Magnet{ExactTopics: s[0:2], Trackers:
s[1:3]}`, two slices of one array.  Before the call `ExactTopics = [c, b]` and `Trackers =
[b, a]`.  The sort of `ExactTopics` makes the array `[b, c, a]`, the sort of `Trackers` then
makes it `[b, a, c]`: after the call `ExactTopics = [b, a]`, which is not in ascending order,
and `Trackers = [a, c]`, which is not a permutation of `[b, a]`. -/
theorem C14_aliased_slices_are_left_unsorted (v : VisitOrder) :
    (aliasedMagnet.value aliasedHeap).ExactTopics = [B "c", B "b"]
      ∧ (aliasedMagnet.value aliasedHeap).Trackers = [B "b", B "a"]
      ∧ (aliasedMagnet.value (aliasedMagnet.Normalize v aliasedHeap)).ExactTopics
          = [B "b", B "a"]
      ∧ (aliasedMagnet.value (aliasedMagnet.Normalize v aliasedHeap)).Trackers
          = [B "a", B "c"]
      ∧ ¬ (aliasedMagnet.value (aliasedMagnet.Normalize v aliasedHeap)).ExactTopics.Sorted
            (fun a b => strLE a b = true)
      ∧ ¬ (aliasedMagnet.value (aliasedMagnet.Normalize v aliasedHeap)).Trackers.Perm
            (aliasedMagnet.value aliasedHeap).Trackers := by
  rw [aliasedMagnet_Normalize v]
  decide

/-- C15 (a second `Normalize` changes nothing) fails on `s := []string{"c", "b", "a"};
m := &Magnet{ExactTopics: s[0:2], Trackers: s[1:3]}`, two slices of one array.  The first call
leaves the array as `[b, a, c]`: `ExactTopics = [b, a]`, `Trackers = [a, c]`.  The second call
sorts `ExactTopics` to `[a, b]`, which makes the array `[a, b, c]`: `ExactTopics = [a, b]`,
`Trackers = [b, c]`.  The Magnet after two calls is not the Magnet after one. -/
theorem C15_second_call_changes_aliased_slices (v1 v2 : VisitOrder) :
    aliasedMagnet.value (aliasedMagnet.Normalize v1 aliasedHeap)
        = { ExactTopics := [B "b", B "a"], Trackers := [B "a", B "c"] }
      ∧ aliasedMagnet.value (aliasedMagnet.Normalize v2 (aliasedMagnet.Normalize v1 aliasedHeap))
        = { ExactTopics := [B "a", B "b"], Trackers := [B "b", B "c"] }
      ∧ aliasedMagnet.value (aliasedMagnet.Normalize v2 (aliasedMagnet.Normalize v1 aliasedHeap))
        ≠ aliasedMagnet.value (aliasedMagnet.Normalize v1 aliasedHeap) := by
  rw [aliasedMagnet_Normalize v2, aliasedMagnet_Normalize v1]
  decide

/-- C16: `Normalize` does not change `DisplayName`, `ExactLength` or `ManifestTopic`, and the
keys of `Extra` after the call are the keys before it, in the same order.  It is so for the
function on values and for the method run in memory, however the slices of the Magnet are
stored. -/
theorem C16_normalize_frame (m : Magnet) :
    (Normalize m).DisplayName = m.DisplayName
      ∧ (Normalize m).ExactLength = m.ExactLength
      ∧ (Normalize m).ManifestTopic = m.ManifestTopic
      ∧ mapKeys (Normalize m).Extra = mapKeys m.Extra
      ∧ (∀ k, k ∈ mapKeys (Normalize m).Extra ↔ k ∈ mapKeys m.Extra)
      ∧ (∀ (v : VisitOrder) (h : Heap) (mm : MagnetMem),
          (mm.value (mm.Normalize v h)).DisplayName = (mm.value h).DisplayName
            ∧ (mm.value (mm.Normalize v h)).ExactLength = (mm.value h).ExactLength
            ∧ (mm.value (mm.Normalize v h)).ManifestTopic = (mm.value h).ManifestTopic
            ∧ mapKeys (mm.value (mm.Normalize v h)).Extra = mapKeys (mm.value h).Extra
            ∧ (∀ k, k ∈ mapKeys (mm.value (mm.Normalize v h)).Extra
                ↔ k ∈ mapKeys (mm.value h).Extra)) :=
  ⟨rfl, rfl, rfl, mapKeys_Normalize m, fun k => by rw [mapKeys_Normalize],
    fun v h mm => ⟨rfl, rfl, rfl, (MagnetMem.value_frame _ _ mm).2.2.2,
      fun k => by rw [(MagnetMem.value_frame (mm.Normalize v h) h mm).2.2.2]⟩⟩

/-- C17: for every Magnet, `Encode` returns the fixed layout (`magnet:?dn=` and the escaped
display name, even when empty; `&xt=` raw per exact topic; `&xl=` and the decimal length exactly
when the length is positive; `&tr=`, `&as=`, `&xs=` escaped per element; `&kt=` and the keywords
joined by `+` exactly when there are keywords; `&mt=` raw exactly when the manifest topic is not
empty) followed by `&key=value`, raw, for each value of each entry of `Extra`, the entries in
the order of the visit (a permutation of `Extra`), the values of an entry in sequence order.
With empty `Extra` the result is the fixed layout.  The length is written in decimal.  Lengths
`0` and `-7` write no `xl`, length `100` writes `&xl=100`. -/
theorem C17_encode_layout (o : RangeOrder) (m : Magnet) :
    Encode o m = fixedLayout m ++ extraLayout (o.extra m.Extra)
      ∧ (o.extra m.Extra).Perm m.Extra
      ∧ (m.Extra = [] → Encode o m = fixedLayout m)
      ∧ decimalValue (FormatInt m.ExactLength) = some m.ExactLength
      ∧ Encode o {} = B "magnet:?dn="
      ∧ Encode o { ExactLength := 100 } = B "magnet:?dn=&xl=100"
      ∧ Encode o { ExactLength := -7 } = B "magnet:?dn="
      ∧ Encode o
            { DisplayName := B "a b", ExactTopics := [B "u:1", B "u:2"], ExactLength := 100,
              Trackers := [B "http://t"], AcceptableSources := [B "s&"], ExactSource := [B "x="],
              KeywordTopic := [B "k1", B "k2"], ManifestTopic := B "m%",
              Extra := [(B "x.a", [B "1", B "&2"])] }
          = B "magnet:?dn=a+b&xt=u:1&xt=u:2&xl=100&tr=http%3A%2F%2Ft&as=s%26&xs=x%3D&kt=k1+k2&mt=m%&x.a=1&x.a=&2" := by
  have hmain : ∀ m1 : Magnet, Encode o m1 = fixedLayout m1 ++ extraLayout (o.extra m1.Extra) := by
    intro m1
    have hkt : (m1.KeywordTopic.length > 0) ↔ m1.KeywordTopic ≠ [] := List.length_pos
    have hpre : magnetPrefix ++ B "dn=" = B "magnet:?dn=" := by decide
    unfold Encode fixedLayout extraLayout
    rw [hpre]
    simp only [writeEach, writeExtra, List.flatMap, id, hkt, gt_iff_lt]
  have hnil : ∀ m1 : Magnet, m1.Extra = [] → Encode o m1 = fixedLayout m1 := by
    intro m1 h
    rw [hmain m1, h, o.extra_nil]
    simp [extraLayout]
  refine ⟨hmain m, o.extra_perm _, hnil m, decimalValue_FormatInt _, ?_, ?_, ?_, ?_⟩
  · rw [hnil _ rfl]; decide
  · rw [hnil _ rfl]; decide
  · rw [hnil _ rfl]; decide
  · rw [hmain]
    simp only [o.extra_singleton]
    decide

/-- C17 at a Magnet with a display name, one tracker and no `Extra`. -/
theorem C17_encode_layout_witness :
    Encode RangeOrder.insertion { DisplayName := B "My File", Trackers := [B "udp://t:80"] }
      = fixedLayout { DisplayName := B "My File", Trackers := [B "udp://t:80"] } :=
  (C17_encode_layout RangeOrder.insertion
    { DisplayName := B "My File", Trackers := [B "udp://t:80"] }).2.2.1 rfl

/-- C18: let `m` be a Magnet whose `ExactTopics`, `KeywordTopic`, `ManifestTopic` and `Extra` are
empty, whose `ExactLength` is not negative (and, being an `int64`, below `2^63`) and whose
`Trackers`, `AcceptableSources` and `ExactSource` contain no empty string.  Then
`Parse(Encode(m))` succeeds with the same `DisplayName`, `ExactLength` and `ExactSource`, and
with `Trackers` and `AcceptableSources` having the same elements as those of `m`, whatever
bytes these strings contain and whatever the orders of the visits.  Percent-decoding undoes
percent-encoding for every string. -/
theorem C18_decoded_fields_survive (o2 o3 : RangeOrder) (m : Magnet)
    (hxt : m.ExactTopics = []) (hkt : m.KeywordTopic = []) (hmt : m.ManifestTopic = [])
    (hextra : m.Extra = [])
    (hlen : 0 ≤ m.ExactLength) (hint : m.ExactLength < (2 : Int) ^ 63)
    (htr : [] ∉ m.Trackers) (has : [] ∉ m.AcceptableSources) (hxs : [] ∉ m.ExactSource) :
    (∃ m2, Parse o3 (Encode o2 m) = .ok m2
        ∧ m2.DisplayName = m.DisplayName
        ∧ m2.ExactLength = m.ExactLength
        ∧ m2.ExactSource = m.ExactSource
        ∧ (∀ s, s ∈ m2.Trackers ↔ s ∈ m.Trackers)
        ∧ (∀ s, s ∈ m2.AcceptableSources ↔ s ∈ m.AcceptableSources))
      ∧ (∀ s : Str, QueryUnescape (QueryEscape s) = .ok s) := by
  have hrt : roundTrips m := by
    refine ⟨?_, ?_, ?_, ?_, ?_, ?_, ?_, hextra, ?_, hint⟩
    · rw [hxt]; intro x hx; cases hx
    · intro hne; exact absurd hmt hne
    · rw [hkt]; intro x hx; cases hx
    · rw [hkt]; simp
    · intro t ht h0; exact htr (h0 ▸ ht)
    · intro t ht h0; exact has (h0 ▸ ht)
    · intro t ht h0; exact hxs (h0 ▸ ht)
    · exact le_trans (by norm_num) hlen
  obtain ⟨m2, h1, h2, -, h4, -, -, -, h8, h9, h10, -⟩ := Parse_Encode_fields o2 o3 hrt
  exact ⟨⟨m2, h1, h2, h10 hlen, h4, h8, h9⟩, QueryUnescape_QueryEscape⟩

/-- C18 at a Magnet whose strings contain `&`, `=`, `%`, `+`, spaces and `magnet:?`. -/
theorem C18_decoded_fields_survive_witness :
    ∃ m2, Parse RangeOrder.insertion
          (Encode RangeOrder.insertion
            { DisplayName := B "a&b=c%+ magnet:?", ExactLength := 7,
              Trackers := [B "t&r=1", B "t&r=1", B "magnet:?xt=z"],
              ExactSource := [B "%zz", B "+ +"] }) = .ok m2
      ∧ m2.DisplayName = B "a&b=c%+ magnet:?"
      ∧ m2.ExactLength = 7
      ∧ m2.ExactSource = [B "%zz", B "+ +"]
      ∧ (∀ s, s ∈ m2.Trackers ↔ s ∈ [B "t&r=1", B "t&r=1", B "magnet:?xt=z"])
      ∧ (∀ s, s ∈ m2.AcceptableSources ↔ s ∈ ([] : List Str)) :=
  (C18_decoded_fields_survive RangeOrder.insertion RangeOrder.insertion
    { DisplayName := B "a&b=c%+ magnet:?", ExactLength := 7,
      Trackers := [B "t&r=1", B "t&r=1", B "magnet:?xt=z"],
      ExactSource := [B "%zz", B "+ +"] }
    rfl rfl rfl rfl (by decide) (by decide) (by decide) (by decide) (by decide)).1

/-- C19 as stated (equal encodings after `Normalize`) fails when `Extra` has two keys: the
entries of the map are written in the order of the visit, which Go leaves unspecified, so the
same normalized Magnet is encoded as `magnet:?dn=&x.a=1&x.b=2` under one order and as
`magnet:?dn=&x.b=2&x.a=1` under another.  It is so for the function `Normalize` and for the
method run in memory on the Magnet stored with every slice in an array of its own. -/
theorem C19_extra_order_changes_encoding :
    Encode RangeOrder.insertion
        (Normalize { Extra := [(B "x.a", [B "1"]), (B "x.b", [B "2"])] })
        = B "magnet:?dn=&x.a=1&x.b=2"
      ∧ Encode RangeOrder.reversed
          (Normalize { Extra := [(B "x.a", [B "1"]), (B "x.b", [B "2"])] })
        = B "magnet:?dn=&x.b=2&x.a=1"
      ∧ Encode RangeOrder.insertion
          (Normalize { Extra := [(B "x.a", [B "1"]), (B "x.b", [B "2"])] })
        ≠ Encode RangeOrder.reversed
          (Normalize { Extra := [(B "x.a", [B "1"]), (B "x.b", [B "2"])] })
      ∧ (store { Extra := [(B "x.a", [B "1"]), (B "x.b", [B "2"])] }).2.separateStorage
          (store { Extra := [(B "x.a", [B "1"]), (B "x.b", [B "2"])] }).1 = true
      ∧ Encode RangeOrder.insertion
          ((store { Extra := [(B "x.a", [B "1"]), (B "x.b", [B "2"])] }).2.value
            ((store { Extra := [(B "x.a", [B "1"]), (B "x.b", [B "2"])] }).2.Normalize
              VisitOrder.insertion
              (store { Extra := [(B "x.a", [B "1"]), (B "x.b", [B "2"])] }).1))
        = B "magnet:?dn=&x.a=1&x.b=2"
      ∧ Encode RangeOrder.reversed
          ((store { Extra := [(B "x.a", [B "1"]), (B "x.b", [B "2"])] }).2.value
            ((store { Extra := [(B "x.a", [B "1"]), (B "x.b", [B "2"])] }).2.Normalize
              VisitOrder.insertion
              (store { Extra := [(B "x.a", [B "1"]), (B "x.b", [B "2"])] }).1))
        = B "magnet:?dn=&x.b=2&x.a=1" := by
  decide

/-- C19 amended: let `a` and `b` be two Magnets in memory of whose slices no two share an
element of a backing array (neither within one Magnet nor between the two, as for Magnets that
`Parse` returned), with the same `DisplayName`, `ExactLength` and `ManifestTopic`,
`ExactTopics`, `Trackers` and `AcceptableSources` with the same elements and without duplicates
(as in every Magnet `Parse` returns), and `ExactSource` and `KeywordTopic` that are
permutations of each other.  After `a.Normalize()` and `b.Normalize()`, if the two calls of
`Encode` visit the entries of `Extra` in the same order, then `a.Encode() = b.Encode()`; this
is so whenever the common `Extra` has at most one entry.  The second `Normalize` leaves the
first Magnet as it was normalized, so it does not matter whether `a` is encoded before or
after `b.Normalize()`. -/
theorem C19_normalize_canonical (o1 o2 : RangeOrder) (va vb : VisitOrder) (h : Heap)
    (a b : MagnetMem)
    (hsep : storageSeparate h (a.slices ++ b.slices) = true)
    (hdn : (a.value h).DisplayName = (b.value h).DisplayName)
    (hxl : (a.value h).ExactLength = (b.value h).ExactLength)
    (hmt : (a.value h).ManifestTopic = (b.value h).ManifestTopic)
    (hsets : ((a.value h).ExactTopics.Nodup ∧ (a.value h).Trackers.Nodup
          ∧ (a.value h).AcceptableSources.Nodup ∧ (b.value h).ExactTopics.Nodup
          ∧ (b.value h).Trackers.Nodup ∧ (b.value h).AcceptableSources.Nodup)
        ∨ ((∃ p1 raw1, Parse p1 raw1 = .ok (a.value h))
          ∧ (∃ p2 raw2, Parse p2 raw2 = .ok (b.value h))))
    (hxt : ∀ s, s ∈ (a.value h).ExactTopics ↔ s ∈ (b.value h).ExactTopics)
    (htr : ∀ s, s ∈ (a.value h).Trackers ↔ s ∈ (b.value h).Trackers)
    (has : ∀ s, s ∈ (a.value h).AcceptableSources ↔ s ∈ (b.value h).AcceptableSources)
    (hxs : (a.value h).ExactSource.Perm (b.value h).ExactSource)
    (hkt : (a.value h).KeywordTopic.Perm (b.value h).KeywordTopic) :
    (o1.extra (a.value (a.Normalize va h)).Extra
          = o2.extra (b.value (b.Normalize vb (a.Normalize va h))).Extra →
        Encode o1 (a.value (a.Normalize va h))
          = Encode o2 (b.value (b.Normalize vb (a.Normalize va h))))
      ∧ ((a.value h).Extra = (b.value h).Extra → (a.value h).Extra.length ≤ 1 →
        Encode o1 (a.value (a.Normalize va h))
          = Encode o2 (b.value (b.Normalize vb (a.Normalize va h))))
      ∧ a.value (b.Normalize vb (a.Normalize va h)) = a.value (a.Normalize va h) := by
  obtain ⟨ea, eb, eab⟩ := MagnetMem.value_Normalize_two va vb hsep
  rw [ea, eb] at *
  have hnd : (a.value h).ExactTopics.Nodup ∧ (a.value h).Trackers.Nodup
      ∧ (a.value h).AcceptableSources.Nodup ∧ (b.value h).ExactTopics.Nodup
      ∧ (b.value h).Trackers.Nodup ∧ (b.value h).AcceptableSources.Nodup := by
    rcases hsets with h | ⟨⟨p1, raw1, h1⟩, ⟨p2, raw2, h2⟩⟩
    · exact h
    · obtain ⟨a1, a2, a3⟩ := Parse_nodup h1
      obtain ⟨b1, b2, b3⟩ := Parse_nodup h2
      exact ⟨a1, a2, a3, b1, b2, b3⟩
  obtain ⟨a1, a2, a3, b1, b2, b3⟩ := hnd
  have hmain : o1.extra (Normalize (a.value h)).Extra = o2.extra (Normalize (b.value h)).Extra →
      Encode o1 (Normalize (a.value h)) = Encode o2 (Normalize (b.value h)) :=
    Encode_Normalize_eq o1 o2 hdn hxl hmt
      ((List.perm_ext_iff_of_nodup a1 b1).mpr hxt)
      ((List.perm_ext_iff_of_nodup a2 b2).mpr htr)
      ((List.perm_ext_iff_of_nodup a3 b3).mpr has) hxs hkt
  exact ⟨hmain, fun hab hlen => hmain (extra_visit_eq_of_length_le_one o1 o2 hab hlen), eab⟩

/-- C19 amended at the two Magnets of `reorderedHeap`, parsed from
`magnet:?xt=b&tr=t&xt=a&xt=b&xs=y&xs=x&x.k=2&x.k=1` and from
`magnet:?x.k=2&xs=x&xt=a&tr=t&tr=t&x.k=1&xs=y&xt=b`: the first has `ExactTopics = [b, a]` and
`ExactSource = [y, x]`, the second `ExactTopics = [a, b]` and `ExactSource = [x, y]`; after
`Normalize` both are encoded as `magnet:?dn=&xt=a&xt=b&tr=t&xs=x&xs=y&x.k=1&x.k=2`. -/
theorem C19_normalize_canonical_witness :
    (reorderedFirst.value reorderedHeap).ExactTopics = [B "b", B "a"]
      ∧ (reorderedSecond.value reorderedHeap).ExactTopics = [B "a", B "b"]
      ∧ Encode RangeOrder.reversed
          (reorderedSecond.value
            (reorderedSecond.Normalize VisitOrder.reversed
              (reorderedFirst.Normalize VisitOrder.insertion reorderedHeap)))
        = B "magnet:?dn=&xt=a&xt=b&tr=t&xs=x&xs=y&x.k=1&x.k=2"
      ∧ Encode RangeOrder.insertion
          (reorderedFirst.value (reorderedFirst.Normalize VisitOrder.insertion reorderedHeap))
        = Encode RangeOrder.reversed
          (reorderedSecond.value
            (reorderedSecond.Normalize VisitOrder.reversed
              (reorderedFirst.Normalize VisitOrder.insertion reorderedHeap))) :=
  ⟨by decide, by decide, by decide,
    (C19_normalize_canonical RangeOrder.insertion RangeOrder.reversed VisitOrder.insertion
      VisitOrder.reversed reorderedHeap reorderedFirst reorderedSecond (by decide) rfl rfl rfl
      (Or.inr ⟨⟨RangeOrder.insertion,
          B "magnet:?xt=b&tr=t&xt=a&xt=b&xs=y&xs=x&x.k=2&x.k=1", by decide⟩,
        ⟨RangeOrder.insertion,
          B "magnet:?x.k=2&xs=x&xt=a&tr=t&tr=t&x.k=1&xs=y&xt=b", by decide⟩⟩)
      (fun s => (by simp [or_comm] : s ∈ [B "b", B "a"] ↔ s ∈ [B "a", B "b"]))
      (fun s => Iff.rfl) (fun s => Iff.rfl)
      (List.Perm.swap _ _ _) (List.Perm.refl _)).2.1 (by decide) (by decide)⟩

/-- C20: if `Parse` succeeds on `raw` with a Magnet `m1` whose `Extra` is empty, then
`Parse(Encode(m1))` succeeds with a Magnet `m2` that has the same `DisplayName`,
`ManifestTopic`, `ExactSource` and `KeywordTopic`, an empty `Extra`, the same elements in
`ExactTopics`, `Trackers` and `AcceptableSources`, and the same `ExactLength` when that is not
negative (a negative length is not written and reads back as `0`).  It rests on `m1` being a
Magnet that round-trips: its raw values have no `&`, no `=` and no `magnet:?`, no stored value
other than a keyword is empty, and no keyword contains `+`. -/
theorem C20_roundtrip_without_extra (o1 o2 o3 : RangeOrder) (raw : Str) (m1 : Magnet)
    (h : Parse o1 raw = .ok m1) (hextra : m1.Extra = []) :
    (∃ m2, Parse o3 (Encode o2 m1) = .ok m2
        ∧ m2.DisplayName = m1.DisplayName
        ∧ m2.ManifestTopic = m1.ManifestTopic
        ∧ m2.ExactSource = m1.ExactSource
        ∧ m2.KeywordTopic = m1.KeywordTopic
        ∧ m2.Extra = []
        ∧ (∀ s, s ∈ m2.ExactTopics ↔ s ∈ m1.ExactTopics)
        ∧ (∀ s, s ∈ m2.Trackers ↔ s ∈ m1.Trackers)
        ∧ (∀ s, s ∈ m2.AcceptableSources ↔ s ∈ m1.AcceptableSources)
        ∧ (0 ≤ m1.ExactLength → m2.ExactLength = m1.ExactLength)
        ∧ (m1.ExactLength < 0 → m2.ExactLength = 0))
      ∧ roundTrips m1 :=
  ⟨Parse_Encode_fields o2 o3 (roundTrips_of_Parse h hextra), roundTrips_of_Parse h hextra⟩

/-- C20 at `magnet:?xt=urn:btih:QUJD==&kt=a++b&tr=x%26y&dn=My%20File&xl=-5&mt=m&xs=s`. -/
theorem C20_roundtrip_without_extra_witness :
    ∃ m2, Parse RangeOrder.insertion
          (Encode RangeOrder.insertion
            { ExactTopics := [B "urn:btih:QUJD"], DisplayName := B "My File", ExactLength := -5,
              Trackers := [B "x&y"], ExactSource := [B "s"],
              KeywordTopic := [B "a", B "", B "b"], ManifestTopic := B "m" }) = .ok m2
      ∧ m2.DisplayName = B "My File"
      ∧ m2.KeywordTopic = [B "a", B "", B "b"]
      ∧ (∀ s, s ∈ m2.ExactTopics ↔ s ∈ [B "urn:btih:QUJD"])
      ∧ m2.ExactLength = 0 :=
  have h := (C20_roundtrip_without_extra RangeOrder.insertion RangeOrder.insertion
    RangeOrder.insertion
    (B "magnet:?xt=urn:btih:QUJD==&kt=a++b&tr=x%26y&dn=My%20File&xl=-5&mt=m&xs=s")
    { ExactTopics := [B "urn:btih:QUJD"], DisplayName := B "My File", ExactLength := -5,
      Trackers := [B "x&y"], ExactSource := [B "s"],
      KeywordTopic := [B "a", B "", B "b"], ManifestTopic := B "m" }
    (by decide) rfl).1
  match h with
  | ⟨m2, h1, h2, _, _, h5, _, h7, _, _, _, h11⟩ => ⟨m2, h1, h2, h5, h7, h11 (by decide)⟩

end Magneturi
